import Mathlib

/-! # HiPerC discretization kernels: a shallow embedding

The diffusion and spinodal kernels of `src/cpu/openmp/discretization.c`,
`src/cpu/tbb/discretization.cpp`, `src/cpu-openmp-spinodal/openmp_discretization.c`
and `src/gpu-openacc-diffusion/openacc_discretization.c`, over exact arithmetic in an
arbitrary field `K` (the C type `double` / `fp_t`; an ordered field `F` where the code
compares two doubles or divides by one that may be zero), with the parallel loops
taken sequentially.  The functions `sqrt` and `erf` and the constant `M_PI` of `math.h`
are parameters of the definitions that use them.

* A `double**` array is a `Grid K`, a list of rows.  Every subscript `F[j][i]`
  goes through `Grid.rd` / `Grid.wr`, which return `none` when the subscript is
  outside the array (undefined behaviour in C).
* C `int` values are `Int`; `a/b` is `cdiv a b`, truncating toward zero.  The index
  expressions of the kernels stay between `-nm` and `max nx ny`, so they do not wrap
  around for sizes that are themselves `int`s.
* `for (k = lo; k < hi; k++) body` is `forLoop lo hi body`.
* In the OpenMP and TBB `check_solution` a quotient with a zero divisor and the square root of a negative
  number are no numbers of the field (the double is an infinity or NaN): `fdiv` and
  `analytical_value_call` return `none` there, and so does the function.
* The arrays a function receives are distinct buffers (the double-buffering
  discipline of the callers); they are the fields of a memory record that the
  loops thread through.
-/

set_option linter.unusedSectionVars false
set_option linter.unusedVariables false

namespace HiPerC

variable {K : Type} [Field K]

/-! ## Arrays, integer division, loops -/

/-- A two-dimensional array `double**`, stored as a list of rows. -/
abbrev Grid (K : Type) := List (List K)

/-- C integer division `a / b`: the quotient truncated toward zero. -/
def cdiv (a b : Int) : Int := Int.tdiv a b

/-- The read `F[j][i]`; `none` when a subscript is out of bounds. -/
def Grid.rd (F : Grid K) (j i : Int) : Option K :=
  if 0 ≤ j ∧ 0 ≤ i then
    match F[j.toNat]? with
    | none => none
    | some row => row[i.toNat]?
  else none

/-- The write `F[j][i] = v`; `none` when a subscript is out of bounds. -/
def Grid.wr (F : Grid K) (j i : Int) (v : K) : Option (Grid K) :=
  if 0 ≤ j ∧ 0 ≤ i then
    match F[j.toNat]? with
    | none => none
    | some row =>
      if i.toNat < row.length then some (F.set j.toNat (row.set i.toNat v)) else none
  else none

/-- The value stored at `F[j][i]`, and `0` outside the array: a total accessor used
to state results. -/
def Grid.val (F : Grid K) (j i : Int) : K := (F.rd j i).getD 0

/-- The array `F` has `ny` rows of `nx` entries each. -/
def Grid.HasShape (F : Grid K) (ny nx : Nat) : Prop :=
  F.length = ny ∧ ∀ row ∈ F, row.length = nx

instance (F : Grid K) (ny nx : Nat) : Decidable (F.HasShape ny nx) :=
  inferInstanceAs (Decidable (F.length = ny ∧ ∀ row ∈ F, row.length = nx))

/-- The constant `ny`-by-`nx` array holding `k` everywhere. -/
def Grid.const (ny nx : Nat) (k : K) : Grid K := List.replicate ny (List.replicate nx k)

/-- Loop with a known trip count: `n` iterations of `body`, the counter starting at `k`. -/
def forLoopAux {σ : Type} (body : Int → σ → Option σ) : Nat → Int → σ → Option σ
  | 0, _, s => some s
  | n + 1, k, s => (body k s).bind (forLoopAux body n (k + 1))

/-- The loop `for (k = lo; k < hi; k++) body`: it runs `max 0 (hi - lo)` times. -/
def forLoop {σ : Type} (lo hi : Int) (body : Int → σ → Option σ) (s : σ) : Option σ :=
  forLoopAux body (hi - lo).toNat lo s

/-! ## `src/cpu/openmp/discretization.c` -/

/-- The arrays `compute_convolution(A, C, M, ...)` works on. -/
structure ConvMem (K : Type) where
  A : Grid K
  C : Grid K
  M : Grid K

/-- The arrays and the time counter `solve_diffusion_equation(A, B, C, ..., elapsed)`
works on. -/
structure StepMem (K : Type) where
  A : Grid K
  B : Grid K
  C : Grid K
  elapsed : K

namespace openmp

/-- The five assignments of `five_point_Laplacian_stencil(dx, dy, M)`. -/
def five_point_Laplacian_stencil (dx dy : K) (M : Grid K) : Option (Grid K) := do
  let M ← M.wr 0 1 (1 / (dy * dy))
  let M ← M.wr 1 0 (1 / (dx * dx))
  let M ← M.wr 1 1 (-2 * (dx * dx + dy * dy) / (dx * dx * dy * dy))
  let M ← M.wr 1 2 (1 / (dx * dx))
  let M ← M.wr 2 1 (1 / (dy * dy))
  pure M

/-- The function `set_mask(dx, dy, nm, M)`: it calls the five-point stencil and never
looks at `nm`. -/
def set_mask (dx dy : K) (_nm : Int) (M : Grid K) : Option (Grid K) :=
  five_point_Laplacian_stencil dx dy M

/-- The function `compute_convolution(A, C, M, nx, ny, nm)`. -/
def compute_convolution (A C M : Grid K) (nx ny nm : Int) : Option (ConvMem K) :=
  forLoop (cdiv nm 2) (ny - cdiv nm 2) (fun j s =>
    forLoop (cdiv nm 2) (nx - cdiv nm 2) (fun i s => do
      let value ← forLoop (cdiv (-nm) 2) (cdiv nm 2 + 1) (fun mj value =>
        forLoop (cdiv (-nm) 2) (cdiv nm 2 + 1) (fun mi value => do
          let m ← s.M.rd (mj + cdiv nm 2) (mi + cdiv nm 2)
          let a ← s.A.rd (j + mj) (i + mi)
          pure (value + m * a)) value) 0
      let C' ← s.C.wr j i value
      pure { s with C := C' }) s) ⟨A, C, M⟩

/-- The function `solve_diffusion_equation(A, B, C, nx, ny, nm, D, dt, elapsed)`;
the last argument is the value `*elapsed` holds at the call. -/
def solve_diffusion_equation (A B C : Grid K) (nx ny nm : Int) (D dt elapsed : K) :
    Option (StepMem K) := do
  let s ← forLoop (cdiv nm 2) (ny - cdiv nm 2) (fun j s =>
    forLoop (cdiv nm 2) (nx - cdiv nm 2) (fun i s => do
      let a ← s.A.rd j i
      let c ← s.C.rd j i
      let B' ← s.B.wr j i (a + dt * D * c)
      pure { s with B := B' }) s) (⟨A, B, C, elapsed⟩ : StepMem K)
  pure { s with elapsed := s.elapsed + dt }

end openmp

/-! ## `src/cpu/tbb/discretization.cpp` -/

namespace tbb

/-- The library class `tbb::blocked_range<int>`: the half-open interval
`[my_begin, my_end)`. -/
structure blocked_range where
  my_begin : Int
  my_end : Int

/-- The method `blocked_range::empty()`: true when `!(my_begin < my_end)`. -/
def blocked_range.empty (r : blocked_range) : Bool := !decide (r.my_begin < r.my_end)

/-- The library class `tbb::blocked_range2d<int>`: a range of rows and a range of
columns. -/
structure blocked_range2d where
  rows : blocked_range
  cols : blocked_range

/-- The constructor `blocked_range2d(row_begin, row_end, row_grainsize, col_begin,
col_end, col_grainsize)`: the first interval is `rows()`, the second `cols()`. -/
def blocked_range2d.ctor (row_begin row_end : Int) (_row_grainsize : Nat)
    (col_begin col_end : Int) (_col_grainsize : Nat) : blocked_range2d :=
  ⟨⟨row_begin, row_end⟩, ⟨col_begin, col_end⟩⟩

/-- The method `blocked_range2d::empty()`. -/
def blocked_range2d.empty (r : blocked_range2d) : Bool := r.rows.empty || r.cols.empty

/-- The call `tbb::parallel_for(range, body)`, taken sequentially: nothing runs on an
empty range, otherwise the body runs on the range.  (The library may hand the body
disjoint sub-blocks that cover the range instead; a range whose sides do not exceed
the grain size is always passed whole.) -/
def parallel_for {σ : Type} (range : blocked_range2d)
    (body : blocked_range2d → σ → Option σ) (s : σ) : Option σ :=
  if range.empty then some s else body range s

/-- The five assignments of `five_point_Laplacian_stencil(dx, dy, M)` in the TBB
backend. -/
def five_point_Laplacian_stencil (dx dy : K) (M : Grid K) : Option (Grid K) := do
  let M ← M.wr 0 1 (1 / (dy * dy))
  let M ← M.wr 1 0 (1 / (dx * dx))
  let M ← M.wr 1 1 (-2 * (dx * dx + dy * dy) / (dx * dx * dy * dy))
  let M ← M.wr 1 2 (1 / (dx * dx))
  let M ← M.wr 2 1 (1 / (dy * dy))
  pure M

/-- The function `set_mask(dx, dy, nm, M)` of the TBB backend. -/
def set_mask (dx dy : K) (_nm : Int) (M : Grid K) : Option (Grid K) :=
  five_point_Laplacian_stencil dx dy M

/-- The constant `tbb_bs`. -/
def tbb_bs : Nat := 16

/-- The function `compute_convolution(A, C, M, nx, ny, nm)` of the TBB backend.  The
loops `for (j = begin; j != end; j++)` run on non-empty intervals only, where they
agree with `forLoop`. -/
def compute_convolution (A C M : Grid K) (nx ny nm : Int) : Option (ConvMem K) :=
  parallel_for
    (blocked_range2d.ctor (cdiv nm 2) (ny - cdiv nm 2) tbb_bs (cdiv nm 2) (nx - cdiv nm 2) tbb_bs)
    (fun r s =>
      forLoop r.cols.my_begin r.cols.my_end (fun j s =>
        forLoop r.rows.my_begin r.rows.my_end (fun i s => do
          let value ← forLoop (cdiv (-nm) 2) (cdiv nm 2 + 1) (fun mj value =>
            forLoop (cdiv (-nm) 2) (cdiv nm 2 + 1) (fun mi value => do
              let m ← s.M.rd (mj + cdiv nm 2) (mi + cdiv nm 2)
              let a ← s.A.rd (j + mj) (i + mi)
              pure (value + m * a)) value) 0
          let C' ← s.C.wr j i value
          pure { s with C := C' }) s) s)
    ⟨A, C, M⟩

/-- The function `solve_diffusion_equation(A, B, C, nx, ny, nm, D, dt, elapsed)` of the
TBB backend. -/
def solve_diffusion_equation (A B C : Grid K) (nx ny nm : Int) (D dt elapsed : K) :
    Option (StepMem K) := do
  let s ← parallel_for
    (blocked_range2d.ctor (cdiv nm 2) (ny - cdiv nm 2) tbb_bs (cdiv nm 2) (nx - cdiv nm 2) tbb_bs)
    (fun r s =>
      forLoop r.cols.my_begin r.cols.my_end (fun j s =>
        forLoop r.rows.my_begin r.rows.my_end (fun i s => do
          let a ← s.A.rd j i
          let c ← s.C.rd j i
          let B' ← s.B.wr j i (a + dt * D * c)
          pure { s with B := B' }) s) s)
    (⟨A, B, C, elapsed⟩ : StepMem K)
  pure { s with elapsed := s.elapsed + dt }

end tbb

/-! ## `src/cpu-openmp-spinodal/openmp_discretization.c` -/

/-- The arrays `compute_laplacian(conc_old, conc_lap, mask_lap, ...)` works on. -/
structure LapMem (K : Type) where
  conc_old : Grid K
  conc_lap : Grid K
  mask_lap : Grid K

/-- The arrays `compute_divergence(conc_lap, conc_div, mask_lap, ...)` works on. -/
structure DivMem (K : Type) where
  conc_lap : Grid K
  conc_div : Grid K
  mask_lap : Grid K

/-- The arrays `update_composition(conc_old, conc_div, conc_new, ...)` works on. -/
structure UpdMem (K : Type) where
  conc_old : Grid K
  conc_div : Grid K
  conc_new : Grid K

namespace spinodal

/-- The function `dfdc(C)`, with the constants `Ca = 0.3`, `Cb = 0.7`, `rho = 5.0`. -/
def dfdc (C : K) : K :=
  let Ca : K := 3 / 10
  let Cb : K := 7 / 10
  let rho : K := 5
  let A := C - Ca
  let B := Cb - C
  2 * rho * A * B * (Ca + Cb - 2 * C)

/-- The function `compute_laplacian(conc_old, conc_lap, mask_lap, kappa, nx, ny, nm)`. -/
def compute_laplacian (conc_old conc_lap mask_lap : Grid K) (kappa : K) (nx ny nm : Int) :
    Option (LapMem K) :=
  forLoop (cdiv nm 2) (ny - cdiv nm 2) (fun j s =>
    forLoop (cdiv nm 2) (nx - cdiv nm 2) (fun i s => do
      let value ← forLoop (cdiv (-nm) 2) (cdiv nm 2 + 1) (fun mj value =>
        forLoop (cdiv (-nm) 2) (cdiv nm 2 + 1) (fun mi value => do
          let m ← s.mask_lap.rd (mj + cdiv nm 2) (mi + cdiv nm 2)
          let a ← s.conc_old.rd (j + mj) (i + mi)
          pure (value + m * a)) value) 0
      let c ← s.conc_old.rd j i
      let L ← s.conc_lap.wr j i (dfdc c - kappa * value)
      pure { s with conc_lap := L }) s) ⟨conc_old, conc_lap, mask_lap⟩

/-- The function `compute_divergence(conc_lap, conc_div, mask_lap, nx, ny, nm)`. -/
def compute_divergence (conc_lap conc_div mask_lap : Grid K) (nx ny nm : Int) :
    Option (DivMem K) :=
  forLoop (cdiv nm 2) (ny - cdiv nm 2) (fun j s =>
    forLoop (cdiv nm 2) (nx - cdiv nm 2) (fun i s => do
      let value ← forLoop (cdiv (-nm) 2) (cdiv nm 2 + 1) (fun mj value =>
        forLoop (cdiv (-nm) 2) (cdiv nm 2 + 1) (fun mi value => do
          let m ← s.mask_lap.rd (mj + cdiv nm 2) (mi + cdiv nm 2)
          let a ← s.conc_lap.rd (j + mj) (i + mi)
          pure (value + m * a)) value) 0
      let Dv ← s.conc_div.wr j i value
      pure { s with conc_div := Dv }) s) ⟨conc_lap, conc_div, mask_lap⟩

/-- The function `update_composition(conc_old, conc_div, conc_new, nx, ny, nm, M, dt)`. -/
def update_composition (conc_old conc_div conc_new : Grid K) (nx ny nm : Int) (M dt : K) :
    Option (UpdMem K) :=
  forLoop (cdiv nm 2) (ny - cdiv nm 2) (fun j s =>
    forLoop (cdiv nm 2) (nx - cdiv nm 2) (fun i s => do
      let a ← s.conc_old.rd j i
      let d ← s.conc_div.rd j i
      let N ← s.conc_new.wr j i (a + dt * M * d)
      pure { s with conc_new := N }) s) ⟨conc_old, conc_div, conc_new⟩

end spinodal

/-! ## `check_solution` in `src/cpu/openmp/discretization.c` -/

/-- The value of an `int * int` product: computed in 32 bits, two's complement. -/
def wrap32 (x : Int) : Int := (x + 2147483648) % 4294967296 - 2147483648

/-- The quotient `x / y` of two doubles.  It is a number of the field when the divisor is
not zero; with a zero divisor the double is an infinity or NaN, and there is no value. -/
def fdiv {F : Type} [LinearOrderedField F] (x y : F) : Option F :=
  if y = 0 then none else some (x / y)

namespace openmp

/-- The function `analytical_value(x, t, D, bc, c)`; the result is the value stored in
`*c`.  `sqrt` and `erf` are the functions of `math.h`; `bc` is the array `double bc[2][2]`. -/
def analytical_value (sqrt erf : K → K) (x t D : K) (bc : Fin 2 → Fin 2 → K) : K :=
  bc 1 0 * (1 - erf (x / sqrt (4 * D * t)))

/-- The call `analytical_value(x, t, D, bc, &c)` as `check_solution` makes it: the value
stored in `*c` is the number `analytical_value x t D bc` when `4*D*t` lies in the domain of
`sqrt` and the divisor `sqrt(4*D*t)` is not zero.  Otherwise `sqrt` gives NaN or the
quotient is an infinity or NaN, and there is no value. -/
def analytical_value_call {F : Type} [LinearOrderedField F] (sqrt erf : F → F) (x t D : F)
    (bc : Fin 2 → Fin 2 → F) : Option F :=
  if 0 ≤ 4 * D * t ∧ sqrt (4 * D * t) ≠ 0 then some (analytical_value sqrt erf x t D bc)
  else none

/-- The first value of `r` in the body of `check_solution`: the distance from cell `(j, i)`
to the left-wall source. -/
def left_distance (sqrt : K → K) (ny : Int) (dx dy : K) (nm : Int) (j i : Int) : K :=
  if j < cdiv ny 2 then dx * ((i - cdiv nm 2 : Int) : K)
  else sqrt (dx * dx * ((i - cdiv nm 2 : Int) : K) * ((i - cdiv nm 2 : Int) : K)
    + dy * dy * ((j - cdiv ny 2 : Int) : K) * ((j - cdiv ny 2 : Int) : K))

/-- The second value of `r` in the body of `check_solution`: the distance from cell
`(j, i)` to the right-wall source. -/
def right_distance (sqrt : K → K) (nx ny : Int) (dx dy : K) (nm : Int) (j i : Int) : K :=
  if j ≥ cdiv ny 2 then dx * ((nx - cdiv nm 2 - 1 - i : Int) : K)
  else sqrt (dx * dx * ((nx - cdiv nm 2 - 1 - i : Int) : K) * ((nx - cdiv nm 2 - 1 - i : Int) : K)
    + dy * dy * ((cdiv ny 2 - j : Int) : K) * ((cdiv ny 2 - j : Int) : K))

/-- The value `ca = cal + car` in the body of `check_solution` at cell `(j, i)`. -/
def superposition (sqrt erf : K → K) (nx ny : Int) (dx dy : K) (nm : Int) (elapsed D : K)
    (bc : Fin 2 → Fin 2 → K) (j i : Int) : K :=
  let cal := analytical_value sqrt erf (left_distance sqrt ny dx dy nm j i) elapsed D bc
  let car := analytical_value sqrt erf (right_distance sqrt nx ny dx dy nm j i) elapsed D bc
  cal + car

/-- The divisor `(double)((nx-nm/2-1) * (ny-nm/2-1))` of `check_solution`. -/
def divisor (nx ny nm : Int) : K :=
  ((wrap32 ((nx - cdiv nm 2 - 1) * (ny - cdiv nm 2 - 1)) : Int) : K)

/-- The function `check_solution(A, nx, ny, dx, dy, nm, elapsed, D, bc, rss)`; the result
is the value stored in `*rss`.  The function writes nothing else.  There is no result
when a subscript is out of bounds, and none when a square root or a quotient of the body
has no value in the field: the double stored in `*rss` is then an infinity or NaN (a NaN
or an infinite term keeps the sum from being a number, and on a non-empty interior with
`sqrt(4*D*elapsed) = 0` the cell at distance 0 from the left-wall source gives `0/0`). -/
def check_solution {F : Type} [LinearOrderedField F] (sqrt erf : F → F) (A : Grid F)
    (nx ny : Int) (dx dy : F) (nm : Int) (elapsed D : F) (bc : Fin 2 → Fin 2 → F) :
    Option F :=
  forLoop (cdiv nm 2) (ny - cdiv nm 2) (fun j sum =>
    forLoop (cdiv nm 2) (nx - cdiv nm 2) (fun i sum => do
      let cn ← A.rd j i
      let cal ← analytical_value_call sqrt erf (left_distance sqrt ny dx dy nm j i)
        elapsed D bc
      let car ← analytical_value_call sqrt erf (right_distance sqrt nx ny dx dy nm j i)
        elapsed D bc
      let ca := cal + car
      let trss ← fdiv ((ca - cn) * (ca - cn)) (divisor nx ny nm)
      pure (sum + trss)) sum) 0

end openmp

/-! ## `check_solution` in `src/cpu/tbb/discretization.cpp` -/

namespace tbb

/-- The function `analytical_value(x, t, D, chi, c)` of the TBB backend. -/
def analytical_value (sqrt erf : K → K) (x t D chi : K) : K :=
  chi * (1 - erf (x / sqrt (4 * D * t)))

/-- The call `analytical_value(x, t, D, chi, &c)` as `operator()` makes it: the number
`analytical_value x t D chi` when `4*D*t` lies in the domain of `sqrt` and the divisor
`sqrt(4*D*t)` is not zero, no value otherwise. -/
def analytical_value_call {F : Type} [LinearOrderedField F] (sqrt erf : F → F)
    (x t D chi : F) : Option F :=
  if 0 ≤ 4 * D * t ∧ sqrt (4 * D * t) ≠ 0 then some (analytical_value sqrt erf x t D chi)
  else none

/-- The class `ResidualSumOfSquares2D`. -/
structure ResidualSumOfSquares2D (K : Type) where
  my_A : Grid K
  my_nx : Int
  my_ny : Int
  my_dx : K
  my_dy : K
  my_nm : Int
  my_elapsed : K
  my_D : K
  my_c : K
  my_rss : K

/-- The constructor `ResidualSumOfSquares2D(A, nx, ny, dx, dy, nm, elapsed, D, c)`. -/
def ResidualSumOfSquares2D.ctor (A : Grid K) (nx ny : Int) (dx dy : K) (nm : Int)
    (elapsed D c : K) : ResidualSumOfSquares2D K :=
  ⟨A, nx, ny, dx, dy, nm, elapsed, D, c, 0⟩

/-- The splitting constructor `ResidualSumOfSquares2D(a, tbb::split)`. -/
def ResidualSumOfSquares2D.split (a : ResidualSumOfSquares2D K) : ResidualSumOfSquares2D K :=
  ⟨a.my_A, a.my_nx, a.my_ny, a.my_dx, a.my_dy, a.my_nm, a.my_elapsed, a.my_D, a.my_c, 0⟩

/-- The residual term the body of `operator()` adds to `sum` at the cell `A[j][i]`; no
value when the subscripts are out of bounds or a square root or a quotient has no value
in the field. -/
def ResidualSumOfSquares2D.term {F : Type} [LinearOrderedField F] (sqrt erf : F → F)
    (b : ResidualSumOfSquares2D F) (j i : Int) : Option F := do
  let A := b.my_A
  let nx := b.my_nx
  let ny := b.my_ny
  let dx := b.my_dx
  let dy := b.my_dy
  let nm := b.my_nm
  let elapsed := b.my_elapsed
  let D := b.my_D
  let c := b.my_c
  let cn ← A.rd j i
  let x : F := if j < cdiv ny 2 then dx * ((i - cdiv nm 2 : Int) : F)
    else sqrt (dx * dx * ((i - cdiv nm 2 : Int) : F) * ((i - cdiv nm 2 : Int) : F)
      + dy * dy * ((j - cdiv ny 2 : Int) : F) * ((j - cdiv ny 2 : Int) : F))
  let cal ← analytical_value_call sqrt erf x elapsed D c
  let x : F := if j ≥ cdiv ny 2 then dx * ((nx - cdiv nm 2 - 1 - i : Int) : F)
    else sqrt (dx * dx * ((nx - cdiv nm 2 - 1 - i : Int) : F)
        * ((nx - cdiv nm 2 - 1 - i : Int) : F)
      + dy * dy * ((cdiv ny 2 - j : Int) : F) * ((cdiv ny 2 - j : Int) : F))
  let car ← analytical_value_call sqrt erf x elapsed D c
  let ca := cal + car
  fdiv ((ca - cn) * (ca - cn))
    ((wrap32 ((nx - cdiv nm 2 - 1) * (ny - cdiv nm 2 - 1)) : Int) : F)

/-- The method `operator()(r)`: starting from `my_rss`, add the residual term of every
cell with `j` in `r.cols()` and `i` in `r.rows()`, and store the sum in `my_rss`.  The
loops `for (j = begin; j != end; j++)` run on non-empty intervals only. -/
def ResidualSumOfSquares2D.call {F : Type} [LinearOrderedField F] (sqrt erf : F → F)
    (b : ResidualSumOfSquares2D F) (r : blocked_range2d) :
    Option (ResidualSumOfSquares2D F) := do
  let sum ← forLoop r.cols.my_begin r.cols.my_end (fun j sum =>
    forLoop r.rows.my_begin r.rows.my_end (fun i sum => do
      let t ← b.term sqrt erf j i
      pure (sum + t)) sum) b.my_rss
  pure { b with my_rss := sum }

/-- The method `join(a)`. -/
def ResidualSumOfSquares2D.join (b a : ResidualSumOfSquares2D K) : ResidualSumOfSquares2D K :=
  { b with my_rss := b.my_rss + a.my_rss }

/-- The call `tbb::parallel_reduce(range, body)`, taken sequentially with the body run
once on the whole range; nothing runs on an empty range. -/
def parallel_reduce {β : Type} (range : blocked_range2d)
    (call : β → blocked_range2d → Option β) (body : β) : Option β :=
  if range.empty then some body else call body range

/-- The function `check_solution(A, nx, ny, dx, dy, nm, elapsed, D, bc, rss)` of the TBB
backend; the result is the value stored in `*rss`. -/
def check_solution {F : Type} [LinearOrderedField F] (sqrt erf : F → F) (A : Grid F)
    (nx ny : Int) (dx dy : F) (nm : Int) (elapsed D : F) (bc : Fin 2 → Fin 2 → F) :
    Option F := do
  let R := ResidualSumOfSquares2D.ctor A nx ny dx dy nm elapsed D (bc 1 0)
  let R ← parallel_reduce
    (blocked_range2d.ctor (cdiv nm 2) (ny - cdiv nm 2) tbb_bs (cdiv nm 2) (nx - cdiv nm 2) tbb_bs)
    (fun b r => b.call sqrt erf r) R
  pure R.my_rss

/-- One action of `parallel_reduce` on its bodies.  The bodies alive are numbered from 0
in the order of their construction, the body 0 being the body `R` of `check_solution`:
`split a` constructs a new body from the body `a`, in the state it has then, by the
splitting constructor; `call a r` applies `operator()` of the body `a` to the sub-range
`r`; `join b a` calls `b.join(a)` and destroys the body `a`. -/
inductive Step where
  | split : Nat → Step
  | call : Nat → blocked_range2d → Step
  | join : Nat → Nat → Step

/-- The bodies after one action on the bodies `bs`. -/
def Step.run {F : Type} [LinearOrderedField F] (sqrt erf : F → F) :
    Step → List (ResidualSumOfSquares2D F) → Option (List (ResidualSumOfSquares2D F))
  | .split a, bs => do
    let x ← bs[a]?
    pure (bs ++ [x.split])
  | .call a r, bs => do
    let x ← bs[a]?
    let y ← x.call sqrt erf r
    pure (bs.set a y)
  | .join b a, bs => do
    let x ← bs[b]?
    let y ← bs[a]?
    pure ((bs.set b (x.join y)).eraseIdx a)

/-- The bodies after the actions of a schedule, carried out in order on the bodies `bs`. -/
def Schedule.run {F : Type} [LinearOrderedField F] (sqrt erf : F → F) :
    List Step → List (ResidualSumOfSquares2D F) → Option (List (ResidualSumOfSquares2D F))
  | [], bs => some bs
  | s :: rest, bs => (s.run sqrt erf bs).bind (Schedule.run sqrt erf rest)

/-- The schedule is well formed when it starts with `n` bodies alive: every action names
bodies that are alive, `join b a` names two different bodies and never destroys the body
0, and at the end only the body 0 is left. -/
def Schedule.wellFormed : List Step → Nat → Bool
  | [], n => decide (n = 1)
  | .split a :: rest, n => decide (a < n) && Schedule.wellFormed rest (n + 1)
  | .call a _ :: rest, n => decide (a < n) && Schedule.wellFormed rest n
  | .join b a :: rest, n =>
    decide (b < n) && decide (a < n) && decide (a ≠ b) && decide (a ≠ 0)
      && Schedule.wellFormed rest (n - 1)

/-- The sub-ranges `operator()` is applied to in a schedule. -/
def Schedule.ranges : List Step → List blocked_range2d
  | [] => []
  | .split _ :: rest => Schedule.ranges rest
  | .call _ r :: rest => r :: Schedule.ranges rest
  | .join _ _ :: rest => Schedule.ranges rest

/-- The pair `(row, col)` lies in the range `r`. -/
def blocked_range2d.contains (r : blocked_range2d) (row col : Int) : Bool :=
  decide (r.rows.my_begin ≤ row ∧ row < r.rows.my_end ∧
    r.cols.my_begin ≤ col ∧ col < r.cols.my_end)

/-- The cells `(j, i)` that `operator()` visits on the range `r`: `j` in `r.cols()` and `i`
in `r.rows()`. -/
def blocked_range2d.cells (r : blocked_range2d) : Finset (Int × Int) :=
  Finset.Ico r.cols.my_begin r.cols.my_end ×ˢ Finset.Ico r.rows.my_begin r.rows.my_end

/-- The sub-ranges `L` are non-empty, pairwise disjoint, and cover `whole`: every pair
`(row, col)` of `whole` lies in exactly one of them, and every other pair in none. -/
def Partitions (L : List blocked_range2d) (whole : blocked_range2d) : Prop :=
  (∀ r ∈ L, r.empty = false) ∧
  ∀ row col : Int,
    (L.countP (fun r => r.contains row col)) = if whole.contains row col then 1 else 0

end tbb

/-! ## `check_solution` in `src/gpu-openacc-diffusion/openacc_discretization.c` -/

namespace openacc

/-- The value assigned to `poly_erf` in the body of `check_solution`, as a function of
`z`: the polynomial for `z < 1.5` and `1.` otherwise.  `sqrt` is the function and `pi`
the constant `M_PI` of `math.h`. -/
def poly_erf {F : Type} [LinearOrderedField F] (sqrt : F → F) (pi : F) (z : F) : F :=
  let z2 := z * z
  if z < 3 / 2 then
    2 * z * (1 + z2 * (-1 / 3 + z2 * (1 / 10 + z2 * (-1 / 42 + z2 / 216)))) / sqrt pi
  else 1

/-- The first value of `r` in the body of `check_solution`: the call of
`distance_point_to_segment` for the left-wall source.  `distance_point_to_segment` is
declared in `numerics.h`; it is a parameter here. -/
def left_distance {F : Type} [LinearOrderedField F]
    (distance_point_to_segment : F → F → F → F → F → F → F)
    (ny : Int) (dx dy : F) (nm : Int) (j i : Int) : F :=
  distance_point_to_segment (dx * ((cdiv nm 2 : Int) : F)) (dy * ((cdiv nm 2 : Int) : F))
    (dx * ((cdiv nm 2 : Int) : F)) (dy * ((cdiv ny 2 : Int) : F))
    (dx * ((i : Int) : F)) (dy * ((j : Int) : F))

/-- The second value of `r` in the body of `check_solution`: the call of
`distance_point_to_segment` for the right-wall source. -/
def right_distance {F : Type} [LinearOrderedField F]
    (distance_point_to_segment : F → F → F → F → F → F → F)
    (nx ny : Int) (dx dy : F) (nm : Int) (j i : Int) : F :=
  distance_point_to_segment (dx * ((nx - 1 - cdiv nm 2 : Int) : F))
    (dy * ((cdiv ny 2 : Int) : F)) (dx * ((nx - 1 - cdiv nm 2 : Int) : F))
    (dy * ((ny - 1 - cdiv nm 2 : Int) : F)) (dx * ((i : Int) : F)) (dy * ((j : Int) : F))

/-- The function `check_solution(conc_new, conc_lap, nx, ny, dx, dy, nm, elapsed, D, bc,
rss)`; the result is the array `conc_lap` after the call and the value stored in `*rss`. -/
def check_solution {F : Type} [LinearOrderedField F] (sqrt : F → F) (pi : F)
    (distance_point_to_segment : F → F → F → F → F → F → F)
    (conc_new conc_lap : Grid F) (nx ny : Int) (dx dy : F) (nm : Int) (elapsed D : F)
    (bc : Fin 2 → Fin 2 → F) : Option (Grid F × F) := do
  let conc_lap ← forLoop (cdiv nm 2) (ny - cdiv nm 2) (fun j conc_lap =>
    forLoop (cdiv nm 2) (nx - cdiv nm 2) (fun i conc_lap => do
      let cn ← conc_new.rd j i
      let r := left_distance distance_point_to_segment ny dx dy nm j i
      let z := r / sqrt (4 * D * elapsed)
      let cal := bc 1 0 * (1 - poly_erf sqrt pi z)
      let r := right_distance distance_point_to_segment nx ny dx dy nm j i
      let z := r / sqrt (4 * D * elapsed)
      let car := bc 1 0 * (1 - poly_erf sqrt pi z)
      let ca := cal + car
      conc_lap.wr j i ((ca - cn) * (ca - cn)
        / ((wrap32 ((nx - 1 - cdiv nm 2) * (ny - 1 - cdiv nm 2)) : Int) : F))) conc_lap)
    conc_lap
  let sum ← forLoop (cdiv nm 2) (ny - cdiv nm 2) (fun j sum =>
    forLoop (cdiv nm 2) (nx - cdiv nm 2) (fun i sum => do
      let t ← conc_lap.rd j i
      pure (sum + t)) sum) (0 : F)
  pure (conc_lap, sum)

end openacc

/-! ## Quantities used to state the results -/

/-- The mask-weighted sum at cell `(j, i)`: the sum over `mj, mi` in `[-r, r]` of
`M[mj+r][mi+r] * A[j+mj][i+mi]`. -/
def stencilSum (M A : Grid K) (r : Nat) (j i : Int) : K :=
  ∑ mj ∈ Finset.Icc (-(r : Int)) r, ∑ mi ∈ Finset.Icc (-(r : Int)) r,
    M.val (mj + r) (mi + r) * A.val (j + mj) (i + mi)

/-- The cell `(j, i)` lies in the interior region `[r, ny-r) x [r, nx-r)`. -/
def Interior (nx ny r : Nat) (j i : Int) : Prop :=
  (r : Int) ≤ j ∧ j < (ny : Int) - r ∧ (r : Int) ≤ i ∧ i < (nx : Int) - r

/-- The time counter after successive calls of `solve_diffusion_equation`, one per
entry `(A, B, C)` of `calls`, each call starting from the `*elapsed` the previous
call left. -/
def elapsed_after (nx ny nm : Int) (D dt : K) : List (Grid K × Grid K × Grid K) → K → Option K
  | [], e => some e
  | (A, B, C) :: rest, e =>
    (openmp.solve_diffusion_equation A B C nx ny nm D dt e).bind
      (fun s => elapsed_after nx ny nm D dt rest s.elapsed)

/-- The sum of the field `F` over the interior region `[r, ny-r) x [r, nx-r)`. -/
def interiorSum (F : Grid K) (nx ny r : Int) : K :=
  ∑ j ∈ Finset.Ico r (ny - r), ∑ i ∈ Finset.Ico r (nx - r), F.val j i

/-- The time loop of a diffusion run: `k` steps, each a call of `compute_convolution`
on the current field `A` followed by a call of `solve_diffusion_equation` into the
second buffer `B`, after which the two buffers are exchanged.  Neither call writes a
ghost cell, so each buffer keeps the ghost values it started with.  The result is the
current field after the last step. -/
def diffusion_steps (M : Grid K) (nx ny nm : Int) (D dt : K) :
    Nat → Grid K → Grid K → Grid K → K → Option (Grid K)
  | 0, A, _, _, _ => some A
  | k + 1, A, B, C, elapsed => do
    let s ← openmp.compute_convolution A C M nx ny nm
    let t ← openmp.solve_diffusion_equation s.A B s.C nx ny nm D dt elapsed
    diffusion_steps M nx ny nm D dt k t.B t.A t.C t.elapsed

/-- The field `F` is antisymmetric about the vertical mid-line of the `ny`-by-`nx` grid, up
to the constant `c`: `F[j][i] + F[j][nx-1-i] = c` at every cell, ghost cells included. -/
def Grid.MirrorSum (F : Grid K) (ny nx : Nat) (c : K) : Prop :=
  ∀ j i : Int, 0 ≤ j → j < ny → 0 ≤ i → i < nx → F.val j i + F.val j ((nx : Int) - 1 - i) = c

/-- The 12-by-12 step-function field of the conservation scenario (a 10-by-10 interior
and one layer of ghost cells): 1 in the columns `i < c`, 0 in the others. -/
def stepField (c : Nat) : Grid ℚ :=
  List.replicate 12 ((List.range 12).map (fun i => if i < c then 1 else 0))

/-- The number `d` is the least Euclidean distance from the point `(px, py)` to the
segment from `(ax, ay)` to `(bx, by)`: it is the distance to a point of the segment, and
no point of the segment is nearer. -/
def IsSegmentDistance {F : Type} [LinearOrderedField F] (sqrt : F → F)
    (ax ay bx by_ px py d : F) : Prop :=
  (∃ t : F, 0 ≤ t ∧ t ≤ 1 ∧
    d = sqrt ((px - (ax + t * (bx - ax))) ^ 2 + (py - (ay + t * (by_ - ay))) ^ 2)) ∧
  ∀ t : F, 0 ≤ t → t ≤ 1 →
    d ≤ sqrt ((px - (ax + t * (bx - ax))) ^ 2 + (py - (ay + t * (by_ - ay))) ^ 2)

/-- The `ny`-by-`nx` field that holds at every cell `(j, i)` the analytical value
`ca(j, i)` that `check_solution` computes there. -/
def analyticalField (sqrt erf : K → K) (nx ny : Nat) (dx dy : K) (nm : Int) (elapsed D : K)
    (bc : Fin 2 → Fin 2 → K) : Grid K :=
  (List.range ny).map (fun (j : Nat) => (List.range nx).map (fun (i : Nat) =>
    openmp.superposition sqrt erf nx ny dx dy nm elapsed D bc (j : Int) (i : Int)))


/-! # Theorems -/

/-! ## Facts about integer division, arrays and loops -/

theorem cdiv_two_natCast (r : Nat) : cdiv ((2 * r + 1 : Nat) : Int) 2 = (r : Int) := by
  unfold cdiv
  rw [Int.tdiv_eq_ediv (by omega) (by omega)]
  omega

theorem cdiv_two_neg_natCast (r : Nat) : cdiv (-((2 * r + 1 : Nat) : Int)) 2 = -(r : Int) := by
  have h := cdiv_two_natCast r
  unfold cdiv at h ⊢
  rw [Int.neg_tdiv, h]

theorem Grid.rd_eq_some_val {F : Grid K} {ny nx : Nat} (hF : F.HasShape ny nx) {j i : Int}
    (hj : 0 ≤ j) (hjn : j < ny) (hi : 0 ≤ i) (hin : i < nx) :
    F.rd j i = some (F.val j i) := by
  obtain ⟨hlen, hrows⟩ := hF
  have hjl : j.toNat < F.length := by omega
  have hrow : (F[j.toNat]).length = nx := hrows _ (List.getElem_mem _)
  have hil : i.toNat < (F[j.toNat]).length := by omega
  have h1 : F.rd j i = some ((F[j.toNat])[i.toNat]) := by
    simp [Grid.rd, hj, hi, List.getElem?_eq_getElem hjl, List.getElem?_eq_getElem hil]
  simp [Grid.val, h1]

theorem Grid.wr_spec {F : Grid K} {ny nx : Nat} (hF : F.HasShape ny nx) {j i : Int}
    (hj : 0 ≤ j) (hjn : j < ny) (hi : 0 ≤ i) (hin : i < nx) (v : K) :
    ∃ F', F.wr j i v = some F' ∧ F'.HasShape ny nx ∧ F'.rd j i = some v ∧
      ∀ j' i' : Int, ¬ (j' = j ∧ i' = i) → F'.rd j' i' = F.rd j' i' := by
  obtain ⟨hlen, hrows⟩ := hF
  have hjl : j.toNat < F.length := by omega
  have hrow : (F[j.toNat]).length = nx := hrows _ (List.getElem_mem _)
  have hil : i.toNat < (F[j.toNat]).length := by omega
  refine ⟨F.set j.toNat ((F[j.toNat]).set i.toNat v), ?_, ⟨?_, ?_⟩, ?_, ?_⟩
  · simp [Grid.wr, hj, hi, List.getElem?_eq_getElem hjl, hil]
  · simp [hlen]
  · intro row hrowmem
    rcases List.mem_or_eq_of_mem_set hrowmem with h | h
    · exact hrows _ h
    · subst h; simp [hrow]
  · simp [Grid.rd, hj, hi, List.getElem?_set, hjl, hil]
  · intro j' i' hne
    unfold Grid.rd
    by_cases hb : 0 ≤ j' ∧ 0 ≤ i'
    · simp only [hb, and_self, if_true]
      by_cases hjj : j' = j
      · subst hjj
        have hii : i.toNat ≠ i'.toNat := by
          intro h; apply hne; refine ⟨rfl, ?_⟩; omega
        simp [List.getElem?_set, hjl, List.getElem?_eq_getElem hjl, hii]
      · have hjj' : j.toNat ≠ j'.toNat := by
          intro h; apply hjj; omega
        simp [List.getElem?_set, hjj']
    · simp [hb]

theorem Grid.const_hasShape (ny nx : Nat) (k : K) : (Grid.const ny nx k).HasShape ny nx := by
  refine ⟨by simp [Grid.const], ?_⟩
  intro row hrow
  rw [Grid.const, List.mem_replicate] at hrow
  rw [hrow.2]; simp

theorem Grid.const_val {ny nx : Nat} (k : K) {j i : Int}
    (hj : 0 ≤ j) (hjn : j < ny) (hi : 0 ≤ i) (hin : i < nx) :
    (Grid.const ny nx k).val j i = k := by
  have hjl : j.toNat < ny := by omega
  have hil : i.toNat < nx := by omega
  simp [Grid.val, Grid.rd, Grid.const, hj, hi, List.getElem?_replicate, hjl, hil]

/-- Hoare rule for a loop with a known trip count: an invariant that every iteration
re-establishes holds at the end, and the loop returns. -/
theorem forLoopAux_spec {σ : Type} (body : Int → σ → Option σ) (I : Int → σ → Prop) :
    ∀ (n : Nat) (lo : Int) (s : σ), I lo s →
      (∀ k s, lo ≤ k → k < lo + n → I k s → ∃ s', body k s = some s' ∧ I (k + 1) s') →
      ∃ s', forLoopAux body n lo s = some s' ∧ I (lo + n) s' := by
  intro n
  induction n with
  | zero => intro lo s h0 _; exact ⟨s, rfl, by simpa using h0⟩
  | succ n ih =>
    intro lo s h0 hstep
    obtain ⟨s1, hb, h1⟩ := hstep lo s (le_refl _) (by push_cast; omega) h0
    obtain ⟨s2, hl, h2⟩ := ih (lo + 1) s1 h1 (fun k s hk hk' hI =>
      hstep k s (by omega) (by push_cast; omega) hI)
    refine ⟨s2, ?_, ?_⟩
    · simp [forLoopAux, hb, hl]
    · have : lo + ((n + 1 : Nat) : Int) = lo + 1 + (n : Int) := by push_cast; ring
      rw [this]; exact h2

/-- Hoare rule for `for (k = lo; k < hi; k++)` with `lo ≤ hi`. -/
theorem forLoop_spec {σ : Type} (body : Int → σ → Option σ) (I : Int → σ → Prop)
    (lo hi : Int) (hle : lo ≤ hi) (s : σ) (h0 : I lo s)
    (hstep : ∀ k s, lo ≤ k → k < hi → I k s → ∃ s', body k s = some s' ∧ I (k + 1) s') :
    ∃ s', forLoop lo hi body s = some s' ∧ I hi s' := by
  have hn : lo + ((hi - lo).toNat : Int) = hi := by omega
  obtain ⟨s', h1, h2⟩ := forLoopAux_spec body I (hi - lo).toNat lo s h0
    (fun k s hk hk' hI => hstep k s hk (by omega) hI)
  exact ⟨s', h1, by rwa [hn] at h2⟩

/-- A loop whose range is empty returns the state it was given. -/
theorem forLoop_empty {σ : Type} (body : Int → σ → Option σ) (lo hi : Int) (h : hi ≤ lo)
    (s : σ) : forLoop lo hi body s = some s := by
  have : (hi - lo).toNat = 0 := by omega
  simp [forLoop, this, forLoopAux]

theorem sum_Ico_succ_int (g : Int → K) {lo k : Int} (h : lo ≤ k) :
    ∑ x ∈ Finset.Ico lo (k + 1), g x = ∑ x ∈ Finset.Ico lo k, g x + g k := by
  have hins : Finset.Ico lo (k + 1) = insert k (Finset.Ico lo k) := by
    ext x; simp only [Finset.mem_Ico, Finset.mem_insert]; omega
  rw [hins, Finset.sum_insert (by simp), add_comm]

theorem Ico_succ_eq_Icc_int (a b : Int) : Finset.Ico a (b + 1) = Finset.Icc a b := by
  ext x; simp only [Finset.mem_Ico, Finset.mem_Icc]; omega

/-- An accumulation loop `for (k = lo; k < hi; k++) v += g k` returns `v` plus the sum
of the `g k`. -/
theorem forLoop_accum (body : Int → K → Option K) (g : Int → K) (lo hi : Int) (hle : lo ≤ hi)
    (hb : ∀ k v, lo ≤ k → k < hi → body k v = some (v + g k)) (v : K) :
    forLoop lo hi body v = some (v + ∑ k ∈ Finset.Ico lo hi, g k) := by
  obtain ⟨s', h1, h2⟩ := forLoop_spec body (fun k s => s = v + ∑ x ∈ Finset.Ico lo k, g x)
    lo hi hle v (by simp) (fun k s hk hk' hI => by
      refine ⟨s + g k, hb k s hk hk', ?_⟩
      show s + g k = v + ∑ x ∈ Finset.Ico lo (k + 1), g x
      have hI' : s = v + ∑ x ∈ Finset.Ico lo k, g x := hI
      rw [sum_Ico_succ_int g hk, hI', add_assoc])
  rw [h1, h2]

/-- The two inner loops of the convolution kernels return the mask-weighted sum when the
mask is `(2r+1)`-by-`(2r+1)` and the cell is interior. -/
theorem stencil_loops {M A : Grid K} {nx ny r : Nat} (hM : M.HasShape (2 * r + 1) (2 * r + 1))
    (hA : A.HasShape ny nx) {j i : Int} (hji : Interior nx ny r j i) :
    forLoop (-(r : Int)) ((r : Int) + 1) (fun mj value =>
      forLoop (-(r : Int)) ((r : Int) + 1) (fun mi value =>
        (M.rd (mj + r) (mi + r)).bind fun m =>
          (A.rd (j + mj) (i + mi)).bind fun a => some (value + m * a)) value) 0
      = some (stencilSum M A r j i) := by
  obtain ⟨h1, h2, h3, h4⟩ := hji
  rw [forLoop_accum _ (fun mj => ∑ mi ∈ Finset.Icc (-(r : Int)) r,
    M.val (mj + r) (mi + r) * A.val (j + mj) (i + mi)) _ _ (by omega)]
  · rw [Ico_succ_eq_Icc_int]; simp [stencilSum]
  · intro mj v hmj hmj'
    rw [forLoop_accum _ (fun mi => M.val (mj + r) (mi + r) * A.val (j + mj) (i + mi)) _ _
      (by omega)]
    · rw [Ico_succ_eq_Icc_int]
    · intro mi w hmi hmi'
      rw [Grid.rd_eq_some_val hM (by omega) (by push_cast; omega) (by omega)
        (by push_cast; omega),
        Grid.rd_eq_some_val hA (by omega) (by omega) (by omega) (by omega)]
      rfl

/-- One row of a cell loop: each iteration writes its own cell `(j, i)` of the output
array `out s` with `val j i`, keeps `Inv`, and leaves every other cell as it was. -/
theorem row_spec {σ : Type} (Inv : σ → Prop) (out : σ → Grid K) (val : Int → Int → K)
    (j lo_i hi_i : Int) (body : Int → σ → Option σ)
    (hbody : ∀ i s, lo_i ≤ i → i < hi_i → Inv s →
      ∃ s', body i s = some s' ∧ Inv s' ∧ (out s').rd j i = some (val j i) ∧
        ∀ j' i' : Int, ¬ (j' = j ∧ i' = i) → (out s').rd j' i' = (out s).rd j' i')
    (s0 : σ) (h0 : Inv s0) :
    ∃ s', forLoop lo_i hi_i body s0 = some s' ∧ Inv s' ∧
      (∀ i : Int, lo_i ≤ i → i < hi_i → (out s').rd j i = some (val j i)) ∧
      (∀ j' i' : Int, ¬ (j' = j ∧ lo_i ≤ i' ∧ i' < hi_i) →
        (out s').rd j' i' = (out s0).rd j' i') := by
  rcases le_or_lt hi_i lo_i with hemp | hlt
  · refine ⟨s0, forLoop_empty body lo_i hi_i hemp s0, h0, ?_, fun _ _ _ => rfl⟩
    intro i h1 h2; omega
  · exact forLoop_spec body (fun k s => Inv s ∧
        (∀ i : Int, lo_i ≤ i → i < k → (out s).rd j i = some (val j i)) ∧
        (∀ j' i' : Int, ¬ (j' = j ∧ lo_i ≤ i' ∧ i' < k) →
          (out s).rd j' i' = (out s0).rd j' i'))
      lo_i hi_i (le_of_lt hlt) s0
      ⟨h0, fun i h1 h2 => by omega, fun _ _ _ => rfl⟩
      (fun k s hk hk' ⟨hInv, hdone, hframe⟩ => by
        obtain ⟨s', hb, hInv', hcell, hother⟩ := hbody k s hk hk' hInv
        refine ⟨s', hb, hInv', ?_, ?_⟩
        · intro i h1 h2
          by_cases hik : i = k
          · subst hik; exact hcell
          · rw [hother j i (by intro h; exact hik h.2)]
            exact hdone i h1 (by omega)
        · intro j' i' hne
          rw [hother j' i' (by intro h; apply hne; refine ⟨h.1, ?_, ?_⟩ <;> omega)]
          exact hframe j' i' (by intro h; apply hne; refine ⟨h.1, h.2.1, ?_⟩; omega))

/-- The loop nest `for j in [lo_j, hi_j) for i in [lo_i, hi_i)` of a kernel: it returns,
keeps `Inv`, writes `val j i` to every cell of the range, and leaves the cells outside
the range as they were. -/
theorem nest_spec {σ : Type} (Inv : σ → Prop) (out : σ → Grid K) (val : Int → Int → K)
    (lo_j hi_j lo_i hi_i : Int) (body : Int → Int → σ → Option σ)
    (hbody : ∀ j i s, lo_j ≤ j → j < hi_j → lo_i ≤ i → i < hi_i → Inv s →
      ∃ s', body j i s = some s' ∧ Inv s' ∧ (out s').rd j i = some (val j i) ∧
        ∀ j' i' : Int, ¬ (j' = j ∧ i' = i) → (out s').rd j' i' = (out s).rd j' i')
    (s0 : σ) (h0 : Inv s0) :
    ∃ s', forLoop lo_j hi_j (fun j s => forLoop lo_i hi_i (fun i s => body j i s) s) s0
        = some s' ∧ Inv s' ∧
      (∀ j i : Int, lo_j ≤ j → j < hi_j → lo_i ≤ i → i < hi_i →
        (out s').rd j i = some (val j i)) ∧
      (∀ j i : Int, ¬ (lo_j ≤ j ∧ j < hi_j ∧ lo_i ≤ i ∧ i < hi_i) →
        (out s').rd j i = (out s0).rd j i) := by
  rcases le_or_lt hi_j lo_j with hemp | hlt
  · refine ⟨s0, forLoop_empty _ lo_j hi_j hemp s0, h0, ?_, fun _ _ _ => rfl⟩
    intro j i h1 h2; omega
  · exact forLoop_spec _ (fun k s => Inv s ∧
        (∀ j i : Int, lo_j ≤ j → j < k → lo_i ≤ i → i < hi_i →
          (out s).rd j i = some (val j i)) ∧
        (∀ j i : Int, ¬ (lo_j ≤ j ∧ j < k ∧ lo_i ≤ i ∧ i < hi_i) →
          (out s).rd j i = (out s0).rd j i))
      lo_j hi_j (le_of_lt hlt) s0
      ⟨h0, fun j i h1 h2 => by omega, fun _ _ _ => rfl⟩
      (fun k s hk hk' ⟨hInv, hdone, hframe⟩ => by
        obtain ⟨s', hb, hInv', hrow, hother⟩ := row_spec Inv out val k lo_i hi_i
          (fun i s => body k i s) (fun i s hi hi' hI => hbody k i s hk hk' hi hi' hI) s hInv
        refine ⟨s', hb, hInv', ?_, ?_⟩
        · intro j i h1 h2 h3 h4
          by_cases hjk : j = k
          · subst hjk; exact hrow i h3 h4
          · rw [hother j i (by intro h; exact hjk h.1)]
            exact hdone j i h1 (by omega) h3 h4
        · intro j i hne
          rw [hother j i (by intro h; apply hne; obtain ⟨rfl, h3, h4⟩ := h
                             exact ⟨hk, by omega, h3, h4⟩)]
          exact hframe j i (by intro h; apply hne; exact ⟨h.1, by omega, h.2.2⟩))

/-- Effect of `compute_convolution` on well-shaped arrays with an odd kernel size
`nm = 2r+1`: it returns, `A` and `M` are unchanged, `C` keeps its shape, every interior
cell of `C` holds the mask-weighted sum and every other cell of `C` is as before. -/
theorem compute_convolution_spec (nx ny nm r : Nat) (hnm : nm = 2 * r + 1)
    (A C M : Grid K) (hA : A.HasShape ny nx) (hC : C.HasShape ny nx)
    (hM : M.HasShape nm nm) :
    ∃ s', openmp.compute_convolution A C M nx ny nm = some s' ∧
      (s'.A = A ∧ s'.M = M ∧ s'.C.HasShape ny nx) ∧
      (∀ j i : Int, (r : Int) ≤ j → j < (ny : Int) - r → (r : Int) ≤ i → i < (nx : Int) - r →
        s'.C.rd j i = some (stencilSum M A r j i)) ∧
      (∀ j i : Int, ¬ ((r : Int) ≤ j ∧ j < (ny : Int) - r ∧ (r : Int) ≤ i ∧ i < (nx : Int) - r) →
        s'.C.rd j i = C.rd j i) := by
  subst hnm
  unfold openmp.compute_convolution
  rw [cdiv_two_natCast, cdiv_two_neg_natCast]
  refine nest_spec (fun s : ConvMem K => s.A = A ∧ s.M = M ∧ s.C.HasShape ny nx)
    (fun s => s.C) (fun j i => stencilSum M A r j i) _ _ _ _ _ ?_ ⟨A, C, M⟩ ⟨rfl, rfl, hC⟩
  intro j i s hj hj' hi hi' ⟨hsA, hsM, hsC⟩
  obtain ⟨C', hw, hshape, hcell, hother⟩ :=
    Grid.wr_spec hsC (j := j) (i := i) (by omega) (by omega) (by omega) (by omega)
      (stencilSum M A r j i)
  refine ⟨{ s with C := C' }, ?_, ⟨hsA, hsM, hshape⟩, hcell, hother⟩
  have hloops := stencil_loops hM hA (j := j) (i := i) ⟨hj, hj', hi, hi'⟩
  simp only [hsA, hsM, Option.bind_eq_bind, Option.pure_def] at hloops ⊢
  rw [hloops]
  simp [hw]


/-! ## The claims -/

/-- C1: for every odd `nm = 2r+1 ≥ 3`, every `nx, ny > 2r`, every `ny`-by-`nx` input
field `A` (and output `C`) and `nm`-by-`nm` mask `M`, `compute_convolution` returns and
every interior cell `(j, i)`, `r ≤ j < ny-r`, `r ≤ i < nx-r`, then holds
`C[j][i] = Σ_{mj, mi ∈ [-r, r]} M[mj+r][mi+r] * A[j+mj][i+mi]`. -/
theorem compute_convolution_interior (nx ny nm r : Nat) (hnm : nm = 2 * r + 1) (h3 : 3 ≤ nm)
    (hx : 2 * r < nx) (hy : 2 * r < ny) (A C M : Grid K)
    (hA : A.HasShape ny nx) (hC : C.HasShape ny nx) (hM : M.HasShape nm nm) :
    ∃ s', openmp.compute_convolution A C M nx ny nm = some s' ∧
      ∀ j i : Int, (r : Int) ≤ j → j < (ny : Int) - r → (r : Int) ≤ i → i < (nx : Int) - r →
        s'.C.rd j i = some (∑ mj ∈ Finset.Icc (-(r : Int)) r, ∑ mi ∈ Finset.Icc (-(r : Int)) r,
          M.val (mj + r) (mi + r) * A.val (j + mj) (i + mi)) := by
  obtain ⟨s', hs, _, hint, _⟩ := compute_convolution_spec nx ny nm r hnm A C M hA hC hM
  exact ⟨s', hs, hint⟩

/-- Witness for C1: a 3-by-3 field over the rationals and the 5-point mask
(`nx = ny = nm = 3`, `r = 1`). -/
theorem compute_convolution_interior_witness :
    ∃ s', openmp.compute_convolution
        ([[1, 2, 3], [4, 5, 7], [7, 8, 9]] : Grid ℚ) [[0, 0, 0], [0, 0, 0], [0, 0, 0]]
        [[0, 1, 0], [1, -4, 1], [0, 1, 0]] (3 : Nat) (3 : Nat) (3 : Nat) = some s' ∧
      ∀ j i : Int, ((1 : Nat) : Int) ≤ j → j < ((3 : Nat) : Int) - (1 : Nat) →
        ((1 : Nat) : Int) ≤ i → i < ((3 : Nat) : Int) - (1 : Nat) →
        s'.C.rd j i = some (∑ mj ∈ Finset.Icc (-((1 : Nat) : Int)) (1 : Nat),
          ∑ mi ∈ Finset.Icc (-((1 : Nat) : Int)) (1 : Nat),
            Grid.val ([[0, 1, 0], [1, -4, 1], [0, 1, 0]] : Grid ℚ) (mj + (1 : Nat)) (mi + (1 : Nat))
              * Grid.val ([[1, 2, 3], [4, 5, 7], [7, 8, 9]] : Grid ℚ) (j + mj) (i + mi)) :=
  compute_convolution_interior 3 3 3 1 (by decide) (by decide) (by decide) (by decide)
    _ _ _ (by decide) (by decide) (by decide)

/-- C2 at the failing input `nx = 4`, `ny = 3`, `nm = 3` (3-by-4 arrays): the OpenMP
backend visits the cells `(1,1), (1,2)`; the TBB backend iterates `j` over `cols()`
and `i` over `rows()`, visits `(1,1), (2,1)`, so its convolution reads row 3 of a
3-row array and its time step writes `B[2][1]` instead of `B[1][2]`. -/
theorem tbb_transposed_range_4x3 :
    (openmp.compute_convolution ([[1, 2, 3, 4], [5, 7, 9, 8], [9, 10, 11, 12]] : Grid ℚ)
        [[0, 0, 0, 0], [0, 0, 0, 0], [0, 0, 0, 0]] [[0, 1, 0], [1, -4, 1], [0, 1, 0]] 4 3 3).map
        (fun s => s.C) = some [[0, 0, 0, 0], [0, -2, -7, 0], [0, 0, 0, 0]] ∧
    (tbb.compute_convolution ([[1, 2, 3, 4], [5, 7, 9, 8], [9, 10, 11, 12]] : Grid ℚ)
        [[0, 0, 0, 0], [0, 0, 0, 0], [0, 0, 0, 0]] [[0, 1, 0], [1, -4, 1], [0, 1, 0]] 4 3 3).map
        (fun s => s.C) = none ∧
    (openmp.solve_diffusion_equation ([[1, 2, 3, 4], [5, 7, 9, 8], [9, 10, 11, 12]] : Grid ℚ)
        [[0, 0, 0, 0], [0, 0, 0, 0], [0, 0, 0, 0]] [[1, 1, 1, 1], [1, 1, 1, 1], [1, 1, 1, 1]]
        4 3 3 1 1 0).map (fun s => s.B) = some [[0, 0, 0, 0], [0, 8, 10, 0], [0, 0, 0, 0]] ∧
    (tbb.solve_diffusion_equation ([[1, 2, 3, 4], [5, 7, 9, 8], [9, 10, 11, 12]] : Grid ℚ)
        [[0, 0, 0, 0], [0, 0, 0, 0], [0, 0, 0, 0]] [[1, 1, 1, 1], [1, 1, 1, 1], [1, 1, 1, 1]]
        4 3 3 1 1 0).map (fun s => s.B) = some [[0, 0, 0, 0], [0, 8, 0, 0], [0, 11, 0, 0]] := by
  have h1 : cdiv 3 2 = 1 := by decide
  have h2 : cdiv (-3) 2 = -1 := by decide
  refine ⟨?_, ?_, ?_, ?_⟩
  · simp [openmp.compute_convolution, forLoop, forLoopAux, h1, h2, Grid.rd, Grid.wr]
    norm_num
  · simp [tbb.compute_convolution, tbb.parallel_for, tbb.blocked_range2d.ctor,
      tbb.blocked_range2d.empty, tbb.blocked_range.empty, forLoop, forLoopAux, h1, h2,
      Grid.rd, Grid.wr]
  · simp [openmp.solve_diffusion_equation, forLoop, forLoopAux, h1, h2, Grid.rd, Grid.wr]
    norm_num
  · simp [tbb.solve_diffusion_equation, tbb.parallel_for, tbb.blocked_range2d.ctor,
      tbb.blocked_range2d.empty, tbb.blocked_range.empty, forLoop, forLoopAux, h1, h2,
      Grid.rd, Grid.wr]
    norm_num


/-- Effect of the five assignments on an array with at least 3 rows and 3 columns: the
function returns, the five entries hold the stencil weights, and every other entry is
as before. -/
theorem five_point_spec (dx dy : K) {M : Grid K} {ny nx : Nat} (hM : M.HasShape ny nx)
    (hy : 3 ≤ ny) (hx : 3 ≤ nx) :
    ∃ M', openmp.five_point_Laplacian_stencil dx dy M = some M' ∧ M'.HasShape ny nx ∧
      M'.rd 0 1 = some (1 / (dy * dy)) ∧
      M'.rd 1 0 = some (1 / (dx * dx)) ∧
      M'.rd 1 1 = some (-2 * (dx * dx + dy * dy) / (dx * dx * dy * dy)) ∧
      M'.rd 1 2 = some (1 / (dx * dx)) ∧
      M'.rd 2 1 = some (1 / (dy * dy)) ∧
      ∀ j i : Int, ¬ (j = 0 ∧ i = 1) → ¬ (j = 1 ∧ i = 0) → ¬ (j = 1 ∧ i = 1) →
        ¬ (j = 1 ∧ i = 2) → ¬ (j = 2 ∧ i = 1) → M'.rd j i = M.rd j i := by
  obtain ⟨M1, h1, s1, c1, f1⟩ := Grid.wr_spec hM (j := 0) (i := 1)
    (by omega) (by omega) (by omega) (by omega) (1 / (dy * dy))
  obtain ⟨M2, h2, s2, c2, f2⟩ := Grid.wr_spec s1 (j := 1) (i := 0)
    (by omega) (by omega) (by omega) (by omega) (1 / (dx * dx))
  obtain ⟨M3, h3, s3, c3, f3⟩ := Grid.wr_spec s2 (j := 1) (i := 1)
    (by omega) (by omega) (by omega) (by omega) (-2 * (dx * dx + dy * dy) / (dx * dx * dy * dy))
  obtain ⟨M4, h4, s4, c4, f4⟩ := Grid.wr_spec s3 (j := 1) (i := 2)
    (by omega) (by omega) (by omega) (by omega) (1 / (dx * dx))
  obtain ⟨M5, h5, s5, c5, f5⟩ := Grid.wr_spec s4 (j := 2) (i := 1)
    (by omega) (by omega) (by omega) (by omega) (1 / (dy * dy))
  refine ⟨M5, ?_, s5, ?_, ?_, ?_, ?_, c5, ?_⟩
  · unfold openmp.five_point_Laplacian_stencil
    simp only [bind, pure, h1, h2, h3, h4, h5, Option.some_bind, Option.bind]
  · rw [f5 0 1 (by omega), f4 0 1 (by omega), f3 0 1 (by omega), f2 0 1 (by omega), c1]
  · rw [f5 1 0 (by omega), f4 1 0 (by omega), f3 1 0 (by omega), c2]
  · rw [f5 1 1 (by omega), f4 1 1 (by omega), c3]
  · rw [f5 1 2 (by omega), c4]
  · intro j i n1 n2 n3 n4 n5
    rw [f5 j i n5, f4 j i n4, f3 j i n3, f2 j i n2, f1 j i n1]

theorem tbb_set_mask_eq (dx dy : K) (nm : Int) (M : Grid K) :
    tbb.set_mask dx dy nm M = openmp.set_mask dx dy nm M := rfl

/-- C3, counterexample: on a 3-by-3 array holding 1 everywhere, `set_mask(1, 1, 3, M)`
leaves the corner `M[0][0]` at 1, not 0 (all four corners keep their prior value). -/
theorem set_mask_corner_not_zeroed :
    openmp.set_mask (1 : ℚ) 1 3 [[1, 1, 1], [1, 1, 1], [1, 1, 1]]
        = some [[1, 1, 1], [1, -4, 1], [1, 1, 1]] ∧
      ¬ ((openmp.set_mask (1 : ℚ) 1 3 [[1, 1, 1], [1, 1, 1], [1, 1, 1]]).bind
          (fun M => M.rd 0 0) = some 0) := by
  have h : openmp.set_mask (1 : ℚ) 1 3 [[1, 1, 1], [1, 1, 1], [1, 1, 1]]
      = some [[1, 1, 1], [1, -4, 1], [1, 1, 1]] := by
    simp [openmp.set_mask, openmp.five_point_Laplacian_stencil, Grid.wr]
    norm_num
  refine ⟨h, ?_⟩
  rw [h]
  simp [Grid.rd]

/-- C3, amended: for every `dx, dy ≠ 0` and every initial content of a 3-by-3 array `M`,
`set_mask(dx, dy, 3, M)` (in both backends) returns with `M[0][1] = 1/dy²`,
`M[1][0] = 1/dx²`, `M[1][1] = -2(dx²+dy²)/(dx²dy²)`, `M[1][2] = 1/dx²`, `M[2][1] = 1/dy²`,
and every other entry (the four corners) unchanged; so the corners are 0 when the
array was zero-initialised. -/
theorem set_mask_entries (dx dy : K) (hdx : dx ≠ 0) (hdy : dy ≠ 0) (M : Grid K)
    (hM : M.HasShape 3 3) :
    ∃ M', openmp.set_mask dx dy 3 M = some M' ∧ tbb.set_mask dx dy 3 M = some M' ∧
      M'.HasShape 3 3 ∧
      M'.rd 0 1 = some (1 / dy ^ 2) ∧
      M'.rd 1 0 = some (1 / dx ^ 2) ∧
      M'.rd 1 1 = some (-2 * (dx ^ 2 + dy ^ 2) / (dx ^ 2 * dy ^ 2)) ∧
      M'.rd 1 2 = some (1 / dx ^ 2) ∧
      M'.rd 2 1 = some (1 / dy ^ 2) ∧
      M'.rd 0 0 = M.rd 0 0 ∧ M'.rd 0 2 = M.rd 0 2 ∧
      M'.rd 2 0 = M.rd 2 0 ∧ M'.rd 2 2 = M.rd 2 2 ∧
      (M = Grid.const 3 3 0 →
        M'.rd 0 0 = some 0 ∧ M'.rd 0 2 = some 0 ∧ M'.rd 2 0 = some 0 ∧ M'.rd 2 2 = some 0) := by
  obtain ⟨M', h, hs, e01, e10, e11, e12, e21, hf⟩ :=
    five_point_spec dx dy hM (le_refl 3) (le_refl 3)
  have c00 := hf 0 0 (by omega) (by omega) (by omega) (by omega) (by omega)
  have c02 := hf 0 2 (by omega) (by omega) (by omega) (by omega) (by omega)
  have c20 := hf 2 0 (by omega) (by omega) (by omega) (by omega) (by omega)
  have c22 := hf 2 2 (by omega) (by omega) (by omega) (by omega) (by omega)
  refine ⟨M', h, h, hs, ?_, ?_, ?_, ?_, ?_, c00, c02, c20, c22, ?_⟩
  · rw [e01, pow_two]
  · rw [e10, pow_two]
  · rw [e11, pow_two, pow_two, mul_assoc]
  · rw [e12, pow_two]
  · rw [e21, pow_two]
  · intro hz
    subst hz
    rw [c00, c02, c20, c22]
    simp [Grid.const, Grid.rd]

/-- Witness for the amended C3: `dx = 1`, `dy = 2` and the 3-by-3 array of ones. -/
theorem set_mask_entries_witness :
    ∃ M', openmp.set_mask (1 : ℚ) 2 3 [[1, 1, 1], [1, 1, 1], [1, 1, 1]] = some M' ∧
      tbb.set_mask (1 : ℚ) 2 3 [[1, 1, 1], [1, 1, 1], [1, 1, 1]] = some M' ∧
      M'.HasShape 3 3 ∧
      M'.rd 0 1 = some (1 / (2 : ℚ) ^ 2) ∧
      M'.rd 1 0 = some (1 / (1 : ℚ) ^ 2) ∧
      M'.rd 1 1 = some (-2 * ((1 : ℚ) ^ 2 + 2 ^ 2) / ((1 : ℚ) ^ 2 * 2 ^ 2)) ∧
      M'.rd 1 2 = some (1 / (1 : ℚ) ^ 2) ∧
      M'.rd 2 1 = some (1 / (2 : ℚ) ^ 2) ∧
      M'.rd 0 0 = Grid.rd ([[1, 1, 1], [1, 1, 1], [1, 1, 1]] : Grid ℚ) 0 0 ∧
      M'.rd 0 2 = Grid.rd ([[1, 1, 1], [1, 1, 1], [1, 1, 1]] : Grid ℚ) 0 2 ∧
      M'.rd 2 0 = Grid.rd ([[1, 1, 1], [1, 1, 1], [1, 1, 1]] : Grid ℚ) 2 0 ∧
      M'.rd 2 2 = Grid.rd ([[1, 1, 1], [1, 1, 1], [1, 1, 1]] : Grid ℚ) 2 2 ∧
      (([[1, 1, 1], [1, 1, 1], [1, 1, 1]] : Grid ℚ) = Grid.const 3 3 0 →
        M'.rd 0 0 = some 0 ∧ M'.rd 0 2 = some 0 ∧ M'.rd 2 0 = some 0 ∧ M'.rd 2 2 = some 0) :=
  set_mask_entries 1 2 (by norm_num) (by norm_num) _ (by decide)

theorem Icc_neg_one_one : Finset.Icc (-1 : Int) 1 = {-1, 0, 1} := by decide

/-- The radius-1 mask-weighted sum written out: nine products. -/
theorem stencilSum_one (M A : Grid K) (j i : Int) :
    stencilSum M A 1 j i =
      M.val 0 0 * A.val (j - 1) (i - 1) + M.val 0 1 * A.val (j - 1) i
        + M.val 0 2 * A.val (j - 1) (i + 1)
        + M.val 1 0 * A.val j (i - 1) + M.val 1 1 * A.val j i + M.val 1 2 * A.val j (i + 1)
        + M.val 2 0 * A.val (j + 1) (i - 1) + M.val 2 1 * A.val (j + 1) i
        + M.val 2 2 * A.val (j + 1) (i + 1) := by
  have e1 : ∀ x : Int, x + -1 = x - 1 := fun x => by ring
  simp only [stencilSum, Nat.cast_one, Icc_neg_one_one,
    Finset.sum_insert (show (-1 : Int) ∉ ({0, 1} : Finset Int) by decide),
    Finset.sum_insert (show (0 : Int) ∉ ({1} : Finset Int) by decide), Finset.sum_singleton]
  norm_num [e1]
  ring

/-- C4: for every `dx, dy ≠ 0`, the mask `set_mask` builds on a zero-initialised 3-by-3
array has its non-centre entries summing to minus the centre entry, and
`compute_convolution` of any constant field with that mask returns 0 at every interior
cell. -/
theorem set_mask_annihilates_constants (dx dy : K) (hdx : dx ≠ 0) (hdy : dy ≠ 0) :
    ∃ M, openmp.set_mask dx dy 3 (Grid.const 3 3 0) = some M ∧
      M.val 0 0 + M.val 0 1 + M.val 0 2 + M.val 1 0 + M.val 1 2 + M.val 2 0 + M.val 2 1
        + M.val 2 2 = - M.val 1 1 ∧
      ∀ (nx ny : Nat) (k : K) (C : Grid K), C.HasShape ny nx →
        ∃ s', openmp.compute_convolution (Grid.const ny nx k) C M nx ny 3 = some s' ∧
          ∀ j i : Int, 1 ≤ j → j < (ny : Int) - 1 → 1 ≤ i → i < (nx : Int) - 1 →
            s'.C.rd j i = some 0 := by
  obtain ⟨M, h, hs, e01, e10, e11, e12, e21, hf⟩ :=
    five_point_spec dx dy (Grid.const_hasShape 3 3 (0 : K)) (le_refl 3) (le_refl 3)
  have hz : ∀ j i : Int, (Grid.const 3 3 (0 : K)).rd j i = some 0 ∨
      (Grid.const 3 3 (0 : K)).rd j i = none := by
    intro j i
    cases hr : (Grid.const 3 3 (0 : K)).rd j i with
    | none => right; rfl
    | some v =>
      left
      unfold Grid.rd Grid.const at hr
      split at hr
      · split at hr
        · exact absurd hr (by simp)
        · rename_i row hrow
          have h1 := List.getElem?_eq_some.1 hrow
          obtain ⟨_, h1⟩ := h1
          simp only [List.getElem_replicate] at h1
          subst h1
          have h2 := List.getElem?_eq_some.1 hr
          obtain ⟨_, h2⟩ := h2
          simp only [List.getElem_replicate] at h2
          rw [h2]
      · exact absurd hr (by simp)
  have corner : ∀ j i : Int, ¬ (j = 0 ∧ i = 1) → ¬ (j = 1 ∧ i = 0) → ¬ (j = 1 ∧ i = 1) →
      ¬ (j = 1 ∧ i = 2) → ¬ (j = 2 ∧ i = 1) → M.val j i = 0 := by
    intro j i n1 n2 n3 n4 n5
    unfold Grid.val
    rw [hf j i n1 n2 n3 n4 n5]
    rcases hz j i with h0 | h0 <;> rw [h0] <;> rfl
  have v00 := corner 0 0 (by omega) (by omega) (by omega) (by omega) (by omega)
  have v02 := corner 0 2 (by omega) (by omega) (by omega) (by omega) (by omega)
  have v20 := corner 2 0 (by omega) (by omega) (by omega) (by omega) (by omega)
  have v22 := corner 2 2 (by omega) (by omega) (by omega) (by omega) (by omega)
  have v01 : M.val 0 1 = 1 / (dy * dy) := by simp [Grid.val, e01]
  have v10 : M.val 1 0 = 1 / (dx * dx) := by simp [Grid.val, e10]
  have v11 : M.val 1 1 = -2 * (dx * dx + dy * dy) / (dx * dx * dy * dy) := by
    simp [Grid.val, e11]
  have v12 : M.val 1 2 = 1 / (dx * dx) := by simp [Grid.val, e12]
  have v21 : M.val 2 1 = 1 / (dy * dy) := by simp [Grid.val, e21]
  have hsum : M.val 0 0 + M.val 0 1 + M.val 0 2 + M.val 1 0 + M.val 1 2 + M.val 2 0
      + M.val 2 1 + M.val 2 2 = - M.val 1 1 := by
    rw [v00, v02, v20, v22, v01, v10, v11, v12, v21]
    simp only [zero_add, add_zero]
    rw [neg_mul, neg_div, neg_neg,
      div_add_div _ _ (mul_ne_zero hdy hdy) (mul_ne_zero hdx hdx),
      div_add_div _ _ (mul_ne_zero (mul_ne_zero hdy hdy) (mul_ne_zero hdx hdx))
        (mul_ne_zero hdx hdx),
      div_add_div _ _ (mul_ne_zero (mul_ne_zero (mul_ne_zero hdy hdy) (mul_ne_zero hdx hdx))
        (mul_ne_zero hdx hdx)) (mul_ne_zero hdy hdy),
      div_eq_div_iff (by simp [hdx, hdy]) (by simp [hdx, hdy])]
    ring
  refine ⟨M, h, hsum, ?_⟩
  intro nx ny k C hC
  obtain ⟨s', hs', _, hint, _⟩ := compute_convolution_spec nx ny 3 1 rfl
    (Grid.const ny nx k) C M (Grid.const_hasShape ny nx k) hC hs
  refine ⟨s', hs', ?_⟩
  intro j i h1 h2 h3 h4
  rw [hint j i (by simpa using h1) (by simpa using h2) (by simpa using h3) (by simpa using h4),
    stencilSum_one]
  have hk : ∀ a b : Int, j - 1 ≤ a → a ≤ j + 1 → i - 1 ≤ b → b ≤ i + 1 →
      (Grid.const ny nx k).val a b = k := fun a b ha ha' hb hb' =>
    Grid.const_val k (by omega) (by omega) (by omega) (by omega)
  rw [hk (j - 1) (i - 1) (by omega) (by omega) (by omega) (by omega),
    hk (j - 1) i (by omega) (by omega) (by omega) (by omega),
    hk (j - 1) (i + 1) (by omega) (by omega) (by omega) (by omega),
    hk j (i - 1) (by omega) (by omega) (by omega) (by omega),
    hk j i (by omega) (by omega) (by omega) (by omega),
    hk j (i + 1) (by omega) (by omega) (by omega) (by omega),
    hk (j + 1) (i - 1) (by omega) (by omega) (by omega) (by omega),
    hk (j + 1) i (by omega) (by omega) (by omega) (by omega),
    hk (j + 1) (i + 1) (by omega) (by omega) (by omega) (by omega)]
  have : M.val 0 0 * k + M.val 0 1 * k + M.val 0 2 * k + M.val 1 0 * k + M.val 1 1 * k
      + M.val 1 2 * k + M.val 2 0 * k + M.val 2 1 * k + M.val 2 2 * k
      = (M.val 0 0 + M.val 0 1 + M.val 0 2 + M.val 1 0 + M.val 1 2 + M.val 2 0 + M.val 2 1
        + M.val 2 2 + M.val 1 1) * k := by ring
  rw [this, hsum]
  simp

/-- Witness for C4: `dx = 1`, `dy = 2` over the rationals. -/
theorem set_mask_annihilates_constants_witness :
    ∃ M, openmp.set_mask (1 : ℚ) 2 3 (Grid.const 3 3 0) = some M ∧
      M.val 0 0 + M.val 0 1 + M.val 0 2 + M.val 1 0 + M.val 1 2 + M.val 2 0 + M.val 2 1
        + M.val 2 2 = - M.val 1 1 ∧
      ∀ (nx ny : Nat) (k : ℚ) (C : Grid ℚ), C.HasShape ny nx →
        ∃ s', openmp.compute_convolution (Grid.const ny nx k) C M nx ny 3 = some s' ∧
          ∀ j i : Int, 1 ≤ j → j < (ny : Int) - 1 → 1 ≤ i → i < (nx : Int) - 1 →
            s'.C.rd j i = some 0 :=
  set_mask_annihilates_constants 1 2 (by norm_num) (by norm_num)


/-- C5, counterexample: `set_mask(1, 1, 4, M)` with the even kernel size `nm = 4` and a
zero 4-by-4 array signals nothing and builds a mask: it returns the array with the
five-point weights written in its upper-left corner. -/
theorem set_mask_accepts_even_nm :
    openmp.set_mask (1 : ℚ) 1 4 [[0, 0, 0, 0], [0, 0, 0, 0], [0, 0, 0, 0], [0, 0, 0, 0]]
        = some [[0, 1, 0, 0], [1, -4, 1, 0], [0, 1, 0, 0], [0, 0, 0, 0]] ∧
      tbb.set_mask (1 : ℚ) 1 4 [[0, 0, 0, 0], [0, 0, 0, 0], [0, 0, 0, 0], [0, 0, 0, 0]]
        = some [[0, 1, 0, 0], [1, -4, 1, 0], [0, 1, 0, 0], [0, 0, 0, 0]] := by
  have h : openmp.set_mask (1 : ℚ) 1 4 [[0, 0, 0, 0], [0, 0, 0, 0], [0, 0, 0, 0], [0, 0, 0, 0]]
      = some [[0, 1, 0, 0], [1, -4, 1, 0], [0, 1, 0, 0], [0, 0, 0, 0]] := by
    simp [openmp.set_mask, openmp.five_point_Laplacian_stencil, Grid.wr]
    norm_num
  exact ⟨h, h⟩

/-- C5, amended: `set_mask` performs no validation of the kernel size.  For every `nm`
(also `nm < 3` or even) its result is that of the five assignments of
`five_point_Laplacian_stencil` and is the same for every other `nm'`; on every array
with at least 3 rows and 3 columns it returns normally, with the five weights
written. -/
theorem set_mask_ignores_nm (dx dy : K) (nm : Int) (M : Grid K) (ny nx : Nat)
    (hM : M.HasShape ny nx) (hy : 3 ≤ ny) (hx : 3 ≤ nx) :
    openmp.set_mask dx dy nm M = openmp.five_point_Laplacian_stencil dx dy M ∧
      tbb.set_mask dx dy nm M = tbb.five_point_Laplacian_stencil dx dy M ∧
      (∀ nm' : Int, openmp.set_mask dx dy nm' M = openmp.set_mask dx dy nm M ∧
        tbb.set_mask dx dy nm' M = tbb.set_mask dx dy nm M) ∧
      ∃ M', openmp.set_mask dx dy nm M = some M' ∧ tbb.set_mask dx dy nm M = some M' ∧
        M'.HasShape ny nx ∧
        M'.rd 0 1 = some (1 / (dy * dy)) ∧
        M'.rd 1 0 = some (1 / (dx * dx)) ∧
        M'.rd 1 1 = some (-2 * (dx * dx + dy * dy) / (dx * dx * dy * dy)) ∧
        M'.rd 1 2 = some (1 / (dx * dx)) ∧
        M'.rd 2 1 = some (1 / (dy * dy)) := by
  obtain ⟨M', h, hs, e01, e10, e11, e12, e21, _⟩ := five_point_spec dx dy hM hy hx
  exact ⟨rfl, rfl, fun _ => ⟨rfl, rfl⟩, M', h, h, hs, e01, e10, e11, e12, e21⟩

/-- Witness for the amended C5: `nm = 4` and a zero 4-by-4 array, `dx = 1`, `dy = 2`. -/
theorem set_mask_ignores_nm_witness :
    ∃ M', openmp.set_mask (1 : ℚ) 2 4 (Grid.const 4 4 0) = some M' ∧
      M'.rd 1 1 = some (-2 * ((1 : ℚ) * 1 + 2 * 2) / (1 * 1 * 2 * 2)) := by
  obtain ⟨_, _, _, M', h, _, _, _, _, e11, _, _⟩ :=
    set_mask_ignores_nm (1 : ℚ) 2 4 (Grid.const 4 4 0) 4 4 (Grid.const_hasShape 4 4 0)
      (by decide) (by decide)
  exact ⟨M', h, e11⟩

/-- A loop commutes with a change of state representation that its body commutes with. -/
theorem forLoopAux_map {σ τ : Type} (φ : σ → τ) (b1 : Int → σ → Option σ)
    (b2 : Int → τ → Option τ) (h : ∀ k s, (b1 k s).map φ = b2 k (φ s)) :
    ∀ (n : Nat) (k : Int) (s : σ),
      (forLoopAux b1 n k s).map φ = forLoopAux b2 n k (φ s) := by
  intro n
  induction n with
  | zero => intro k s; rfl
  | succ n ih =>
    intro k s
    have hk := h k s
    simp only [forLoopAux]
    cases hb : b1 k s with
    | none => rw [hb] at hk; simp [← hk]
    | some s1 =>
      rw [hb] at hk
      simp only [Option.map_some'] at hk
      rw [← hk]
      simpa using ih (k + 1) s1

theorem forLoop_map {σ τ : Type} (φ : σ → τ) (b1 : Int → σ → Option σ)
    (b2 : Int → τ → Option τ) (h : ∀ k s, (b1 k s).map φ = b2 k (φ s))
    (lo hi : Int) (s : σ) : (forLoop lo hi b1 s).map φ = forLoop lo hi b2 (φ s) :=
  forLoopAux_map φ b1 b2 h _ lo s

/-- The spinodal `compute_divergence` is the diffusion `compute_convolution` under the
renaming `conc_lap, conc_div, mask_lap ↦ A, C, M`, on every input. -/
theorem compute_divergence_eq (L Dv M : Grid K) (nx ny nm : Int) :
    (spinodal.compute_divergence L Dv M nx ny nm).map
        (fun s => (⟨s.conc_lap, s.conc_div, s.mask_lap⟩ : ConvMem K))
      = openmp.compute_convolution L Dv M nx ny nm := by
  unfold spinodal.compute_divergence openmp.compute_convolution
  refine forLoop_map _ _ _ (fun j s => forLoop_map _ _ _ (fun i s => ?_) _ _ s) _ _ _
  simp only [bind, pure]
  cases forLoop (cdiv (-nm) 2) (cdiv nm 2 + 1) (fun mj value =>
      forLoop (cdiv (-nm) 2) (cdiv nm 2 + 1) (fun mi value =>
        (s.mask_lap.rd (mj + cdiv nm 2) (mi + cdiv nm 2)).bind fun m =>
          (s.conc_lap.rd (j + mj) (i + mi)).bind fun a => some (value + m * a)) value) 0 with
  | none => rfl
  | some v =>
    simp only [Option.some_bind, Option.bind]
    cases s.conc_div.wr j i v <;> rfl

/-- Effect of the spinodal `compute_laplacian` on well-shaped arrays with an odd kernel
size `nm = 2r+1`: it returns, `conc_old` and `mask_lap` are unchanged, every interior
cell of `conc_lap` holds `dfdc(conc_old[j][i]) - kappa * (mask-weighted sum)` and every
other cell of `conc_lap` is as before. -/
theorem compute_laplacian_spec (nx ny nm r : Nat) (hnm : nm = 2 * r + 1)
    (conc_old conc_lap mask_lap : Grid K) (kappa : K) (hA : conc_old.HasShape ny nx)
    (hC : conc_lap.HasShape ny nx) (hM : mask_lap.HasShape nm nm) :
    ∃ s', spinodal.compute_laplacian conc_old conc_lap mask_lap kappa nx ny nm = some s' ∧
      (s'.conc_old = conc_old ∧ s'.mask_lap = mask_lap ∧ s'.conc_lap.HasShape ny nx) ∧
      (∀ j i : Int, (r : Int) ≤ j → j < (ny : Int) - r → (r : Int) ≤ i → i < (nx : Int) - r →
        s'.conc_lap.rd j i = some (spinodal.dfdc (conc_old.val j i)
          - kappa * stencilSum mask_lap conc_old r j i)) ∧
      (∀ j i : Int, ¬ ((r : Int) ≤ j ∧ j < (ny : Int) - r ∧ (r : Int) ≤ i ∧ i < (nx : Int) - r) →
        s'.conc_lap.rd j i = conc_lap.rd j i) := by
  subst hnm
  unfold spinodal.compute_laplacian
  rw [cdiv_two_natCast, cdiv_two_neg_natCast]
  refine nest_spec
    (fun s : LapMem K => s.conc_old = conc_old ∧ s.mask_lap = mask_lap ∧
      s.conc_lap.HasShape ny nx)
    (fun s => s.conc_lap)
    (fun j i => spinodal.dfdc (conc_old.val j i) - kappa * stencilSum mask_lap conc_old r j i)
    _ _ _ _ _ ?_ ⟨conc_old, conc_lap, mask_lap⟩ ⟨rfl, rfl, hC⟩
  intro j i s hj hj' hi hi' ⟨hsA, hsM, hsC⟩
  obtain ⟨L, hw, hshape, hcell, hother⟩ :=
    Grid.wr_spec hsC (j := j) (i := i) (by omega) (by omega) (by omega) (by omega)
      (spinodal.dfdc (conc_old.val j i) - kappa * stencilSum mask_lap conc_old r j i)
  refine ⟨{ s with conc_lap := L }, ?_, ⟨hsA, hsM, hshape⟩, hcell, hother⟩
  have hloops := stencil_loops hM hA (j := j) (i := i) ⟨hj, hj', hi, hi'⟩
  have hc := Grid.rd_eq_some_val hA (j := j) (i := i) (by omega) (by omega) (by omega)
    (by omega)
  simp only [hsA, hsM, Option.bind_eq_bind, Option.pure_def] at hloops ⊢
  rw [hloops]
  simp [hw, hc]

/-- Effect of the spinodal `compute_divergence`, read off from `compute_convolution`. -/
theorem compute_divergence_spec (nx ny nm r : Nat) (hnm : nm = 2 * r + 1)
    (conc_lap conc_div mask_lap : Grid K) (hA : conc_lap.HasShape ny nx)
    (hC : conc_div.HasShape ny nx) (hM : mask_lap.HasShape nm nm) :
    ∃ s', spinodal.compute_divergence conc_lap conc_div mask_lap nx ny nm = some s' ∧
      (s'.conc_lap = conc_lap ∧ s'.mask_lap = mask_lap ∧ s'.conc_div.HasShape ny nx) ∧
      (∀ j i : Int, (r : Int) ≤ j → j < (ny : Int) - r → (r : Int) ≤ i → i < (nx : Int) - r →
        s'.conc_div.rd j i = some (stencilSum mask_lap conc_lap r j i)) ∧
      (∀ j i : Int, ¬ ((r : Int) ≤ j ∧ j < (ny : Int) - r ∧ (r : Int) ≤ i ∧ i < (nx : Int) - r) →
        s'.conc_div.rd j i = conc_div.rd j i) := by
  obtain ⟨s', hs, hinv, hint, hfr⟩ :=
    compute_convolution_spec nx ny nm r hnm conc_lap conc_div mask_lap hA hC hM
  have heq := compute_divergence_eq conc_lap conc_div mask_lap (nx : Int) ny nm
  rw [hs] at heq
  cases ht : spinodal.compute_divergence conc_lap conc_div mask_lap (nx : Int) ny nm with
  | none => rw [ht] at heq; exact absurd heq (by simp)
  | some t =>
    rw [ht] at heq
    simp only [Option.map_some', Option.some.injEq] at heq
    subst heq
    exact ⟨t, rfl, hinv, hint, hfr⟩

/-- C6: for every odd `nm = 2r+1 ≥ 1`, every `nx, ny`, arrays of shape `ny`-by-`nx` and
an `nm`-by-`nm` mask, every subscript the loops of `compute_convolution` (and of the
spinodal `compute_laplacian` and `compute_divergence`) form is in bounds, so the three
functions return a result: no array access of the embedding yields `none`. -/
theorem stencil_indices_in_bounds (nx ny nm r : Nat) (hnm : nm = 2 * r + 1)
    (A C M : Grid K) (kappa : K) (hA : A.HasShape ny nx) (hC : C.HasShape ny nx)
    (hM : M.HasShape nm nm) :
    (∀ j i mj mi : Int, cdiv nm 2 ≤ j → j < (ny : Int) - cdiv nm 2 →
      cdiv nm 2 ≤ i → i < (nx : Int) - cdiv nm 2 →
      cdiv (-(nm : Int)) 2 ≤ mj → mj < cdiv nm 2 + 1 →
      cdiv (-(nm : Int)) 2 ≤ mi → mi < cdiv nm 2 + 1 →
      (0 ≤ j + mj ∧ j + mj < ny) ∧ (0 ≤ i + mi ∧ i + mi < nx) ∧
      (0 ≤ mj + cdiv nm 2 ∧ mj + cdiv nm 2 < nm) ∧
      (0 ≤ mi + cdiv nm 2 ∧ mi + cdiv nm 2 < nm) ∧
      (A.rd (j + mj) (i + mi)).isSome ∧ (M.rd (mj + cdiv nm 2) (mi + cdiv nm 2)).isSome ∧
      (C.rd j i).isSome) ∧
    (openmp.compute_convolution A C M nx ny nm).isSome ∧
    (spinodal.compute_laplacian A C M kappa nx ny nm).isSome ∧
    (spinodal.compute_divergence A C M nx ny nm).isSome := by
  refine ⟨?_, ?_, ?_, ?_⟩
  · subst hnm
    rw [cdiv_two_natCast, cdiv_two_neg_natCast]
    intro j i mj mi h1 h2 h3 h4 h5 h6 h7 h8
    have b1 : 0 ≤ j + mj ∧ j + mj < ny := by omega
    have b2 : 0 ≤ i + mi ∧ i + mi < nx := by omega
    have b3 : 0 ≤ mj + (r : Int) ∧ mj + (r : Int) < ((2 * r + 1 : Nat) : Int) := by
      push_cast; omega
    have b4 : 0 ≤ mi + (r : Int) ∧ mi + (r : Int) < ((2 * r + 1 : Nat) : Int) := by
      push_cast; omega
    refine ⟨b1, b2, b3, b4, ?_, ?_, ?_⟩
    · rw [Grid.rd_eq_some_val hA b1.1 b1.2 b2.1 b2.2]; rfl
    · rw [Grid.rd_eq_some_val hM b3.1 b3.2 b4.1 b4.2]; rfl
    · rw [Grid.rd_eq_some_val hC (by omega) (by omega) (by omega) (by omega)]; rfl
  · obtain ⟨s', hs, _⟩ := compute_convolution_spec nx ny nm r hnm A C M hA hC hM
    rw [hs]; rfl
  · obtain ⟨s', hs, _⟩ := compute_laplacian_spec nx ny nm r hnm A C M kappa hA hC hM
    rw [hs]; rfl
  · obtain ⟨s', hs, _⟩ := compute_divergence_spec nx ny nm r hnm A C M hA hC hM
    rw [hs]; rfl

/-- Witness for C6: 3-by-3 arrays over the rationals and a 3-by-3 mask, `nm = 3`. -/
theorem stencil_indices_in_bounds_witness :
    (openmp.compute_convolution ([[1, 2, 3], [4, 5, 7], [7, 8, 9]] : Grid ℚ)
        [[0, 0, 0], [0, 0, 0], [0, 0, 0]] [[0, 1, 0], [1, -4, 1], [0, 1, 0]]
        (3 : Nat) (3 : Nat) (3 : Nat)).isSome ∧
    (spinodal.compute_laplacian ([[1, 2, 3], [4, 5, 7], [7, 8, 9]] : Grid ℚ)
        [[0, 0, 0], [0, 0, 0], [0, 0, 0]] [[0, 1, 0], [1, -4, 1], [0, 1, 0]] 2
        (3 : Nat) (3 : Nat) (3 : Nat)).isSome ∧
    (spinodal.compute_divergence ([[1, 2, 3], [4, 5, 7], [7, 8, 9]] : Grid ℚ)
        [[0, 0, 0], [0, 0, 0], [0, 0, 0]] [[0, 1, 0], [1, -4, 1], [0, 1, 0]]
        (3 : Nat) (3 : Nat) (3 : Nat)).isSome :=
  (stencil_indices_in_bounds 3 3 3 1 (by decide) _ _ _ 2 (by decide) (by decide)
    (by decide)).2

/-- C7: `compute_convolution` writes only interior cells.  For every `nx, ny`, odd
`nm = 2r+1`, well-shaped `A`, `M` and every prior content of the output `C`, the call
returns, every cell `C[j][i]` with `(j, i)` outside `[r, ny-r) x [r, nx-r)` has the value
it had before, and `A` and `M` are unchanged. -/
theorem compute_convolution_frame (nx ny nm r : Nat) (hnm : nm = 2 * r + 1)
    (A C M : Grid K) (hA : A.HasShape ny nx) (hC : C.HasShape ny nx)
    (hM : M.HasShape nm nm) :
    ∃ s', openmp.compute_convolution A C M nx ny nm = some s' ∧
      (∀ j i : Int, ¬ ((r : Int) ≤ j ∧ j < (ny : Int) - r ∧ (r : Int) ≤ i ∧ i < (nx : Int) - r) →
        s'.C.rd j i = C.rd j i) ∧
      s'.A = A ∧ s'.M = M := by
  obtain ⟨s', hs, ⟨hsA, hsM, _⟩, _, hfr⟩ :=
    compute_convolution_spec nx ny nm r hnm A C M hA hC hM
  exact ⟨s', hs, hfr, hsA, hsM⟩

/-- Witness for C7: a 3-by-3 output holding 9 everywhere; its border cell `C[0][0]` is
still 9 after the call. -/
theorem compute_convolution_frame_witness :
    (openmp.compute_convolution ([[1, 2, 3], [4, 5, 7], [7, 8, 9]] : Grid ℚ)
        [[9, 9, 9], [9, 9, 9], [9, 9, 9]] [[0, 1, 0], [1, -4, 1], [0, 1, 0]]
        (3 : Nat) (3 : Nat) (3 : Nat)).bind (fun s => s.C.rd 0 0)
      = Grid.rd ([[9, 9, 9], [9, 9, 9], [9, 9, 9]] : Grid ℚ) 0 0 := by
  obtain ⟨s', hs, hfr, _, _⟩ := compute_convolution_frame 3 3 3 1 (by decide)
    ([[1, 2, 3], [4, 5, 7], [7, 8, 9]] : Grid ℚ) [[9, 9, 9], [9, 9, 9], [9, 9, 9]]
    [[0, 1, 0], [1, -4, 1], [0, 1, 0]] (by decide) (by decide) (by decide)
  rw [hs]
  exact hfr 0 0 (by decide)


/-- Effect of `solve_diffusion_equation` on well-shaped arrays with an odd kernel size
`nm = 2r+1`: it returns, `A` and `C` are unchanged, every interior cell of `B` holds
`A[j][i] + dt * D * C[j][i]`, every other cell of `B` is as before, and `*elapsed` has
grown by `dt`. -/
theorem solve_diffusion_equation_spec (nx ny nm r : Nat) (hnm : nm = 2 * r + 1)
    (A B C : Grid K) (D dt e : K) (hA : A.HasShape ny nx) (hB : B.HasShape ny nx)
    (hC : C.HasShape ny nx) :
    ∃ s', openmp.solve_diffusion_equation A B C nx ny nm D dt e = some s' ∧
      (s'.A = A ∧ s'.C = C ∧ s'.B.HasShape ny nx) ∧
      (∀ j i : Int, (r : Int) ≤ j → j < (ny : Int) - r → (r : Int) ≤ i → i < (nx : Int) - r →
        s'.B.rd j i = some (A.val j i + dt * D * C.val j i)) ∧
      (∀ j i : Int, ¬ ((r : Int) ≤ j ∧ j < (ny : Int) - r ∧ (r : Int) ≤ i ∧ i < (nx : Int) - r) →
        s'.B.rd j i = B.rd j i) ∧
      s'.elapsed = e + dt := by
  subst hnm
  unfold openmp.solve_diffusion_equation
  rw [cdiv_two_natCast]
  obtain ⟨s1, hs1, ⟨hsA, hsC, hsB, hse⟩, hint, hfr⟩ := nest_spec
    (fun s : StepMem K => s.A = A ∧ s.C = C ∧ s.B.HasShape ny nx ∧ s.elapsed = e)
    (fun s => s.B) (fun j i => A.val j i + dt * D * C.val j i)
    (r : Int) ((ny : Int) - r) (r : Int) ((nx : Int) - r)
    (fun j i s => do
      let a ← s.A.rd j i
      let c ← s.C.rd j i
      let B' ← s.B.wr j i (a + dt * D * c)
      pure { s with B := B' })
    (by
      intro j i s hj hj' hi hi' ⟨hsA, hsC, hsB, hse⟩
      obtain ⟨B', hw, hshape, hcell, hother⟩ :=
        Grid.wr_spec hsB (j := j) (i := i) (by omega) (by omega) (by omega) (by omega)
          (A.val j i + dt * D * C.val j i)
      refine ⟨{ s with B := B' }, ?_, ⟨hsA, hsC, hshape, hse⟩, hcell, hother⟩
      have ha := Grid.rd_eq_some_val hA (j := j) (i := i) (by omega) (by omega) (by omega)
        (by omega)
      have hc := Grid.rd_eq_some_val hC (j := j) (i := i) (by omega) (by omega) (by omega)
        (by omega)
      simp only [hsA, hsC, ha, hc, hw, bind, pure, Option.bind])
    (⟨A, B, C, e⟩ : StepMem K) ⟨rfl, rfl, hB, rfl⟩
  refine ⟨{ s1 with elapsed := s1.elapsed + dt }, ?_, ⟨hsA, hsC, hsB⟩, hint, hfr, ?_⟩
  · simp only [bind, pure] at hs1 ⊢
    rw [hs1]; rfl
  · simp [hse]

/-- Effect of the spinodal `update_composition` on well-shaped arrays with an odd kernel
size `nm = 2r+1`. -/
theorem update_composition_spec (nx ny nm r : Nat) (hnm : nm = 2 * r + 1)
    (conc_old conc_div conc_new : Grid K) (M dt : K) (hA : conc_old.HasShape ny nx)
    (hD : conc_div.HasShape ny nx) (hN : conc_new.HasShape ny nx) :
    ∃ s', spinodal.update_composition conc_old conc_div conc_new nx ny nm M dt = some s' ∧
      (s'.conc_old = conc_old ∧ s'.conc_div = conc_div ∧ s'.conc_new.HasShape ny nx) ∧
      (∀ j i : Int, (r : Int) ≤ j → j < (ny : Int) - r → (r : Int) ≤ i → i < (nx : Int) - r →
        s'.conc_new.rd j i = some (conc_old.val j i + dt * M * conc_div.val j i)) ∧
      (∀ j i : Int, ¬ ((r : Int) ≤ j ∧ j < (ny : Int) - r ∧ (r : Int) ≤ i ∧ i < (nx : Int) - r) →
        s'.conc_new.rd j i = conc_new.rd j i) := by
  subst hnm
  unfold spinodal.update_composition
  rw [cdiv_two_natCast]
  refine nest_spec
    (fun s : UpdMem K => s.conc_old = conc_old ∧ s.conc_div = conc_div ∧
      s.conc_new.HasShape ny nx)
    (fun s => s.conc_new) (fun j i => conc_old.val j i + dt * M * conc_div.val j i)
    _ _ _ _ _ ?_ ⟨conc_old, conc_div, conc_new⟩ ⟨rfl, rfl, hN⟩
  intro j i s hj hj' hi hi' ⟨hsA, hsD, hsN⟩
  obtain ⟨N, hw, hshape, hcell, hother⟩ :=
    Grid.wr_spec hsN (j := j) (i := i) (by omega) (by omega) (by omega) (by omega)
      (conc_old.val j i + dt * M * conc_div.val j i)
  refine ⟨{ s with conc_new := N }, ?_, ⟨hsA, hsD, hshape⟩, hcell, hother⟩
  have ha := Grid.rd_eq_some_val hA (j := j) (i := i) (by omega) (by omega) (by omega)
    (by omega)
  have hd := Grid.rd_eq_some_val hD (j := j) (i := i) (by omega) (by omega) (by omega)
    (by omega)
  simp only [hsA, hsD, ha, hd, hw, bind, pure, Option.bind]

/-- After `k` successive calls on well-shaped arrays the time counter is `e + k * dt`. -/
theorem elapsed_after_eq (nx ny nm r : Nat) (hnm : nm = 2 * r + 1) (D dt : K) :
    ∀ (calls : List (Grid K × Grid K × Grid K)) (e : K),
      (∀ c ∈ calls, c.1.HasShape ny nx ∧ c.2.1.HasShape ny nx ∧ c.2.2.HasShape ny nx) →
      elapsed_after nx ny nm D dt calls e = some (e + calls.length * dt) := by
  intro calls
  induction calls with
  | nil => intro e _; simp [elapsed_after]
  | cons c rest ih =>
    intro e hshape
    obtain ⟨A, B, C⟩ := c
    obtain ⟨hA, hB, hC⟩ := hshape (A, B, C) (List.mem_cons_self _ _)
    obtain ⟨s', hs, _, _, _, he⟩ :=
      solve_diffusion_equation_spec nx ny nm r hnm A B C D dt e hA hB hC
    simp only [elapsed_after, hs, Option.some_bind, he]
    rw [ih (e + dt) (fun c hc => hshape c (List.mem_cons_of_mem _ hc))]
    simp only [List.length_cons, Nat.cast_add, Nat.cast_one]
    congr 1
    ring

/-- C8: for every `nx, ny`, odd `nm = 2r+1`, well-shaped `A`, `C`, prior content of `B`
and scalars `D`, `dt`, `e`: `solve_diffusion_equation` with `*elapsed = e` returns with
`B[j][i] = A[j][i] + dt * D * C[j][i]` at every interior cell, every other cell of `B`
unchanged, and `*elapsed = e + dt`; after `k` successive calls `*elapsed = e + k * dt`,
which is non-decreasing in `k` when `dt ≥ 0`; and the spinodal `update_composition`
performs the same per-cell update with the mobility in place of `D`. -/
theorem solve_diffusion_equation_step {F : Type} [LinearOrderedField F] (nx ny nm r : Nat)
    (hnm : nm = 2 * r + 1) (A B C : Grid F) (D dt e : F)
    (hA : A.HasShape ny nx) (hB : B.HasShape ny nx) (hC : C.HasShape ny nx) :
    (∃ s', openmp.solve_diffusion_equation A B C nx ny nm D dt e = some s' ∧
      (∀ j i : Int, (r : Int) ≤ j → j < (ny : Int) - r → (r : Int) ≤ i → i < (nx : Int) - r →
        s'.B.rd j i = some (A.val j i + dt * D * C.val j i)) ∧
      (∀ j i : Int, ¬ ((r : Int) ≤ j ∧ j < (ny : Int) - r ∧ (r : Int) ≤ i ∧ i < (nx : Int) - r) →
        s'.B.rd j i = B.rd j i) ∧
      s'.elapsed = e + dt) ∧
    (∀ calls : List (Grid F × Grid F × Grid F),
      (∀ c ∈ calls, c.1.HasShape ny nx ∧ c.2.1.HasShape ny nx ∧ c.2.2.HasShape ny nx) →
      elapsed_after nx ny nm D dt calls e = some (e + calls.length * dt)) ∧
    (0 ≤ dt → ∀ calls calls' : List (Grid F × Grid F × Grid F),
      (∀ c ∈ calls, c.1.HasShape ny nx ∧ c.2.1.HasShape ny nx ∧ c.2.2.HasShape ny nx) →
      (∀ c ∈ calls', c.1.HasShape ny nx ∧ c.2.1.HasShape ny nx ∧ c.2.2.HasShape ny nx) →
      calls.length ≤ calls'.length →
      ∃ t t', elapsed_after nx ny nm D dt calls e = some t ∧
        elapsed_after nx ny nm D dt calls' e = some t' ∧ t ≤ t') ∧
    (∃ u, spinodal.update_composition A C B nx ny nm D dt = some u ∧
      (∀ j i : Int, (r : Int) ≤ j → j < (ny : Int) - r → (r : Int) ≤ i → i < (nx : Int) - r →
        u.conc_new.rd j i = some (A.val j i + dt * D * C.val j i)) ∧
      (∀ j i : Int, ¬ ((r : Int) ≤ j ∧ j < (ny : Int) - r ∧ (r : Int) ≤ i ∧ i < (nx : Int) - r) →
        u.conc_new.rd j i = B.rd j i)) := by
  refine ⟨?_, ?_, ?_, ?_⟩
  · obtain ⟨s', hs, _, hint, hfr, he⟩ :=
      solve_diffusion_equation_spec nx ny nm r hnm A B C D dt e hA hB hC
    exact ⟨s', hs, hint, hfr, he⟩
  · intro calls hshape
    exact elapsed_after_eq nx ny nm r hnm D dt calls e hshape
  · intro hdt calls calls' h1 h2 hlen
    refine ⟨_, _, elapsed_after_eq nx ny nm r hnm D dt calls e h1,
      elapsed_after_eq nx ny nm r hnm D dt calls' e h2, ?_⟩
    have hcast : (calls.length : F) ≤ (calls'.length : F) := by exact_mod_cast hlen
    have := mul_le_mul_of_nonneg_right hcast hdt
    linarith
  · obtain ⟨u, hu, _, hint, hfr⟩ :=
      update_composition_spec nx ny nm r hnm A C B D dt hA hC hB
    exact ⟨u, hu, hint, hfr⟩

/-- Witness for C8: 3-by-3 arrays over the rationals, `nm = 3`, `D = 2`, `dt = 1/10`,
`e = 0`; the time counter after the call is `0 + 1/10`. -/
theorem solve_diffusion_equation_step_witness :
    (openmp.solve_diffusion_equation ([[1, 2, 3], [4, 5, 7], [7, 8, 9]] : Grid ℚ)
        [[0, 0, 0], [0, 0, 0], [0, 0, 0]] [[0, 0, 0], [0, 1, 0], [0, 0, 0]]
        (3 : Nat) (3 : Nat) (3 : Nat) 2 (1 / 10) 0).map (fun s => s.elapsed)
      = some (0 + 1 / 10) := by
  obtain ⟨⟨s', hs, _, _, he⟩, _⟩ := solve_diffusion_equation_step 3 3 3 1 (by decide)
    ([[1, 2, 3], [4, 5, 7], [7, 8, 9]] : Grid ℚ) [[0, 0, 0], [0, 0, 0], [0, 0, 0]]
    [[0, 0, 0], [0, 1, 0], [0, 0, 0]] 2 (1 / 10) 0 (by decide) (by decide) (by decide)
  rw [hs, Option.map_some', he]

/-- C9: with `dt = 0` the time step is the identity on the interior: for every
well-shaped `A`, `B`, `C`, every `D` and odd `nm = 2r+1`,
`solve_diffusion_equation(A, B, C, nx, ny, nm, D, 0, &elapsed)` returns with
`B[j][i] = A[j][i]` at every interior cell and `*elapsed` unchanged. -/
theorem solve_diffusion_equation_dt_zero (nx ny nm r : Nat) (hnm : nm = 2 * r + 1)
    (A B C : Grid K) (D e : K) (hA : A.HasShape ny nx) (hB : B.HasShape ny nx)
    (hC : C.HasShape ny nx) :
    ∃ s', openmp.solve_diffusion_equation A B C nx ny nm D 0 e = some s' ∧
      (∀ j i : Int, (r : Int) ≤ j → j < (ny : Int) - r → (r : Int) ≤ i → i < (nx : Int) - r →
        s'.B.rd j i = A.rd j i ∧ s'.B.rd j i = some (A.val j i)) ∧
      s'.elapsed = e := by
  obtain ⟨s', hs, _, hint, _, he⟩ :=
    solve_diffusion_equation_spec nx ny nm r hnm A B C D 0 e hA hB hC
  refine ⟨s', hs, ?_, by simpa using he⟩
  intro j i h1 h2 h3 h4
  have hb := hint j i h1 h2 h3 h4
  simp only [zero_mul, add_zero] at hb
  exact ⟨by rw [hb, Grid.rd_eq_some_val hA (by omega) (by omega) (by omega) (by omega)], hb⟩

/-- Witness for C9: 3-by-3 arrays over the rationals, `nm = 3`, `D = 2`, `e = 7`. -/
theorem solve_diffusion_equation_dt_zero_witness :
    (openmp.solve_diffusion_equation ([[1, 2, 3], [4, 5, 7], [7, 8, 9]] : Grid ℚ)
        [[0, 0, 0], [0, 0, 0], [0, 0, 0]] [[0, 0, 0], [0, 1, 0], [0, 0, 0]]
        (3 : Nat) (3 : Nat) (3 : Nat) 2 0 7).map (fun s => s.elapsed) = some 7 := by
  obtain ⟨s', hs, _, he⟩ := solve_diffusion_equation_dt_zero 3 3 3 1 (by decide)
    ([[1, 2, 3], [4, 5, 7], [7, 8, 9]] : Grid ℚ) [[0, 0, 0], [0, 0, 0], [0, 0, 0]]
    [[0, 0, 0], [0, 1, 0], [0, 0, 0]] 2 7 (by decide) (by decide) (by decide)
  rw [hs, Option.map_some', he]

/-- C10: for every well-shaped `conc_old`, mask, `kappa` and odd `nm = 2r+1`, the
spinodal `compute_laplacian` returns with, at every interior cell,
`conc_lap[j][i] = dfdc(conc_old[j][i]) - kappa * Σ_{mj, mi ∈ [-r, r]}
mask_lap[mj+r][mi+r] * conc_old[j+mj][i+mi]`, where
`dfdc(c) = 2 * rho * (c - Ca) * (Cb - c) * (Ca + Cb - 2c)` with `Ca = 3/10`, `Cb = 7/10`,
`rho = 5`; and `compute_divergence` applied to the resulting `conc_lap` is
`compute_convolution` on the same arrays and writes the same mask-weighted sum. -/
theorem compute_laplacian_interior (nx ny nm r : Nat) (hnm : nm = 2 * r + 1)
    (conc_old conc_lap conc_div mask_lap : Grid K) (kappa : K)
    (hA : conc_old.HasShape ny nx) (hL : conc_lap.HasShape ny nx)
    (hD : conc_div.HasShape ny nx) (hM : mask_lap.HasShape nm nm) :
    (∀ c : K, spinodal.dfdc c
      = 2 * 5 * (c - 3 / 10) * (7 / 10 - c) * (3 / 10 + 7 / 10 - 2 * c)) ∧
    ∃ s', spinodal.compute_laplacian conc_old conc_lap mask_lap kappa nx ny nm = some s' ∧
      (∀ j i : Int, (r : Int) ≤ j → j < (ny : Int) - r → (r : Int) ≤ i → i < (nx : Int) - r →
        s'.conc_lap.rd j i = some (spinodal.dfdc (conc_old.val j i) - kappa *
          ∑ mj ∈ Finset.Icc (-(r : Int)) r, ∑ mi ∈ Finset.Icc (-(r : Int)) r,
            mask_lap.val (mj + r) (mi + r) * conc_old.val (j + mj) (i + mi))) ∧
      (spinodal.compute_divergence s'.conc_lap conc_div mask_lap nx ny nm).map
          (fun t => t.conc_div)
        = (openmp.compute_convolution s'.conc_lap conc_div mask_lap nx ny nm).map
          (fun t => t.C) ∧
      ∃ t, spinodal.compute_divergence s'.conc_lap conc_div mask_lap nx ny nm = some t ∧
        ∀ j i : Int, (r : Int) ≤ j → j < (ny : Int) - r → (r : Int) ≤ i → i < (nx : Int) - r →
          t.conc_div.rd j i = some (∑ mj ∈ Finset.Icc (-(r : Int)) r,
            ∑ mi ∈ Finset.Icc (-(r : Int)) r,
              mask_lap.val (mj + r) (mi + r) * s'.conc_lap.val (j + mj) (i + mi)) := by
  refine ⟨fun c => rfl, ?_⟩
  obtain ⟨s', hs, ⟨_, _, hshape⟩, hint, _⟩ :=
    compute_laplacian_spec nx ny nm r hnm conc_old conc_lap mask_lap kappa hA hL hM
  obtain ⟨t, ht, _, htint, _⟩ :=
    compute_divergence_spec nx ny nm r hnm s'.conc_lap conc_div mask_lap hshape hD hM
  refine ⟨s', hs, hint, ?_, t, ht, htint⟩
  rw [← compute_divergence_eq, Option.map_map]
  rfl

/-- Witness for C10: 3-by-3 arrays over the rationals with the 5-point mask, `nm = 3`,
`kappa = 2`. -/
theorem compute_laplacian_interior_witness :
    (spinodal.compute_laplacian ([[1, 2, 3], [4, 5, 7], [7, 8, 9]] : Grid ℚ)
        [[0, 0, 0], [0, 0, 0], [0, 0, 0]] [[0, 1, 0], [1, -4, 1], [0, 1, 0]] 2
        (3 : Nat) (3 : Nat) (3 : Nat)).isSome := by
  obtain ⟨_, s', hs, _⟩ := compute_laplacian_interior 3 3 3 1 (by decide)
    ([[1, 2, 3], [4, 5, 7], [7, 8, 9]] : Grid ℚ) [[0, 0, 0], [0, 0, 0], [0, 0, 0]]
    [[0, 0, 0], [0, 0, 0], [0, 0, 0]] [[0, 1, 0], [1, -4, 1], [0, 1, 0]] 2
    (by decide) (by decide) (by decide) (by decide)
  rw [hs]; rfl

/-- On a square grid (`nx = ny`) the TBB backend, its body run once on the whole range,
is the OpenMP backend: the swapped row and column intervals coincide. -/
theorem tbb_eq_openmp_square (A B C M : Grid K) (n nm : Int) (D dt e : K) :
    tbb.compute_convolution A C M n n nm = openmp.compute_convolution A C M n n nm ∧
      tbb.solve_diffusion_equation A B C n n nm D dt e
        = openmp.solve_diffusion_equation A B C n n nm D dt e := by
  unfold tbb.compute_convolution openmp.compute_convolution tbb.solve_diffusion_equation
    openmp.solve_diffusion_equation tbb.parallel_for
  by_cases h : cdiv nm 2 < n - cdiv nm 2
  · simp [tbb.blocked_range2d.ctor, tbb.blocked_range2d.empty, tbb.blocked_range.empty, h]
  · have hle : n - cdiv nm 2 ≤ cdiv nm 2 := not_lt.1 h
    simp [tbb.blocked_range2d.ctor, tbb.blocked_range2d.empty, tbb.blocked_range.empty, h,
      forLoop_empty _ _ _ hle]


/-! ## `check_solution` -/

/-- An accumulation loop returns `v` plus the sum of the terms, whatever its bounds. -/
theorem forLoop_accum_all (body : Int → K → Option K) (g : Int → K) (lo hi : Int)
    (hb : ∀ k v, lo ≤ k → k < hi → body k v = some (v + g k)) (v : K) :
    forLoop lo hi body v = some (v + ∑ k ∈ Finset.Ico lo hi, g k) := by
  rcases le_or_lt lo hi with h | h
  · exact forLoop_accum body g lo hi h hb v
  · rw [forLoop_empty body lo hi (le_of_lt h), Finset.Ico_eq_empty (by omega)]
    simp

theorem wrap32_of_representable {p : Int} (h1 : -2147483648 ≤ p) (h2 : p < 2147483648) :
    wrap32 p = p := by
  unfold wrap32
  omega

/-- A loop one of whose iterations fails on every state fails. -/
theorem forLoopAux_fail {σ : Type} (body : Int → σ → Option σ) (k0 : Int)
    (hfail : ∀ s, body k0 s = none) :
    ∀ (n : Nat) (lo : Int) (s : σ), lo ≤ k0 → k0 < lo + n → forLoopAux body n lo s = none := by
  intro n
  induction n with
  | zero => intro lo s h1 h2; simp at h2; omega
  | succ n ih =>
    intro lo s h1 h2
    simp only [forLoopAux]
    by_cases hk : lo = k0
    · subst hk; rw [hfail]; rfl
    · cases hb : body lo s with
      | none => rfl
      | some s1 =>
        simp only [Option.some_bind]
        exact ih (lo + 1) s1 (by omega) (by push_cast at h2; omega)

theorem forLoop_fail {σ : Type} (body : Int → σ → Option σ) (lo hi k0 : Int)
    (h1 : lo ≤ k0) (h2 : k0 < hi) (hfail : ∀ s, body k0 s = none) (s : σ) :
    forLoop lo hi body s = none :=
  forLoopAux_fail body k0 hfail _ lo s h1 (by omega)

/-- The two calls of `analytical_value` in the body of `check_solution`, when they have
values, add up to `superposition`. -/
theorem analytical_value_call_eq {F : Type} [LinearOrderedField F] (sqrt erf : F → F)
    (x t D : F) (bc : Fin 2 → Fin 2 → F) (h0 : 0 ≤ 4 * D * t) (hs : sqrt (4 * D * t) ≠ 0) :
    openmp.analytical_value_call sqrt erf x t D bc
      = some (openmp.analytical_value sqrt erf x t D bc) := by
  unfold openmp.analytical_value_call
  rw [if_pos ⟨h0, hs⟩]

theorem analytical_value_call_none {F : Type} [LinearOrderedField F] (sqrt erf : F → F)
    (x t D : F) (bc : Fin 2 → Fin 2 → F) (h : ¬ (0 ≤ 4 * D * t ∧ sqrt (4 * D * t) ≠ 0)) :
    openmp.analytical_value_call sqrt erf x t D bc = none := by
  unfold openmp.analytical_value_call
  rw [if_neg h]

/-- The divisor of `check_solution` when the `int` product does not overflow. -/
theorem divisor_eq (nx ny nm r : Nat) (hnm : nm = 2 * r + 1)
    (h1 : -2147483648 ≤ ((nx : Int) - r - 1) * ((ny : Int) - r - 1))
    (h2 : ((nx : Int) - r - 1) * ((ny : Int) - r - 1) < 2147483648) :
    (openmp.divisor nx ny nm : K) = (((nx : Int) - r - 1) * ((ny : Int) - r - 1) : Int) := by
  subst hnm
  unfold openmp.divisor
  rw [cdiv_two_natCast, wrap32_of_representable h1 h2]

/-- On a non-empty interior the divisor of `check_solution` is positive when the `int`
product does not overflow. -/
theorem divisor_pos {F : Type} [LinearOrderedField F] (nx ny nm r : Nat)
    (hnm : nm = 2 * r + 1) (h3 : 3 ≤ nm) (hx : 2 * r < nx) (hy : 2 * r < ny)
    (h2 : ((nx : Int) - r - 1) * ((ny : Int) - r - 1) < 2147483648) :
    (0 : F) < openmp.divisor nx ny nm := by
  have hp : 0 < ((nx : Int) - r - 1) * ((ny : Int) - r - 1) :=
    mul_pos (by omega) (by omega)
  rw [divisor_eq nx ny nm r hnm (by omega) h2]
  exact_mod_cast hp

/-- The two residual loops of `check_solution`, over any intervals of `j` and `i` whose
cells are readable: when the square root and the quotients of the body have values, the
result is the sum over the cells of the squared residual divided by the divisor. -/
theorem residual_loops {F : Type} [LinearOrderedField F] (sqrt erf : F → F)
    (A : Grid F) (nx ny : Int) (dx dy : F) (nm : Int) (elapsed D : F)
    (bc : Fin 2 → Fin 2 → F) (a b c d : Int)
    (hread : ∀ j i : Int, a ≤ j → j < b → c ≤ i → i < d → A.rd j i = some (A.val j i))
    (hdef : a < b → c < d →
      (0 ≤ 4 * D * elapsed ∧ sqrt (4 * D * elapsed) ≠ 0)
        ∧ (openmp.divisor nx ny nm : F) ≠ 0) :
    forLoop a b (fun j sum =>
        forLoop c d (fun i sum => do
          let cn ← A.rd j i
          let cal ← openmp.analytical_value_call sqrt erf
            (openmp.left_distance sqrt ny dx dy nm j i) elapsed D bc
          let car ← openmp.analytical_value_call sqrt erf
            (openmp.right_distance sqrt nx ny dx dy nm j i) elapsed D bc
          let ca := cal + car
          let trss ← fdiv ((ca - cn) * (ca - cn)) (openmp.divisor nx ny nm)
          pure (sum + trss)) sum) 0
      = some (∑ j ∈ Finset.Ico a b, ∑ i ∈ Finset.Ico c d,
          (openmp.superposition sqrt erf nx ny dx dy nm elapsed D bc j i - A.val j i)
            * (openmp.superposition sqrt erf nx ny dx dy nm elapsed D bc j i - A.val j i)
            / openmp.divisor nx ny nm) := by
  rw [forLoop_accum_all _ (fun j => ∑ i ∈ Finset.Ico c d,
    (openmp.superposition sqrt erf nx ny dx dy nm elapsed D bc j i - A.val j i)
      * (openmp.superposition sqrt erf nx ny dx dy nm elapsed D bc j i - A.val j i)
      / openmp.divisor nx ny nm)]
  · simp
  · intro j v hj hj'
    rw [forLoop_accum_all _ (fun i =>
      (openmp.superposition sqrt erf nx ny dx dy nm elapsed D bc j i - A.val j i)
        * (openmp.superposition sqrt erf nx ny dx dy nm elapsed D bc j i - A.val j i)
        / openmp.divisor nx ny nm)]
    intro i w hi hi'
    obtain ⟨⟨h0, hs⟩, hd⟩ := hdef (by omega) (by omega)
    rw [hread j i hj hj' hi hi',
      analytical_value_call_eq sqrt erf _ _ _ _ h0 hs,
      analytical_value_call_eq sqrt erf _ _ _ _ h0 hs]
    simp only [bind, Option.bind, fdiv, if_neg hd, pure]
    rfl

/-- The value `check_solution` stores in `*rss` on a well-shaped field with an odd
kernel size `nm = 2r+1`, when the square root and the quotients of the body have values
on a non-empty interior: the sum over the interior cells of the squared residual divided
by the divisor. -/
theorem check_solution_spec {F : Type} [LinearOrderedField F] (sqrt erf : F → F)
    (nx ny nm r : Nat) (hnm : nm = 2 * r + 1)
    (A : Grid F) (hA : A.HasShape ny nx) (dx dy elapsed D : F) (bc : Fin 2 → Fin 2 → F)
    (hdef : 2 * r < nx → 2 * r < ny →
      (0 ≤ 4 * D * elapsed ∧ sqrt (4 * D * elapsed) ≠ 0)
        ∧ (openmp.divisor nx ny nm : F) ≠ 0) :
    openmp.check_solution sqrt erf A nx ny dx dy nm elapsed D bc
      = some (∑ j ∈ Finset.Ico (r : Int) ((ny : Int) - r),
          ∑ i ∈ Finset.Ico (r : Int) ((nx : Int) - r),
            (openmp.superposition sqrt erf nx ny dx dy nm elapsed D bc j i - A.val j i)
              * (openmp.superposition sqrt erf nx ny dx dy nm elapsed D bc j i - A.val j i)
              / openmp.divisor nx ny nm) := by
  have hc : cdiv (nm : Int) 2 = r := by rw [hnm]; exact cdiv_two_natCast r
  unfold openmp.check_solution
  rw [hc]
  exact residual_loops sqrt erf A nx ny dx dy nm elapsed D bc _ _ _ _
    (fun j i h1 h2 h3 h4 =>
      Grid.rd_eq_some_val hA (by omega) (by omega) (by omega) (by omega))
    (fun h1 h2 => hdef (by omega) (by omega))

/-- On a non-empty interior `check_solution` has no result when a square root or a
quotient of the body has no value in the field. -/
theorem check_solution_undefined {F : Type} [LinearOrderedField F] (sqrt erf : F → F)
    (nx ny nm r : Nat) (hnm : nm = 2 * r + 1) (hx : 2 * r < nx) (hy : 2 * r < ny)
    (A : Grid F) (dx dy elapsed D : F) (bc : Fin 2 → Fin 2 → F)
    (hundef : ¬ (0 ≤ 4 * D * elapsed ∧ sqrt (4 * D * elapsed) ≠ 0)
      ∨ (openmp.divisor nx ny nm : F) = 0) :
    openmp.check_solution sqrt erf A nx ny dx dy nm elapsed D bc = none := by
  subst hnm
  unfold openmp.check_solution
  rw [cdiv_two_natCast]
  apply forLoop_fail _ _ _ (r : Int) (le_refl _) (by omega)
  intro s
  apply forLoop_fail _ _ _ (r : Int) (le_refl _) (by omega)
  intro s'
  cases hrd : A.rd (r : Int) (r : Int) with
  | none => rfl
  | some cn =>
    rcases hundef with h | h
    · simp only [bind, Option.bind, analytical_value_call_none sqrt erf _ _ _ _ h]
    · by_cases hg : 0 ≤ 4 * D * elapsed ∧ sqrt (4 * D * elapsed) ≠ 0
      · simp only [bind, Option.bind, analytical_value_call_eq sqrt erf _ _ _ _ hg.1 hg.2,
          fdiv, if_pos h]
      · simp only [bind, Option.bind, analytical_value_call_none sqrt erf _ _ _ _ hg]

namespace tbb

end tbb

/-- The entries of the field of analytical values. -/
theorem analyticalField_rd (sqrt erf : K → K) (nx ny : Nat) (dx dy : K) (nm : Int)
    (elapsed D : K) (bc : Fin 2 → Fin 2 → K) (j i : Int) (hj : 0 ≤ j) (hj' : j < ny)
    (hi : 0 ≤ i) (hi' : i < nx) :
    (analyticalField sqrt erf nx ny dx dy nm elapsed D bc).rd j i
      = some (openmp.superposition sqrt erf nx ny dx dy nm elapsed D bc j i) := by
  have h1 : j.toNat < ny := by omega
  have h2 : i.toNat < nx := by omega
  have e1 : ((j.toNat : Nat) : Int) = j := Int.toNat_of_nonneg hj
  have e2 : ((i.toNat : Nat) : Int) = i := Int.toNat_of_nonneg hi
  have hrow : (analyticalField sqrt erf nx ny dx dy nm elapsed D bc)[j.toNat]?
      = some ((List.range nx).map (fun (i : Nat) =>
          openmp.superposition sqrt erf nx ny dx dy nm elapsed D bc j (i : Int))) := by
    unfold analyticalField
    rw [List.getElem?_eq_getElem (by simpa using h1), List.getElem_map, List.getElem_range, e1]
  have hcell : ((List.range nx).map (fun (i : Nat) =>
        openmp.superposition sqrt erf nx ny dx dy nm elapsed D bc j (i : Int)))[i.toNat]?
      = some (openmp.superposition sqrt erf nx ny dx dy nm elapsed D bc j i) := by
    rw [List.getElem?_eq_getElem (by simpa using h2), List.getElem_map, List.getElem_range, e2]
  unfold Grid.rd
  rw [if_pos ⟨hj, hi⟩, hrow]
  exact hcell

/-- C13, counterexample: `nx = ny = 65538`, `nm = 3`, `dx = dy = 1`, `D = elapsed = 1`,
`bc[1][0] = 1`, over the reals with the real square root and the error function
`erf(x) = 2/sqrt(pi) * ∫_0^x exp(-t^2) dt`.  The `int` product
`(65538-1-1) * (65538-1-1) = 2^32` of the divisor wraps to 0, so on the field of the
analytical values, which matches `ca` at every interior cell, every residual term is the
quotient `0/0`: `check_solution` stores NaN, not 0. -/
theorem check_solution_perfect_match_overflow :
    (∀ j i : Int, 1 ≤ j → j < 65538 - 1 → 1 ≤ i → i < 65538 - 1 →
      (analyticalField Real.sqrt
          (fun x => 2 / Real.sqrt Real.pi * ∫ t in (0 : ℝ)..x, Real.exp (-(t * t)))
          65538 65538 1 1 3 1 1 ![![0, 0], ![1, 0]]).rd j i
        = some (openmp.superposition Real.sqrt
            (fun x => 2 / Real.sqrt Real.pi * ∫ t in (0 : ℝ)..x, Real.exp (-(t * t)))
            (65538 : Nat) (65538 : Nat) 1 1 3 1 1 ![![0, 0], ![1, 0]] j i)) ∧
    (0 : ℝ) < 4 * 1 * 1 ∧
    wrap32 ((65538 - cdiv 3 2 - 1) * (65538 - cdiv 3 2 - 1)) = 0 ∧
    (openmp.divisor (65538 : Nat) (65538 : Nat) (3 : Nat) : ℝ) = 0 ∧
    openmp.check_solution Real.sqrt
      (fun x => 2 / Real.sqrt Real.pi * ∫ t in (0 : ℝ)..x, Real.exp (-(t * t)))
      (analyticalField Real.sqrt
        (fun x => 2 / Real.sqrt Real.pi * ∫ t in (0 : ℝ)..x, Real.exp (-(t * t)))
        65538 65538 1 1 3 1 1 ![![0, 0], ![1, 0]])
      (65538 : Nat) (65538 : Nat) 1 1 (3 : Nat) 1 1 ![![0, 0], ![1, 0]] = none := by
  have hw : wrap32 ((65538 - cdiv 3 2 - 1) * (65538 - cdiv 3 2 - 1)) = 0 := by decide
  have hd : (openmp.divisor (65538 : Nat) (65538 : Nat) (3 : Nat) : ℝ) = 0 := by
    unfold openmp.divisor
    have : wrap32 ((((65538 : Nat) : Int) - cdiv ((3 : Nat) : Int) 2 - 1)
        * (((65538 : Nat) : Int) - cdiv ((3 : Nat) : Int) 2 - 1)) = 0 := by decide
    rw [this]
    simp
  refine ⟨?_, by norm_num, hw, hd, ?_⟩
  · intro j i h1 h2 h3 h4
    exact analyticalField_rd Real.sqrt _ 65538 65538 1 1 3 1 1 _ j i (by omega)
      (by push_cast; omega) (by omega) (by push_cast; omega)
  · exact check_solution_undefined Real.sqrt _ 65538 65538 3 1 (by decide) (by decide)
      (by decide) _ 1 1 1 1 _ (Or.inr hd)

/-- C13, amended: `check_solution` returns exactly 0 on a perfect match when the `int`
product of the divisor does not overflow.  For every `nx, ny`, odd `nm = 2r+1 ≥ 3` with
`(nx - r - 1) * (ny - r - 1) < 2^31`, every `dx, dy, bc` and every `D`, `elapsed` with
`4*D*elapsed > 0` (in particular `D > 0` and `elapsed > 0`), if the field satisfies
`A[j][i] = ca(j, i)` at every interior cell, the value stored in `*rss` is 0, and a second
call on the same arguments stores 0 again. -/
theorem check_solution_perfect_match {F : Type} [LinearOrderedField F] (sqrt erf : F → F)
    (nx ny nm r : Nat) (hnm : nm = 2 * r + 1) (h3 : 3 ≤ nm)
    (h2 : ((nx : Int) - r - 1) * ((ny : Int) - r - 1) < 2147483648)
    (A : Grid F) (dx dy elapsed D : F) (bc : Fin 2 → Fin 2 → F)
    (hsqrt : ∀ x : F, 0 < x → 0 < sqrt x) (hDt : 0 < 4 * D * elapsed)
    (hmatch : ∀ j i : Int, (r : Int) ≤ j → j < (ny : Int) - r → (r : Int) ≤ i →
      i < (nx : Int) - r →
      A.rd j i = some (openmp.superposition sqrt erf nx ny dx dy nm elapsed D bc j i)) :
    openmp.check_solution sqrt erf A nx ny dx dy nm elapsed D bc = some 0 ∧
    (openmp.check_solution sqrt erf A nx ny dx dy nm elapsed D bc).bind
      (fun _ => openmp.check_solution sqrt erf A nx ny dx dy nm elapsed D bc) = some 0 := by
  have hc : cdiv (nm : Int) 2 = r := by rw [hnm]; exact cdiv_two_natCast r
  have h0 : 0 ≤ 4 * D * elapsed := le_of_lt hDt
  have hs : sqrt (4 * D * elapsed) ≠ 0 := ne_of_gt (hsqrt _ hDt)
  have h : openmp.check_solution sqrt erf A nx ny dx dy nm elapsed D bc = some 0 := by
    unfold openmp.check_solution
    rw [hc, forLoop_accum_all _ (fun _ => (0 : F))]
    · simp
    · intro j v hj hj'
      rw [forLoop_accum_all _ (fun _ => (0 : F))]
      · simp
      · intro i w hi hi'
        have hd : (openmp.divisor nx ny nm : F) ≠ 0 :=
          ne_of_gt (divisor_pos nx ny nm r hnm h3 (by omega) (by omega) h2)
        rw [hmatch j i hj hj' hi hi', analytical_value_call_eq sqrt erf _ _ _ _ h0 hs,
          analytical_value_call_eq sqrt erf _ _ _ _ h0 hs]
        simp only [bind, Option.bind, fdiv, if_neg hd, pure]
        have hz : openmp.analytical_value sqrt erf (openmp.left_distance sqrt ny dx dy nm j i)
              elapsed D bc
            + openmp.analytical_value sqrt erf
              (openmp.right_distance sqrt nx ny dx dy nm j i) elapsed D bc
            - openmp.superposition sqrt erf nx ny dx dy nm elapsed D bc j i = 0 :=
          sub_self _
        rw [hz, zero_mul, zero_div]
  exact ⟨h, by rw [h]; rfl⟩

/-- Witness for the amended C13: the 3-by-3 field whose interior cell holds the analytical
value 2 (`bc[1][0] = 1`, `erf` taken as the zero function, `sqrt` as the identity). -/
theorem check_solution_perfect_match_witness :
    openmp.check_solution (fun x => x) (fun _ => 0) ([[0, 0, 0], [0, 2, 0], [0, 0, 0]] : Grid ℚ)
        (3 : Nat) (3 : Nat) 1 1 (3 : Nat) 1 1 ![![0, 0], ![1, 0]] = some 0 :=
  (check_solution_perfect_match (fun x => x) (fun _ => 0) 3 3 3 1 (by decide) (by decide)
    (by decide) ([[0, 0, 0], [0, 2, 0], [0, 0, 0]] : Grid ℚ) 1 1 1 1 ![![0, 0], ![1, 0]]
    (fun x hx => hx) (by norm_num)
    (by
      intro j i h1 h2 h3 h4
      have hj : j = 1 := by omega
      have hi : i = 1 := by omega
      subst hj
      subst hi
      decide!)).1

/-- C14, counterexample: `nx = ny = 3`, `nm = 3`, `dx = dy = 1`, `D = 1`, `elapsed = 0`,
`bc[1][0] = 1`, the zero field, over the reals with the real square root and the error
function `erf(x) = 2/sqrt(pi) * ∫_0^x exp(-t^2) dt`.  The product `(3-1-1) * (3-1-1) = 1`
is representable; the interior cell `(1, 1)` is at distance 0 from the left-wall source
and `sqrt(4*D*elapsed) = 0`, so `analytical_value` evaluates `0/0`: the value stored in
`*rss` is NaN, which is not `≥ 0`. -/
theorem check_solution_elapsed_zero :
    Grid.HasShape ([[0, 0, 0], [0, 0, 0], [0, 0, 0]] : Grid ℝ) 3 3 ∧
    wrap32 ((3 - cdiv 3 2 - 1) * (3 - cdiv 3 2 - 1)) = 1 ∧
    openmp.left_distance Real.sqrt 3 1 1 3 1 1 = 0 ∧
    Real.sqrt (4 * 1 * 0) = 0 ∧
    openmp.check_solution Real.sqrt
      (fun x => 2 / Real.sqrt Real.pi * ∫ t in (0 : ℝ)..x, Real.exp (-(t * t)))
      ([[0, 0, 0], [0, 0, 0], [0, 0, 0]] : Grid ℝ)
      (3 : Nat) (3 : Nat) 1 1 (3 : Nat) 0 1 ![![0, 0], ![1, 0]] = none := by
  have hs : Real.sqrt (4 * 1 * 0) = 0 := by simp
  refine ⟨by decide, by decide, ?_, hs, ?_⟩
  · have h1 : cdiv 3 2 = 1 := by decide
    simp [openmp.left_distance, h1]
  · exact check_solution_undefined Real.sqrt _ 3 3 3 1 (by decide) (by decide) (by decide)
      _ 1 1 0 1 _ (Or.inl (fun h => h.2 hs))

/-- C14, amended: RSS is non-negative when `4*D*elapsed > 0`.  For every odd
`nm = 2r+1 ≥ 3`, every `nx, ny` whose product `(nx - r - 1) * (ny - r - 1)` is
representable as a 32-bit `int`, every well-shaped field `A` and every `dx, dy, bc`: for
every `D, elapsed` with `4*D*elapsed > 0` the value `check_solution` stores in `*rss` is
`≥ 0`; for every `D, elapsed` it is 0 when the interior region is empty; and on a
non-empty interior with `4*D*elapsed < 0` or `sqrt(4*D*elapsed) = 0` the value stored is
no number. -/
theorem check_solution_nonneg {F : Type} [LinearOrderedField F] (sqrt erf : F → F)
    (nx ny nm r : Nat) (hnm : nm = 2 * r + 1) (h3 : 3 ≤ nm)
    (h1 : -2147483648 ≤ ((nx : Int) - r - 1) * ((ny : Int) - r - 1))
    (h2 : ((nx : Int) - r - 1) * ((ny : Int) - r - 1) < 2147483648)
    (A : Grid F) (hA : A.HasShape ny nx) (dx dy elapsed D : F) (bc : Fin 2 → Fin 2 → F)
    (hsqrt : ∀ x : F, 0 < x → 0 < sqrt x) :
    (0 < 4 * D * elapsed →
      ∃ v, openmp.check_solution sqrt erf A nx ny dx dy nm elapsed D bc = some v ∧ 0 ≤ v) ∧
    ((nx ≤ 2 * r ∨ ny ≤ 2 * r) →
      openmp.check_solution sqrt erf A nx ny dx dy nm elapsed D bc = some 0) ∧
    (2 * r < nx → 2 * r < ny → (4 * D * elapsed < 0 ∨ sqrt (4 * D * elapsed) = 0) →
      openmp.check_solution sqrt erf A nx ny dx dy nm elapsed D bc = none) := by
  refine ⟨?_, ?_, ?_⟩
  · intro hDt
    refine ⟨_, check_solution_spec sqrt erf nx ny nm r hnm A hA dx dy elapsed D bc
      (fun hx hy => ⟨⟨le_of_lt hDt, ne_of_gt (hsqrt _ hDt)⟩,
        ne_of_gt (divisor_pos nx ny nm r hnm h3 hx hy h2)⟩), ?_⟩
    refine Finset.sum_nonneg (fun j hj => Finset.sum_nonneg (fun i hi => ?_))
    rw [Finset.mem_Ico] at hj hi
    exact div_nonneg (mul_self_nonneg _)
      (le_of_lt (divisor_pos nx ny nm r hnm h3 (by omega) (by omega) h2))
  · intro hemp
    rw [check_solution_spec sqrt erf nx ny nm r hnm A hA dx dy elapsed D bc
      (fun hx hy => by omega)]
    congr 1
    rcases hemp with h | h
    · refine Finset.sum_eq_zero (fun j _ => ?_)
      rw [Finset.Ico_eq_empty (by omega)]
      simp
    · rw [Finset.Ico_eq_empty (by omega)]
      simp
  · intro hx hy hbad
    refine check_solution_undefined sqrt erf nx ny nm r hnm hx hy A dx dy elapsed D bc
      (Or.inl ?_)
    rintro ⟨h0, hs⟩
    rcases hbad with h | h
    · exact absurd h0 (not_le.2 h)
    · exact hs h

/-- Witness for the amended C14: a 3-by-3 field over the rationals, `nm = 3`,
`D = elapsed = 1`, with `sqrt` and `erf` taken as the identity. -/
theorem check_solution_nonneg_witness :
    ∃ v : ℚ, openmp.check_solution (fun x => x) (fun x => x)
        ([[1, 2, 3], [4, 5, 7], [7, 8, 9]] : Grid ℚ) (3 : Nat) (3 : Nat) 1 1 (3 : Nat) 1 1
        ![![0, 0], ![1, 0]] = some v ∧ 0 ≤ v :=
  (check_solution_nonneg (fun x => x) (fun x => x) 3 3 3 1 (by decide) (by decide)
    (by decide) (by decide) _ (by decide) 1 1 1 1 _ (fun x hx => hx)).1 (by norm_num)

/-- The sum of a list after one entry is replaced. -/
theorem sum_map_set {α : Type} (f : α → K) :
    ∀ (l : List α) (n : Nat) (a b : α), l[n]? = some a →
      ((l.set n b).map f).sum = (l.map f).sum - f a + f b := by
  intro l
  induction l with
  | nil => intro n a b h; simp at h
  | cons x l ih =>
    intro n a b h
    cases n with
    | zero =>
      simp only [List.getElem?_cons_zero, Option.some.injEq] at h
      subst h
      simp only [List.set_cons_zero, List.map_cons, List.sum_cons]
      ring
    | succ n =>
      simp only [List.getElem?_cons_succ] at h
      simp only [List.set_cons_succ, List.map_cons, List.sum_cons, ih n a b h]
      ring

/-- The sum of a list after one entry is removed. -/
theorem sum_map_eraseIdx {α : Type} (f : α → K) :
    ∀ (l : List α) (n : Nat) (a : α), l[n]? = some a →
      ((l.eraseIdx n).map f).sum = (l.map f).sum - f a := by
  intro l
  induction l with
  | nil => intro n a h; simp at h
  | cons x l ih =>
    intro n a h
    cases n with
    | zero =>
      simp only [List.getElem?_cons_zero, Option.some.injEq] at h
      subst h
      simp only [List.eraseIdx_cons_zero, List.map_cons, List.sum_cons]
      ring
    | succ n =>
      simp only [List.getElem?_cons_succ] at h
      simp only [List.eraseIdx_cons_succ, List.map_cons, List.sum_cons, ih n a h]
      ring

namespace tbb

theorem mem_cells (r : blocked_range2d) (c : Int × Int) :
    c ∈ r.cells ↔ r.contains c.2 c.1 = true := by
  simp only [blocked_range2d.cells, Finset.mem_product, Finset.mem_Ico,
    blocked_range2d.contains, decide_eq_true_eq]
  tauto

/-- The method `operator()` on a range all of whose cells have a residual term: `my_rss`
grows by the sum of the residual terms of the cells. -/
theorem call_ok {F : Type} [LinearOrderedField F] (sqrt erf : F → F)
    (b : ResidualSumOfSquares2D F) (r : blocked_range2d)
    (h : ∀ c ∈ r.cells, (b.term sqrt erf c.1 c.2).isSome) :
    b.call sqrt erf r = some { b with my_rss := b.my_rss +
      ∑ c ∈ r.cells, (b.term sqrt erf c.1 c.2).getD 0 } := by
  unfold ResidualSumOfSquares2D.call
  rw [forLoop_accum_all _ (fun j => ∑ i ∈ Finset.Ico r.rows.my_begin r.rows.my_end,
    (b.term sqrt erf j i).getD 0)]
  · simp only [bind, pure, Option.bind, blocked_range2d.cells, Finset.sum_product]
  · intro j v hj hj'
    rw [forLoop_accum_all _ (fun i => (b.term sqrt erf j i).getD 0)]
    intro i w hi hi'
    have hsome := h (j, i) (by simp [blocked_range2d.cells, hj, hj', hi, hi'])
    obtain ⟨t, ht⟩ := Option.isSome_iff_exists.1 hsome
    simp only [] at ht
    simp only [ht, bind, pure, Option.bind, Option.getD_some]

/-- The method `operator()` on a range with a cell that has no residual term has no
result. -/
theorem call_fail {F : Type} [LinearOrderedField F] (sqrt erf : F → F)
    (b : ResidualSumOfSquares2D F) (r : blocked_range2d)
    (c : Int × Int) (hc : c ∈ r.cells) (h : b.term sqrt erf c.1 c.2 = none) :
    b.call sqrt erf r = none := by
  simp only [blocked_range2d.cells, Finset.mem_product, Finset.mem_Ico] at hc
  unfold ResidualSumOfSquares2D.call
  rw [forLoop_fail _ _ _ c.1 hc.1.1 hc.1.2]
  · rfl
  · intro s
    apply forLoop_fail _ _ _ c.2 hc.2.1 hc.2.2
    intro s'
    simp only [h, bind, Option.bind]

/-- The method `operator()` keeps every field but `my_rss`. -/
theorem call_fields {F : Type} [LinearOrderedField F] (sqrt erf : F → F)
    (b y : ResidualSumOfSquares2D F) (r : blocked_range2d) (h : b.call sqrt erf r = some y) :
    ∃ v, y = { b with my_rss := v } := by
  unfold ResidualSumOfSquares2D.call at h
  simp only [bind, pure] at h
  cases hs : forLoop r.cols.my_begin r.cols.my_end (fun j sum =>
      forLoop r.rows.my_begin r.rows.my_end (fun i sum =>
        (ResidualSumOfSquares2D.term sqrt erf b j i).bind fun t => some (sum + t)) sum)
      b.my_rss with
  | none => rw [hs] at h; exact absurd h (by simp [Option.bind])
  | some v =>
    rw [hs] at h
    simp only [Option.bind, Option.some.injEq] at h
    exact ⟨v, h.symm⟩

/-- One action keeps the number of bodies the well-formedness test counts, and every
body keeps the fields of `R`. -/
theorem step_inv {F : Type} [LinearOrderedField F] (sqrt erf : F → F)
    (R : ResidualSumOfSquares2D F) (st : Step) (bs bs' : List (ResidualSumOfSquares2D F))
    (hf : ∀ b ∈ bs, ∃ x, b = { R with my_rss := x })
    (h : st.run sqrt erf bs = some bs') :
    ∀ b ∈ bs', ∃ x, b = { R with my_rss := x } := by
  cases st with
  | split a =>
    simp only [Step.run, bind, pure] at h
    cases ha : bs[a]? with
    | none => rw [ha] at h; exact absurd h (by simp [Option.bind])
    | some x =>
      rw [ha] at h
      simp only [Option.bind, Option.some.injEq] at h
      subst h
      intro b hb
      rcases List.mem_append.1 hb with hb | hb
      · exact hf b hb
      · rw [List.mem_singleton] at hb
        exact ⟨0, hb ▸ (by
          obtain ⟨v, hv⟩ := hf x (List.getElem?_mem ha)
          rw [hv]; rfl)⟩
  | call a r =>
    simp only [Step.run, bind, pure] at h
    cases ha : bs[a]? with
    | none => rw [ha] at h; exact absurd h (by simp [Option.bind])
    | some x =>
      rw [ha] at h
      simp only [Option.bind] at h
      cases hy : x.call sqrt erf r with
      | none => rw [hy] at h; exact absurd h (by simp)
      | some y =>
        rw [hy] at h
        simp only [Option.some.injEq] at h
        subst h
        intro b hb
        rcases List.mem_or_eq_of_mem_set hb with hb | hb
        · exact hf b hb
        · obtain ⟨v, hv⟩ := call_fields sqrt erf x y r hy
          obtain ⟨w, hw⟩ := hf x (List.getElem?_mem ha)
          exact ⟨v, by rw [hb, hv, hw]⟩
  | join b0 a =>
    simp only [Step.run, bind, pure] at h
    cases hb0 : bs[b0]? with
    | none => rw [hb0] at h; exact absurd h (by simp [Option.bind])
    | some x =>
      rw [hb0] at h
      simp only [Option.bind] at h
      cases ha : bs[a]? with
      | none => rw [ha] at h; exact absurd h (by simp)
      | some y =>
        rw [ha] at h
        simp only [Option.some.injEq] at h
        subst h
        intro b hb
        have hb' := (List.eraseIdx_sublist _ _).subset hb
        rcases List.mem_or_eq_of_mem_set hb' with hb' | hb'
        · exact hf b hb'
        · obtain ⟨w, hw⟩ := hf x (List.getElem?_mem hb0)
          exact ⟨w + y.my_rss, by rw [hb', hw]; rfl⟩

/-- A well-formed schedule all of whose sub-ranges have residual terms ends with the one
body whose `my_rss` is the sum of the `my_rss` it started with and of the residual terms
of the sub-ranges. -/
theorem run_ok {F : Type} [LinearOrderedField F] (sqrt erf : F → F)
    (R : ResidualSumOfSquares2D F) :
    ∀ (s : List Step) (bs : List (ResidualSumOfSquares2D F)),
      (∀ b ∈ bs, ∃ x, b = { R with my_rss := x }) →
      Schedule.wellFormed s bs.length = true →
      (∀ r ∈ Schedule.ranges s, ∀ c ∈ r.cells, (R.term sqrt erf c.1 c.2).isSome) →
      Schedule.run sqrt erf s bs = some [{ R with my_rss :=
        (bs.map (fun b => b.my_rss)).sum + ((Schedule.ranges s).map
          (fun r => ∑ c ∈ r.cells, (R.term sqrt erf c.1 c.2).getD 0)).sum }] := by
  intro s
  induction s with
  | nil =>
    intro bs hf hw _
    simp only [Schedule.wellFormed, decide_eq_true_eq] at hw
    match bs, hw with
    | [b], _ =>
      obtain ⟨x, hx⟩ := hf b (List.mem_singleton.2 rfl)
      subst hx
      simp [Schedule.run, Schedule.ranges]
  | cons st rest ih =>
    intro bs hf hw hr
    cases st with
    | split a =>
      simp only [Schedule.wellFormed, Bool.and_eq_true, decide_eq_true_eq] at hw
      have ha : bs[a]? = some bs[a] := List.getElem?_eq_getElem hw.1
      obtain ⟨x, hx⟩ := hf _ (List.getElem?_mem ha)
      have hstep : Step.run sqrt erf (Step.split a) bs
          = some (bs ++ [{ R with my_rss := 0 }]) := by
        simp only [Step.run, bind, pure, ha, Option.bind, hx]
        rfl
      have hf' := step_inv sqrt erf R _ bs _ hf hstep
      simp only [Schedule.run, hstep, Option.some_bind]
      rw [ih _ hf' (by simpa using hw.2) (fun r h => hr r (by simpa [Schedule.ranges] using h))]
      simp [Schedule.ranges]
    | call a r =>
      simp only [Schedule.wellFormed, Bool.and_eq_true, decide_eq_true_eq] at hw
      have ha : bs[a]? = some bs[a] := List.getElem?_eq_getElem hw.1
      obtain ⟨x, hx⟩ := hf _ (List.getElem?_mem ha)
      have hcall : ResidualSumOfSquares2D.call sqrt erf { R with my_rss := x } r
          = some { R with my_rss := x + ∑ c ∈ r.cells, (R.term sqrt erf c.1 c.2).getD 0 } :=
        call_ok sqrt erf { R with my_rss := x } r (hr r (by simp [Schedule.ranges]))
      have hstep : Step.run sqrt erf (Step.call a r) bs
          = some (bs.set a { R with my_rss :=
              x + ∑ c ∈ r.cells, (R.term sqrt erf c.1 c.2).getD 0 }) := by
        simp only [Step.run, bind, pure, ha, Option.bind, hx, hcall]
      have hf' := step_inv sqrt erf R _ bs _ hf hstep
      simp only [Schedule.run, hstep, Option.some_bind]
      rw [ih _ hf' (by simpa using hw.2)
        (fun r' h => hr r' (by simp [Schedule.ranges, h]))]
      rw [sum_map_set (fun b : ResidualSumOfSquares2D F => b.my_rss) bs a _ _ ha, hx]
      simp only [Schedule.ranges, List.map_cons, List.sum_cons]
      congr 3
      ring
    | join b0 a =>
      simp only [Schedule.wellFormed, Bool.and_eq_true, decide_eq_true_eq, decide_not,
        Bool.not_eq_true', decide_eq_false_iff_not] at hw
      obtain ⟨⟨⟨⟨hb0, ha⟩, hne⟩, hne0⟩, hrest⟩ := hw
      have hb0' : bs[b0]? = some bs[b0] := List.getElem?_eq_getElem hb0
      have ha' : bs[a]? = some bs[a] := List.getElem?_eq_getElem ha
      obtain ⟨x, hx⟩ := hf _ (List.getElem?_mem hb0')
      have hstep : Step.run sqrt erf (Step.join b0 a) bs
          = some ((bs.set b0 (bs[b0].join bs[a])).eraseIdx a) := by
        simp only [Step.run, bind, pure, ha', hb0', Option.bind]
      have hf' := step_inv sqrt erf R _ bs _ hf hstep
      have hlen : ((bs.set b0 (bs[b0].join bs[a])).eraseIdx a).length = bs.length - 1 := by
        rw [List.length_eraseIdx, List.length_set]
        simp [ha]
      have hget : (bs.set b0 (bs[b0].join bs[a]))[a]? = some bs[a] := by
        rw [List.getElem?_set_ne (fun h => hne h.symm), ha']
      simp only [Schedule.run, hstep, Option.some_bind]
      rw [ih _ hf' (by rw [hlen]; exact hrest)
        (fun r' h => hr r' (by simpa [Schedule.ranges] using h))]
      rw [sum_map_eraseIdx (fun b : ResidualSumOfSquares2D F => b.my_rss) _ a _ hget,
        sum_map_set (fun b : ResidualSumOfSquares2D F => b.my_rss) bs b0 _ _ hb0']
      simp only [Schedule.ranges, ResidualSumOfSquares2D.join]
      congr 3
      ring

/-- A well-formed schedule one of whose sub-ranges has a cell without residual term has
no result. -/
theorem run_fail {F : Type} [LinearOrderedField F] (sqrt erf : F → F)
    (R : ResidualSumOfSquares2D F) :
    ∀ (s : List Step) (bs : List (ResidualSumOfSquares2D F)),
      (∀ b ∈ bs, ∃ x, b = { R with my_rss := x }) →
      Schedule.wellFormed s bs.length = true →
      (∃ r ∈ Schedule.ranges s, ∃ c ∈ r.cells, R.term sqrt erf c.1 c.2 = none) →
      Schedule.run sqrt erf s bs = none := by
  intro s
  induction s with
  | nil =>
    intro bs _ _ ⟨r, hr, _⟩
    simp [Schedule.ranges] at hr
  | cons st rest ih =>
    intro bs hf hw hbad
    cases hstep : st.run sqrt erf bs with
    | none => simp only [Schedule.run, hstep, Option.none_bind]
    | some bs' =>
      have hf' := step_inv sqrt erf R st bs bs' hf hstep
      simp only [Schedule.run, hstep, Option.some_bind]
      cases st with
      | split a =>
        simp only [Schedule.wellFormed, Bool.and_eq_true, decide_eq_true_eq] at hw
        have ha : bs[a]? = some bs[a] := List.getElem?_eq_getElem hw.1
        simp only [Step.run, bind, pure, ha, Option.bind, Option.some.injEq] at hstep
        subst hstep
        exact ih _ hf' (by simpa using hw.2) (by simpa [Schedule.ranges] using hbad)
      | call a r =>
        simp only [Schedule.wellFormed, Bool.and_eq_true, decide_eq_true_eq] at hw
        have ha : bs[a]? = some bs[a] := List.getElem?_eq_getElem hw.1
        obtain ⟨x, hx⟩ := hf _ (List.getElem?_mem ha)
        simp only [Step.run, bind, pure, ha, Option.bind] at hstep
        cases hy : ResidualSumOfSquares2D.call sqrt erf bs[a] r with
        | none => rw [hy] at hstep; exact absurd hstep (by simp)
        | some y =>
          rw [hy] at hstep
          simp only [Option.some.injEq] at hstep
          subst hstep
          obtain ⟨r', hr', c, hc, hnone⟩ := hbad
          simp only [Schedule.ranges, List.mem_cons] at hr'
          rcases hr' with h | h
          · subst h
            rw [hx, call_fail sqrt erf { R with my_rss := x } r' c hc hnone] at hy
            exact absurd hy (by simp)
          · exact ih _ hf' (by simpa using hw.2) ⟨r', h, c, hc, hnone⟩
      | join b0 a =>
        simp only [Schedule.wellFormed, Bool.and_eq_true, decide_eq_true_eq, decide_not,
          Bool.not_eq_true', decide_eq_false_iff_not] at hw
        obtain ⟨⟨⟨⟨hb0, ha⟩, hne⟩, hne0⟩, hrest⟩ := hw
        have hb0' : bs[b0]? = some bs[b0] := List.getElem?_eq_getElem hb0
        have ha' : bs[a]? = some bs[a] := List.getElem?_eq_getElem ha
        simp only [Step.run, bind, pure, ha', hb0', Option.bind, Option.some.injEq] at hstep
        subst hstep
        have hlen : ((bs.set b0 (bs[b0].join bs[a])).eraseIdx a).length = bs.length - 1 := by
          rw [List.length_eraseIdx, List.length_set]
          simp [ha]
        exact ih _ hf' (by rw [hlen]; exact hrest) (by simpa [Schedule.ranges] using hbad)

/-- Sums over ranges that partition a set of cells add up to the sum over the set. -/
theorem sum_partition (g : Int × Int → K) :
    ∀ (L : List blocked_range2d) (S : Finset (Int × Int)),
      (∀ c : Int × Int, L.countP (fun r => r.contains c.2 c.1) = if c ∈ S then 1 else 0) →
      (L.map (fun r => ∑ c ∈ r.cells, g c)).sum = ∑ c ∈ S, g c := by
  intro L
  induction L with
  | nil =>
    intro S h
    have hS : S = ∅ := by
      apply Finset.eq_empty_of_forall_not_mem
      intro c hc
      have := h c
      simp [hc] at this
    simp [hS]
  | cons r L ih =>
    intro S h
    have hsub : r.cells ⊆ S := by
      intro c hc
      have hcount := h c
      rw [List.countP_cons, (mem_cells r c).1 hc] at hcount
      by_contra hn
      simp [hn] at hcount
    have hrest : ∀ c : Int × Int,
        L.countP (fun r => r.contains c.2 c.1) = if c ∈ S \ r.cells then 1 else 0 := by
      intro c
      have hcount := h c
      rw [List.countP_cons] at hcount
      by_cases hc : c ∈ r.cells
      · have hcS : c ∈ S := hsub hc
        rw [(mem_cells r c).1 hc] at hcount
        simp only [hcS, if_true] at hcount
        simp only [Finset.mem_sdiff, hc, not_true_eq_false, and_false, if_false]
        omega
      · have hcf : r.contains c.2 c.1 = false := by
          cases hb : r.contains c.2 c.1 with
          | false => rfl
          | true => exact absurd ((mem_cells r c).2 hb) hc
        rw [hcf] at hcount
        simp only [Finset.mem_sdiff, hc, not_false_eq_true, and_true]
        simpa using hcount
    rw [List.map_cons, List.sum_cons, ih (S \ r.cells) hrest, add_comm]
    exact Finset.sum_sdiff hsub

end tbb

/-- C12: the TBB residual reduction is partition-invariant.  A schedule is any sequence
of actions of `parallel_reduce` on its bodies, starting with the body `R` of
`check_solution` alone: a new body is made from any body alive, in the state it has then,
by the splitting constructor; `operator()` of any body is applied to a sub-range, once or
several times; `b.join(a)` merges any two bodies and destroys `a`; at the end only `R` is
left.  For every such schedule whose sub-ranges are non-empty, pairwise disjoint and cover
the interior blocked range, the final `R.my_rss` is the value `check_solution` stores,
which on a non-empty range is the `my_rss` of `R` after `operator()` once on the whole
range; a run that reads outside the array or divides by zero has no result on either
side.  The splitting constructor copies every field but `my_rss`, which it sets to 0,
whatever the body it splits has accumulated. -/
theorem reduction_partition_invariant {F : Type} [LinearOrderedField F] (sqrt erf : F → F)
    (A : Grid F) (nx ny : Int) (dx dy : F) (nm : Int) (elapsed D : F)
    (bc : Fin 2 → Fin 2 → F) (s : List tbb.Step)
    (hw : tbb.Schedule.wellFormed s 1 = true)
    (hP : tbb.Partitions (tbb.Schedule.ranges s)
      (tbb.blocked_range2d.ctor (cdiv nm 2) (ny - cdiv nm 2) tbb.tbb_bs
        (cdiv nm 2) (nx - cdiv nm 2) tbb.tbb_bs)) :
    (tbb.Schedule.run sqrt erf s
        [tbb.ResidualSumOfSquares2D.ctor A nx ny dx dy nm elapsed D (bc 1 0)]).map
        (fun bs => bs.map (fun b => b.my_rss))
      = (tbb.check_solution sqrt erf A nx ny dx dy nm elapsed D bc).map (fun v => [v]) ∧
    ((tbb.blocked_range2d.ctor (cdiv nm 2) (ny - cdiv nm 2) tbb.tbb_bs
        (cdiv nm 2) (nx - cdiv nm 2) tbb.tbb_bs).empty = false →
      (tbb.Schedule.run sqrt erf s
          [tbb.ResidualSumOfSquares2D.ctor A nx ny dx dy nm elapsed D (bc 1 0)]).map
          (fun bs => bs.map (fun b => b.my_rss))
        = ((tbb.ResidualSumOfSquares2D.ctor A nx ny dx dy nm elapsed D (bc 1 0)).call sqrt erf
            (tbb.blocked_range2d.ctor (cdiv nm 2) (ny - cdiv nm 2) tbb.tbb_bs
              (cdiv nm 2) (nx - cdiv nm 2) tbb.tbb_bs)).map (fun b => [b.my_rss])) ∧
    (∀ a : tbb.ResidualSumOfSquares2D F, a.split = { a with my_rss := 0 }) := by
  generalize hW : tbb.blocked_range2d.ctor (cdiv nm 2) (ny - cdiv nm 2) tbb.tbb_bs
    (cdiv nm 2) (nx - cdiv nm 2) tbb.tbb_bs = W at hP ⊢
  generalize hR : tbb.ResidualSumOfSquares2D.ctor A nx ny dx dy nm elapsed D (bc 1 0) = R
  have hrss : R.my_rss = 0 := by rw [← hR]; rfl
  have hf : ∀ b ∈ [R], ∃ x, b = { R with my_rss := x } := by
    intro b hb
    rw [List.mem_singleton] at hb
    exact ⟨R.my_rss, by rw [hb]⟩
  have hcount : ∀ c : Int × Int,
      (tbb.Schedule.ranges s).countP (fun r => r.contains c.2 c.1)
        = if c ∈ W.cells then 1 else 0 := by
    intro c
    rw [hP.2 c.2 c.1]
    by_cases hc : c ∈ W.cells
    · rw [if_pos hc, if_pos ((tbb.mem_cells W c).1 hc)]
    · rw [if_neg hc, if_neg (fun h => hc ((tbb.mem_cells W c).2 h))]
  have hcells_empty : W.empty = true → W.cells = ∅ := by
    intro he
    simp only [tbb.blocked_range2d.empty, tbb.blocked_range.empty, Bool.or_eq_true,
      Bool.not_eq_true', decide_eq_false_iff_not, not_lt] at he
    unfold tbb.blocked_range2d.cells
    rcases he with h | h
    · rw [Finset.Ico_eq_empty (by omega : ¬ W.rows.my_begin < W.rows.my_end)]
      exact Finset.product_empty _
    · rw [Finset.Ico_eq_empty (by omega : ¬ W.cols.my_begin < W.cols.my_end)]
      exact Finset.empty_product _
  have hcheck : (tbb.check_solution sqrt erf A nx ny dx dy nm elapsed D bc).map (fun v => [v])
      = (if W.empty then some R else R.call sqrt erf W).map (fun b => [b.my_rss]) := by
    unfold tbb.check_solution tbb.parallel_reduce
    simp only [hW, hR, bind, pure]
    cases (if W.empty = true then some R else R.call sqrt erf W) <;> rfl
  have main : (tbb.Schedule.run sqrt erf s [R]).map (fun bs => bs.map (fun b => b.my_rss))
      = (if W.empty then some R else R.call sqrt erf W).map (fun b => [b.my_rss]) := by
    by_cases hall : ∀ c ∈ W.cells, (R.term sqrt erf c.1 c.2).isSome
    · have hranges : ∀ r ∈ tbb.Schedule.ranges s, ∀ c ∈ r.cells,
          (R.term sqrt erf c.1 c.2).isSome := by
        intro r hr c hc
        apply hall
        by_contra hn
        have h0 := hcount c
        rw [if_neg hn] at h0
        have hpos : 0 < (tbb.Schedule.ranges s).countP (fun r => r.contains c.2 c.1) :=
          List.countP_pos_iff.2 ⟨r, hr, (tbb.mem_cells r c).1 hc⟩
        omega
      rw [tbb.run_ok sqrt erf R s [R] hf hw hranges,
        tbb.sum_partition (fun c => (R.term sqrt erf c.1 c.2).getD 0) _ W.cells hcount]
      by_cases he : W.empty = true
      · rw [if_pos he, hcells_empty he]
        simp [hrss]
      · rw [if_neg he, tbb.call_ok sqrt erf R W hall]
        simp [hrss]
    · push_neg at hall
      obtain ⟨c, hc, hnone⟩ := hall
      have hnone' : R.term sqrt erf c.1 c.2 = none := by
        cases hterm : R.term sqrt erf c.1 c.2 with
        | none => rfl
        | some v => rw [hterm] at hnone; exact absurd rfl hnone
      have he : ¬ W.empty = true := by
        intro he
        rw [hcells_empty he] at hc
        exact absurd hc (Finset.not_mem_empty c)
      have h1 := hcount c
      rw [if_pos hc] at h1
      obtain ⟨r, hr, hrc⟩ := List.countP_pos_iff.1 (by omega :
        0 < (tbb.Schedule.ranges s).countP (fun r => r.contains c.2 c.1))
      rw [tbb.run_fail sqrt erf R s [R] hf hw ⟨r, hr, c, (tbb.mem_cells r c).2 hrc, hnone'⟩,
        if_neg he, tbb.call_fail sqrt erf R W c hc hnone']
      rfl
  refine ⟨main.trans hcheck.symm, ?_, fun a => rfl⟩
  intro hne
  rw [main, hne]
  rfl

/-- Witness for C12: `nx = ny = 4`, `nm = 3`; the interior range `[1,3) x [1,3)` is cut
into the sub-ranges with rows `[1,2)` and `[2,3)`.  The body `R` runs on the first, a
second body is then split from `R`, which has accumulated, and runs on the second, and
`R` joins it. -/
theorem reduction_partition_invariant_witness :
    (tbb.Schedule.run (fun x => x) (fun x => x)
        [tbb.Step.call 0 ⟨⟨1, 2⟩, ⟨1, 3⟩⟩, tbb.Step.split 0, tbb.Step.call 1 ⟨⟨2, 3⟩, ⟨1, 3⟩⟩,
          tbb.Step.join 0 1]
        [tbb.ResidualSumOfSquares2D.ctor (Grid.const 4 4 (1 : ℚ)) 4 4 1 1 3 1 1
          ((![![0, 0], ![1, 0]] : Fin 2 → Fin 2 → ℚ) 1 0)]).map
        (fun bs => bs.map (fun b => b.my_rss))
      = (tbb.check_solution (fun x => x) (fun x => x) (Grid.const 4 4 (1 : ℚ)) 4 4 1 1 3 1 1
          ![![0, 0], ![1, 0]]).map (fun v => [v]) :=
  (reduction_partition_invariant (fun x => x) (fun x => x) (Grid.const 4 4 (1 : ℚ)) 4 4 1 1 3
    1 1 ![![0, 0], ![1, 0]] _ (by decide) (by
      have h1 : cdiv 3 2 = 1 := by decide
      refine ⟨by decide, ?_⟩
      intro row col
      simp only [tbb.Schedule.ranges, List.countP_cons, List.countP_nil,
        tbb.blocked_range2d.contains, tbb.blocked_range2d.ctor, h1, decide_eq_true_eq]
      split_ifs <;> omega)).1


/-! ## The polynomial substitute for `erf` -/

/-- C17: the `erf` substitute of the OpenACC `check_solution` is the degree-9 Maclaurin
truncation with saturation.  For every `z < 1.5`,
`poly_erf(z) = (2/sqrt(pi)) * Σ_{n=0..4} (-1)^n z^(2n+1) / (n! (2n+1))
= 2z(1 + z²(-1/3 + z²(1/10 + z²(-1/42 + z²/216))))/sqrt(pi)`, and for every `z ≥ 1.5`,
`poly_erf(z) = 1` (in every ordered field, in particular over the reals with the real
square root and `pi`). -/
theorem poly_erf_maclaurin {F : Type} [LinearOrderedField F] (sqrt : F → F) (pi z : F) :
    (z < 3 / 2 →
      openacc.poly_erf sqrt pi z = (2 / sqrt pi) *
          ∑ n ∈ Finset.range 5, (-1) ^ n * z ^ (2 * n + 1) / ((n.factorial : F) * (2 * n + 1)) ∧
      openacc.poly_erf sqrt pi z = 2 * z * (1 + z ^ 2 * (-1 / 3 + z ^ 2 * (1 / 10
          + z ^ 2 * (-1 / 42 + z ^ 2 / 216)))) / sqrt pi) ∧
    (3 / 2 ≤ z → openacc.poly_erf sqrt pi z = 1) := by
  refine ⟨fun hz => ⟨?_, ?_⟩, fun hz => ?_⟩
  · simp only [openacc.poly_erf, if_pos hz, Finset.sum_range_succ, Finset.sum_range_zero,
      Nat.factorial]
    push_cast
    ring
  · simp only [openacc.poly_erf, if_pos hz]
    ring
  · simp only [openacc.poly_erf, if_neg (not_lt.2 hz)]

/-- Witness for C17: over the reals, with the real square root and `pi`, at `z = 1` and
at `z = 2`. -/
theorem poly_erf_maclaurin_witness :
    openacc.poly_erf Real.sqrt Real.pi 1 = 2 * 1 * (1 + (1 : ℝ) ^ 2 * (-1 / 3 + (1 : ℝ) ^ 2 *
        (1 / 10 + (1 : ℝ) ^ 2 * (-1 / 42 + (1 : ℝ) ^ 2 / 216)))) / Real.sqrt Real.pi ∧
    openacc.poly_erf Real.sqrt Real.pi 2 = 1 :=
  ⟨((poly_erf_maclaurin Real.sqrt Real.pi 1).1 (by norm_num)).2,
    (poly_erf_maclaurin Real.sqrt Real.pi 2).2 (by norm_num)⟩

/-- The derivative of the numerator polynomial of `poly_erf`. -/
theorem poly_numerator_hasDerivAt (x : ℝ) :
    HasDerivAt (fun z : ℝ => 2 * z * (1 + z * z * (-1 / 3 + z * z * (1 / 10
        + z * z * (-1 / 42 + z * z / 216)))))
      (2 - 2 * x ^ 2 + x ^ 4 - x ^ 6 / 3 + x ^ 8 / 12) x := by
  have h : (fun z : ℝ => 2 * z * (1 + z * z * (-1 / 3 + z * z * (1 / 10
      + z * z * (-1 / 42 + z * z / 216)))))
      = fun z : ℝ => 2 * z - 2 / 3 * z ^ 3 + 1 / 5 * z ^ 5 - 1 / 21 * z ^ 7
        + 1 / 108 * z ^ 9 := by
    funext z; ring
  rw [h]
  have := ((((hasDerivAt_id x).const_mul 2).sub ((hasDerivAt_pow 3 x).const_mul (2 / 3))).add
    ((hasDerivAt_pow 5 x).const_mul (1 / 5))).sub ((hasDerivAt_pow 7 x).const_mul (1 / 21)) |>.add
    ((hasDerivAt_pow 9 x).const_mul (1 / 108))
  convert this using 1
  · norm_num; ring

/-- The numerator polynomial of `poly_erf` is increasing: its derivative is a sum of
squares. -/
theorem poly_numerator_monotone :
    Monotone (fun z : ℝ => 2 * z * (1 + z * z * (-1 / 3 + z * z * (1 / 10
        + z * z * (-1 / 42 + z * z / 216))))) := by
  apply monotone_of_deriv_nonneg
  · intro x; exact (poly_numerator_hasDerivAt x).differentiableAt
  · intro x
    rw [(poly_numerator_hasDerivAt x).deriv]
    nlinarith [sq_nonneg (x ^ 4 - 2 * x ^ 2 + 2), sq_nonneg (x ^ 2 - 2), sq_nonneg (x ^ 2),
      sq_nonneg x]

theorem sqrt_pi_pos : 0 < Real.sqrt Real.pi := Real.sqrt_pos.2 Real.pi_pos

/-- C20, counterexample: at `z = 1.49 < 1.5` the polynomial branch is taken and its
value exceeds 1, so the analytical contribution `bc[1][0] * (1 - poly_erf(z))` with
`bc[1][0] = 1` is negative. -/
theorem poly_erf_exceeds_one :
    (0 : ℝ) ≤ 149 / 100 ∧ 1 < openacc.poly_erf Real.sqrt Real.pi (149 / 100) ∧
      (1 : ℝ) * (1 - openacc.poly_erf Real.sqrt Real.pi (149 / 100)) < 0 := by
  have hval : 1 < openacc.poly_erf Real.sqrt Real.pi (149 / 100) := by
    simp only [openacc.poly_erf, if_pos (by norm_num : (149 / 100 : ℝ) < 3 / 2)]
    rw [lt_div_iff₀ sqrt_pi_pos, one_mul, Real.sqrt_lt' (by norm_num)]
    have := Real.pi_lt_d2
    norm_num
    linarith
  exact ⟨by norm_num, hval, by linarith⟩

/-- C20, amended: for every real `z ≥ 0` the value `poly_erf(z)` of the OpenACC
`check_solution` satisfies `0 ≤ poly_erf(z) ≤ 1.03`, and `poly_erf(z) ≤ 1` whenever
`z ≤ 1.45` or `z ≥ 1.5`; so for `bc[1][0] ≥ 0` each analytical contribution
`bc[1][0] * (1 - poly_erf(z))` lies between `-0.03 * bc[1][0]` and `bc[1][0]`, and between
0 and `bc[1][0]` whenever `z ≤ 1.45` or `z ≥ 1.5`. -/
theorem poly_erf_range (z bc10 : ℝ) (hz : 0 ≤ z) (hbc : 0 ≤ bc10) :
    0 ≤ openacc.poly_erf Real.sqrt Real.pi z ∧
    openacc.poly_erf Real.sqrt Real.pi z ≤ 103 / 100 ∧
    ((z ≤ 29 / 20 ∨ 3 / 2 ≤ z) → openacc.poly_erf Real.sqrt Real.pi z ≤ 1) ∧
    -(3 / 100) * bc10 ≤ bc10 * (1 - openacc.poly_erf Real.sqrt Real.pi z) ∧
    bc10 * (1 - openacc.poly_erf Real.sqrt Real.pi z) ≤ bc10 ∧
    ((z ≤ 29 / 20 ∨ 3 / 2 ≤ z) → 0 ≤ bc10 * (1 - openacc.poly_erf Real.sqrt Real.pi z)) := by
  have hpi := Real.pi_gt_d2
  have hs := sqrt_pi_pos
  have hmono := poly_numerator_monotone
  have hnonneg : 0 ≤ openacc.poly_erf Real.sqrt Real.pi z := by
    unfold openacc.poly_erf
    simp only []
    split_ifs with h
    · apply div_nonneg _ (le_of_lt hs)
      have := hmono hz
      simpa using this
    · norm_num
  have hupper : openacc.poly_erf Real.sqrt Real.pi z ≤ 103 / 100 := by
    unfold openacc.poly_erf
    simp only []
    split_ifs with h
    · rw [div_le_iff₀ hs]
      have h1 := hmono (le_of_lt h)
      simp only [] at h1
      have h2 : (177 : ℝ) / 100 ≤ Real.sqrt Real.pi := by
        rw [Real.le_sqrt (by norm_num) (le_of_lt Real.pi_pos)]
        norm_num
        linarith
      refine le_trans h1 ?_
      norm_num
      linarith
    · norm_num
  have hone : (z ≤ 29 / 20 ∨ 3 / 2 ≤ z) → openacc.poly_erf Real.sqrt Real.pi z ≤ 1 := by
    intro hcase
    unfold openacc.poly_erf
    simp only []
    split_ifs with h
    · rcases hcase with h29 | h32
      · rw [div_le_iff₀ hs, one_mul]
        have h1 := hmono h29
        simp only [] at h1
        have h2 : (17702 : ℝ) / 10000 ≤ Real.sqrt Real.pi := by
          rw [Real.le_sqrt (by norm_num) (le_of_lt Real.pi_pos)]
          norm_num
          linarith
        refine le_trans h1 ?_
        norm_num
        linarith
      · exact absurd h (not_lt.2 h32)
    · exact le_refl 1
  refine ⟨hnonneg, hupper, hone, ?_, ?_, ?_⟩
  · nlinarith
  · nlinarith
  · intro hcase
    have := hone hcase
    exact mul_nonneg hbc (by linarith)

/-- Witness for the amended C20: `z = 1`, `bc[1][0] = 1`. -/
theorem poly_erf_range_witness :
    0 ≤ openacc.poly_erf Real.sqrt Real.pi 1 ∧ openacc.poly_erf Real.sqrt Real.pi 1 ≤ 1 := by
  obtain ⟨h0, _, h1, _⟩ := poly_erf_range 1 1 (by norm_num) (by norm_num)
  exact ⟨h0, h1 (Or.inl (by norm_num))⟩


/-! ## The five-point mask as a central-difference Laplacian -/

/-- The nine entries of the mask `set_mask` builds on a zero-initialised 3-by-3 array. -/
theorem five_point_zero_vals (dx dy : K) :
    ∃ M, openmp.five_point_Laplacian_stencil dx dy (Grid.const 3 3 0) = some M ∧
      M.HasShape 3 3 ∧
      M.val 0 0 = 0 ∧ M.val 0 1 = 1 / (dy * dy) ∧ M.val 0 2 = 0 ∧
      M.val 1 0 = 1 / (dx * dx) ∧
      M.val 1 1 = -2 * (dx * dx + dy * dy) / (dx * dx * dy * dy) ∧
      M.val 1 2 = 1 / (dx * dx) ∧
      M.val 2 0 = 0 ∧ M.val 2 1 = 1 / (dy * dy) ∧ M.val 2 2 = 0 := by
  obtain ⟨M, h, hs, e01, e10, e11, e12, e21, hf⟩ :=
    five_point_spec dx dy (Grid.const_hasShape 3 3 (0 : K)) (le_refl 3) (le_refl 3)
  have z : ∀ j i : Int, 0 ≤ j → j < 3 → 0 ≤ i → i < 3 →
      (Grid.const 3 3 (0 : K)).rd j i = some 0 := by
    intro j i h1 h2 h3 h4
    rw [Grid.rd_eq_some_val (Grid.const_hasShape 3 3 (0 : K)) h1 (by exact_mod_cast h2) h3
      (by exact_mod_cast h4), Grid.const_val 0 h1 (by exact_mod_cast h2) h3
      (by exact_mod_cast h4)]
  refine ⟨M, h, hs, ?_, ?_, ?_, ?_, ?_, ?_, ?_, ?_, ?_⟩
  · simp [Grid.val, hf 0 0 (by omega) (by omega) (by omega) (by omega) (by omega),
      z 0 0 (by omega) (by omega) (by omega) (by omega)]
  · simp [Grid.val, e01]
  · simp [Grid.val, hf 0 2 (by omega) (by omega) (by omega) (by omega) (by omega),
      z 0 2 (by omega) (by omega) (by omega) (by omega)]
  · simp [Grid.val, e10]
  · simp [Grid.val, e11]
  · simp [Grid.val, e12]
  · simp [Grid.val, hf 2 0 (by omega) (by omega) (by omega) (by omega) (by omega),
      z 2 0 (by omega) (by omega) (by omega) (by omega)]
  · simp [Grid.val, e21]
  · simp [Grid.val, hf 2 2 (by omega) (by omega) (by omega) (by omega) (by omega),
      z 2 2 (by omega) (by omega) (by omega) (by omega)]

/-- C18, counterexample: with `nm = 5` (`dx = dy = 1`) `set_mask` writes the five weights
into the upper-left 3-by-3 block of the zero 5-by-5 mask.  On the 5-by-5 field that is 1
at its interior cell `(2, 2)` and 0 elsewhere, `compute_convolution` stores 0 in
`C[2][2]`, where the central-difference Laplacian is
`(0 - 2 + 0)/1 + (0 - 2 + 0)/1 = -4`. -/
theorem set_mask_five_not_centred :
    openmp.set_mask (1 : ℚ) 1 5 (Grid.const 5 5 0)
      = some [[0, 1, 0, 0, 0], [1, -4, 1, 0, 0], [0, 1, 0, 0, 0], [0, 0, 0, 0, 0],
          [0, 0, 0, 0, 0]] ∧
    (openmp.compute_convolution
        ([[0, 0, 0, 0, 0], [0, 0, 0, 0, 0], [0, 0, 1, 0, 0], [0, 0, 0, 0, 0], [0, 0, 0, 0, 0]]
          : Grid ℚ) (Grid.const 5 5 7)
        [[0, 1, 0, 0, 0], [1, -4, 1, 0, 0], [0, 1, 0, 0, 0], [0, 0, 0, 0, 0], [0, 0, 0, 0, 0]]
        5 5 5).bind (fun s => s.C.rd 2 2) = some 0 ∧
    ((0 : ℚ) - 2 * 1 + 0) / 1 ^ 2 + ((0 : ℚ) - 2 * 1 + 0) / 1 ^ 2 = -4 := by
  refine ⟨?_, ?_, ?_⟩
  · decide!
  · decide!
  · norm_num

/-- C18, amended: for the kernel size `nm = 3` and `dx, dy ≠ 0`, building the mask with
`set_mask(dx, dy, 3, M)` on a zero-initialised 3-by-3 array and applying
`compute_convolution` yields at every interior cell the second-order central-difference
Laplacian `C[j][i] = (A[j][i-1] - 2 A[j][i] + A[j][i+1])/dx² +
(A[j-1][i] - 2 A[j][i] + A[j+1][i])/dy²`. -/
theorem set_mask_convolution_laplacian (dx dy : K) (hdx : dx ≠ 0) (hdy : dy ≠ 0)
    (nx ny : Nat) (A C : Grid K) (hA : A.HasShape ny nx) (hC : C.HasShape ny nx) :
    ∃ M s, openmp.set_mask dx dy 3 (Grid.const 3 3 0) = some M ∧
      openmp.compute_convolution A C M nx ny 3 = some s ∧
      ∀ j i : Int, 1 ≤ j → j < (ny : Int) - 1 → 1 ≤ i → i < (nx : Int) - 1 →
        s.C.rd j i = some ((A.val j (i - 1) - 2 * A.val j i + A.val j (i + 1)) / dx ^ 2
          + (A.val (j - 1) i - 2 * A.val j i + A.val (j + 1) i) / dy ^ 2) := by
  obtain ⟨M, h, hs, v00, v01, v02, v10, v11, v12, v20, v21, v22⟩ := five_point_zero_vals dx dy
  obtain ⟨s, hconv, _, hint, _⟩ := compute_convolution_spec nx ny 3 1 rfl A C M hA hC hs
  refine ⟨M, s, h, hconv, ?_⟩
  intro j i h1 h2 h3 h4
  rw [hint j i (by simpa using h1) (by simpa using h2) (by simpa using h3) (by simpa using h4),
    stencilSum_one, v00, v01, v02, v10, v11, v12, v20, v21, v22]
  congr 1
  have hx2 : dx * dx ≠ 0 := mul_ne_zero hdx hdx
  have hy2 : dy * dy ≠ 0 := mul_ne_zero hdy hdy
  have hkey : -2 * (dx * dx + dy * dy) / (dx * dx * dy * dy)
      = -2 / (dx * dx) - 2 / (dy * dy) := by
    rw [div_sub_div _ _ hx2 hy2, mul_assoc dx dx (dy * dy), ← mul_assoc dx dx (dy * dy)]
    congr 1
    · ring
    · ring
  rw [hkey, pow_two, pow_two]
  ring

/-- Witness for the amended C18: `dx = 1`, `dy = 2` and 3-by-3 arrays over the rationals. -/
theorem set_mask_convolution_laplacian_witness :
    ∃ M s, openmp.set_mask (1 : ℚ) 2 3 (Grid.const 3 3 0) = some M ∧
      openmp.compute_convolution ([[1, 2, 3], [4, 5, 7], [7, 8, 9]] : Grid ℚ)
        (Grid.const 3 3 0) M (3 : Nat) (3 : Nat) 3 = some s ∧
      ∀ j i : Int, 1 ≤ j → j < ((3 : Nat) : Int) - 1 → 1 ≤ i → i < ((3 : Nat) : Int) - 1 →
        s.C.rd j i = some
          ((Grid.val ([[1, 2, 3], [4, 5, 7], [7, 8, 9]] : Grid ℚ) j (i - 1)
              - 2 * Grid.val ([[1, 2, 3], [4, 5, 7], [7, 8, 9]] : Grid ℚ) j i
              + Grid.val ([[1, 2, 3], [4, 5, 7], [7, 8, 9]] : Grid ℚ) j (i + 1)) / (1 : ℚ) ^ 2
          + (Grid.val ([[1, 2, 3], [4, 5, 7], [7, 8, 9]] : Grid ℚ) (j - 1) i
              - 2 * Grid.val ([[1, 2, 3], [4, 5, 7], [7, 8, 9]] : Grid ℚ) j i
              + Grid.val ([[1, 2, 3], [4, 5, 7], [7, 8, 9]] : Grid ℚ) (j + 1) i) / (2 : ℚ) ^ 2) :=
  set_mask_convolution_laplacian 1 2 (by norm_num) (by norm_num) 3 3 _ _ (by decide)
    (by decide)


/-! ## The distances of `check_solution` -/

/-- Distance from a point to a vertical segment: when `ystar` is the point of `[y1, y2]`
nearest to `py`, the least distance is `sqrt((px - x0)² + (py - ystar)²)`. -/
theorem vertical_segment_distance (x0 y1 y2 px py ystar : ℝ) (h1 : y1 ≤ ystar)
    (h2 : ystar ≤ y2)
    (hmin : ∀ y, y1 ≤ y → y ≤ y2 → (py - ystar) ^ 2 ≤ (py - y) ^ 2) :
    IsSegmentDistance Real.sqrt x0 y1 x0 y2 px py
      (Real.sqrt ((px - x0) ^ 2 + (py - ystar) ^ 2)) := by
  refine ⟨?_, ?_⟩
  · rcases eq_or_lt_of_le (le_trans h1 h2) with h12 | h12
    · refine ⟨0, le_refl 0, zero_le_one, ?_⟩
      have : ystar = y1 := le_antisymm (h12 ▸ h2) h1
      rw [this]
      congr 1
      ring
    · have hpos : 0 < y2 - y1 := by linarith
      refine ⟨(ystar - y1) / (y2 - y1), div_nonneg (by linarith) (le_of_lt hpos),
        (div_le_one hpos).2 (by linarith), ?_⟩
      have hy : y1 + (ystar - y1) / (y2 - y1) * (y2 - y1) = ystar := by
        rw [div_mul_cancel₀ _ (ne_of_gt hpos)]
        ring
      rw [hy]
      congr 1
      ring
  · intro t ht0 ht1
    apply Real.sqrt_le_sqrt
    have hy1 : y1 ≤ y1 + t * (y2 - y1) := by nlinarith
    have hy2 : y1 + t * (y2 - y1) ≤ y2 := by nlinarith
    have := hmin _ hy1 hy2
    have hx : (px - (x0 + t * (x0 - x0))) ^ 2 = (px - x0) ^ 2 := by ring
    rw [hx]
    linarith

/-- The least distance from a point to a segment is unique. -/
theorem IsSegmentDistance.unique {ax ay bx by_ px py d d' : ℝ}
    (h : IsSegmentDistance Real.sqrt ax ay bx by_ px py d)
    (h' : IsSegmentDistance Real.sqrt ax ay bx by_ px py d') : d = d' := by
  obtain ⟨⟨t, ht0, ht1, hd⟩, hle⟩ := h
  obtain ⟨⟨t', ht0', ht1', hd'⟩, hle'⟩ := h'
  apply le_antisymm
  · rw [hd']; exact hle t' ht0' ht1'
  · rw [hd]; exact hle' t ht0 ht1

theorem cdiv_two_nat (n : Nat) : cdiv (n : Int) 2 = (n : Int) / 2 := by
  unfold cdiv
  exact Int.tdiv_eq_ediv (by omega) (by omega)

/-- The left-wall distance of the OpenMP `check_solution` is the least distance to the
left-wall segment. -/
theorem left_distance_isSegmentDistance (ny nm r : Nat) (hnm : nm = 2 * r + 1)
    (dx dy : ℝ) (hdx : 0 < dx) (hdy : 0 < dy) (j i : Int)
    (hj : (r : Int) ≤ j) (hj' : j < (ny : Int) - r) (hi : (r : Int) ≤ i) :
    IsSegmentDistance Real.sqrt (dx * ((cdiv nm 2 : Int) : ℝ)) (dy * ((cdiv nm 2 : Int) : ℝ))
      (dx * ((cdiv nm 2 : Int) : ℝ)) (dy * ((cdiv ny 2 : Int) : ℝ))
      (dx * ((i : Int) : ℝ)) (dy * ((j : Int) : ℝ))
      (openmp.left_distance Real.sqrt ny dx dy nm j i) := by
  subst hnm
  have hh : (r : Int) ≤ (ny : Int) / 2 := by omega
  unfold openmp.left_distance
  rw [cdiv_two_natCast, cdiv_two_nat]
  have hrj : ((r : Int) : ℝ) ≤ (j : ℝ) := by exact_mod_cast hj
  have hri : ((r : Int) : ℝ) ≤ (i : ℝ) := by exact_mod_cast hi
  have hrh : ((r : Int) : ℝ) ≤ (((ny : Int) / 2 : Int) : ℝ) := by exact_mod_cast hh
  split_ifs with hlt
  · have hjh : (j : ℝ) ≤ (((ny : Int) / 2 : Int) : ℝ) := by exact_mod_cast le_of_lt hlt
    have key := vertical_segment_distance (dx * ((r : Int) : ℝ)) (dy * ((r : Int) : ℝ))
      (dy * (((ny : Int) / 2 : Int) : ℝ)) (dx * (i : ℝ)) (dy * (j : ℝ)) (dy * (j : ℝ))
      (by nlinarith) (by nlinarith) (fun y _ _ => by nlinarith [sq_nonneg (dy * (j : ℝ) - y)])
    have hd : Real.sqrt ((dx * (i : ℝ) - dx * ((r : Int) : ℝ)) ^ 2
        + (dy * (j : ℝ) - dy * (j : ℝ)) ^ 2) = dx * ((i - (r : Int) : Int) : ℝ) := by
      have h0 : 0 ≤ dx * ((i : ℝ) - ((r : Int) : ℝ)) := mul_nonneg (le_of_lt hdx) (by linarith)
      rw [show (dx * (i : ℝ) - dx * ((r : Int) : ℝ)) ^ 2 + (dy * (j : ℝ) - dy * (j : ℝ)) ^ 2
        = (dx * ((i : ℝ) - ((r : Int) : ℝ))) ^ 2 by ring, Real.sqrt_sq h0]
      push_cast
      ring
    rw [hd] at key
    exact key
  · have hjh : (((ny : Int) / 2 : Int) : ℝ) ≤ (j : ℝ) := by exact_mod_cast not_lt.1 hlt
    have key := vertical_segment_distance (dx * ((r : Int) : ℝ)) (dy * ((r : Int) : ℝ))
      (dy * (((ny : Int) / 2 : Int) : ℝ)) (dx * (i : ℝ)) (dy * (j : ℝ))
      (dy * (((ny : Int) / 2 : Int) : ℝ))
      (by nlinarith) (le_refl _) (fun y _ hy2 => by
        have ha : 0 ≤ dy * (j : ℝ) - dy * (((ny : Int) / 2 : Int) : ℝ) := by nlinarith
        have hb : dy * (j : ℝ) - dy * (((ny : Int) / 2 : Int) : ℝ) ≤ dy * (j : ℝ) - y := by
          linarith
        nlinarith)
    have hd : (dx * (i : ℝ) - dx * ((r : Int) : ℝ)) ^ 2
        + (dy * (j : ℝ) - dy * (((ny : Int) / 2 : Int) : ℝ)) ^ 2
        = dx * dx * ((i - (r : Int) : Int) : ℝ) * ((i - (r : Int) : Int) : ℝ)
          + dy * dy * ((j - (ny : Int) / 2 : Int) : ℝ) * ((j - (ny : Int) / 2 : Int) : ℝ) := by
      push_cast
      ring
    rw [hd] at key
    exact key

/-- The right-wall distance of the OpenMP `check_solution` is the least distance to the
right-wall segment. -/
theorem right_distance_isSegmentDistance (nx ny nm r : Nat) (hnm : nm = 2 * r + 1)
    (dx dy : ℝ) (hdx : 0 < dx) (hdy : 0 < dy) (j i : Int)
    (hj : (r : Int) ≤ j) (hj' : j < (ny : Int) - r) (hi' : i < (nx : Int) - r) :
    IsSegmentDistance Real.sqrt (dx * (((nx : Int) - 1 - cdiv nm 2 : Int) : ℝ))
      (dy * ((cdiv ny 2 : Int) : ℝ)) (dx * (((nx : Int) - 1 - cdiv nm 2 : Int) : ℝ))
      (dy * (((ny : Int) - 1 - cdiv nm 2 : Int) : ℝ))
      (dx * ((i : Int) : ℝ)) (dy * ((j : Int) : ℝ))
      (openmp.right_distance Real.sqrt nx ny dx dy nm j i) := by
  subst hnm
  have hh : (ny : Int) / 2 ≤ (ny : Int) - 1 - r := by omega
  unfold openmp.right_distance
  rw [cdiv_two_natCast, cdiv_two_nat]
  have hjr : (j : ℝ) ≤ (((ny : Int) - 1 - (r : Int) : Int) : ℝ) := by
    exact_mod_cast (by omega : j ≤ (ny : Int) - 1 - r)
  have hir : (i : ℝ) ≤ (((nx : Int) - 1 - (r : Int) : Int) : ℝ) := by
    exact_mod_cast (by omega : i ≤ (nx : Int) - 1 - r)
  have hhr : (((ny : Int) / 2 : Int) : ℝ) ≤ (((ny : Int) - 1 - (r : Int) : Int) : ℝ) := by
    exact_mod_cast hh
  split_ifs with hge
  · have hjh : (((ny : Int) / 2 : Int) : ℝ) ≤ (j : ℝ) := by exact_mod_cast hge
    have key := vertical_segment_distance (dx * (((nx : Int) - 1 - (r : Int) : Int) : ℝ))
      (dy * (((ny : Int) / 2 : Int) : ℝ)) (dy * (((ny : Int) - 1 - (r : Int) : Int) : ℝ))
      (dx * (i : ℝ)) (dy * (j : ℝ)) (dy * (j : ℝ))
      (by nlinarith) (by nlinarith) (fun y _ _ => by nlinarith [sq_nonneg (dy * (j : ℝ) - y)])
    have hd : Real.sqrt ((dx * (i : ℝ) - dx * (((nx : Int) - 1 - (r : Int) : Int) : ℝ)) ^ 2
        + (dy * (j : ℝ) - dy * (j : ℝ)) ^ 2)
        = dx * (((nx : Int) - (r : Int) - 1 - i : Int) : ℝ) := by
      have h0 : 0 ≤ dx * ((((nx : Int) - 1 - (r : Int) : Int) : ℝ) - (i : ℝ)) :=
        mul_nonneg (le_of_lt hdx) (by linarith)
      rw [show (dx * (i : ℝ) - dx * (((nx : Int) - 1 - (r : Int) : Int) : ℝ)) ^ 2
          + (dy * (j : ℝ) - dy * (j : ℝ)) ^ 2
        = (dx * ((((nx : Int) - 1 - (r : Int) : Int) : ℝ) - (i : ℝ))) ^ 2 by ring,
        Real.sqrt_sq h0]
      push_cast
      ring
    rw [hd] at key
    exact key
  · have hjh : (j : ℝ) ≤ (((ny : Int) / 2 : Int) : ℝ) := by
      exact_mod_cast le_of_lt (not_le.1 hge)
    have key := vertical_segment_distance (dx * (((nx : Int) - 1 - (r : Int) : Int) : ℝ))
      (dy * (((ny : Int) / 2 : Int) : ℝ)) (dy * (((ny : Int) - 1 - (r : Int) : Int) : ℝ))
      (dx * (i : ℝ)) (dy * (j : ℝ)) (dy * (((ny : Int) / 2 : Int) : ℝ))
      (le_refl _) (by nlinarith) (fun y hy1 _ => by
        have ha : 0 ≤ dy * (((ny : Int) / 2 : Int) : ℝ) - dy * (j : ℝ) := by nlinarith
        have hb : dy * (((ny : Int) / 2 : Int) : ℝ) - dy * (j : ℝ) ≤ y - dy * (j : ℝ) := by
          linarith
        nlinarith)
    have hd : (dx * (i : ℝ) - dx * (((nx : Int) - 1 - (r : Int) : Int) : ℝ)) ^ 2
        + (dy * (j : ℝ) - dy * (((ny : Int) / 2 : Int) : ℝ)) ^ 2
        = dx * dx * (((nx : Int) - (r : Int) - 1 - i : Int) : ℝ)
            * (((nx : Int) - (r : Int) - 1 - i : Int) : ℝ)
          + dy * dy * (((ny : Int) / 2 - j : Int) : ℝ) * (((ny : Int) / 2 - j : Int) : ℝ) := by
      push_cast
      ring
    rw [hd] at key
    exact key

/-- C19: the distances used by `check_solution` are true point-to-segment distances.  For
every `dx, dy > 0`, odd `nm = 2r+1 ≥ 3` (`r = nm/2`) and every interior cell `(j, i)`,
the left-wall value of `r` is the least Euclidean distance from `(dx*i, dy*j)` to the
segment from `(dx*r, dy*r)` to `(dx*r, dy*(ny/2))`, and the right-wall value is the least
distance to the segment from `(dx*(nx-1-r), dy*(ny/2))` to `(dx*(nx-1-r), dy*(ny-1-r))`;
the OpenACC `check_solution` passes these segments and this point to
`distance_point_to_segment`, so its two values agree with them whenever that function
returns the least distance. -/
theorem check_solution_distances (nx ny nm r : Nat) (hnm : nm = 2 * r + 1) (h3 : 3 ≤ nm)
    (dx dy : ℝ) (hdx : 0 < dx) (hdy : 0 < dy) (j i : Int)
    (hj : (r : Int) ≤ j) (hj' : j < (ny : Int) - r) (hi : (r : Int) ≤ i)
    (hi' : i < (nx : Int) - r) :
    IsSegmentDistance Real.sqrt (dx * ((cdiv nm 2 : Int) : ℝ)) (dy * ((cdiv nm 2 : Int) : ℝ))
      (dx * ((cdiv nm 2 : Int) : ℝ)) (dy * ((cdiv ny 2 : Int) : ℝ))
      (dx * ((i : Int) : ℝ)) (dy * ((j : Int) : ℝ))
      (openmp.left_distance Real.sqrt ny dx dy nm j i) ∧
    IsSegmentDistance Real.sqrt (dx * (((nx : Int) - 1 - cdiv nm 2 : Int) : ℝ))
      (dy * ((cdiv ny 2 : Int) : ℝ)) (dx * (((nx : Int) - 1 - cdiv nm 2 : Int) : ℝ))
      (dy * (((ny : Int) - 1 - cdiv nm 2 : Int) : ℝ))
      (dx * ((i : Int) : ℝ)) (dy * ((j : Int) : ℝ))
      (openmp.right_distance Real.sqrt nx ny dx dy nm j i) ∧
    ∀ distance_point_to_segment : ℝ → ℝ → ℝ → ℝ → ℝ → ℝ → ℝ,
      (∀ ax ay bx by_ px py : ℝ, IsSegmentDistance Real.sqrt ax ay bx by_ px py
        (distance_point_to_segment ax ay bx by_ px py)) →
      openacc.left_distance distance_point_to_segment ny dx dy nm j i
        = openmp.left_distance Real.sqrt ny dx dy nm j i ∧
      openacc.right_distance distance_point_to_segment nx ny dx dy nm j i
        = openmp.right_distance Real.sqrt nx ny dx dy nm j i := by
  have hl := left_distance_isSegmentDistance ny nm r hnm dx dy hdx hdy j i hj hj' hi
  have hr := right_distance_isSegmentDistance nx ny nm r hnm dx dy hdx hdy j i hj hj' hi'
  refine ⟨hl, hr, ?_⟩
  intro dps hdps
  exact ⟨IsSegmentDistance.unique (hdps _ _ _ _ _ _) hl,
    IsSegmentDistance.unique (hdps _ _ _ _ _ _) hr⟩

/-- Witness for C19: `nx = 5`, `ny = 4`, `nm = 3`, `dx = 1`, `dy = 2`, interior cell
`(1, 3)`. -/
theorem check_solution_distances_witness :
    IsSegmentDistance Real.sqrt ((1 : ℝ) * ((cdiv ((3 : Nat) : Int) 2 : Int) : ℝ))
      (2 * ((cdiv ((3 : Nat) : Int) 2 : Int) : ℝ)) (1 * ((cdiv ((3 : Nat) : Int) 2 : Int) : ℝ))
      (2 * ((cdiv ((4 : Nat) : Int) 2 : Int) : ℝ)) (1 * (((3 : Int)) : ℝ)) (2 * (((1 : Int)) : ℝ))
      (openmp.left_distance Real.sqrt ((4 : Nat) : Int) 1 2 ((3 : Nat) : Int) 1 3) :=
  (check_solution_distances 5 4 3 1 (by decide) (by decide) 1 2 (by norm_num) (by norm_num)
    1 3 (by decide) (by decide) (by decide) (by decide)).1


/-! ## The interior sum over a diffusion step -/

/-- One diffusion step (`compute_convolution`, then `solve_diffusion_equation`) on
well-shaped arrays with the kernel size 3: both calls return, the old field and the
shapes are kept, every interior cell of the new field holds
`A[j][i] + dt * D * (mask-weighted sum)`, and every other cell of the new field is the
cell of `B`. -/
theorem diffusion_step_spec (nx ny : Nat) (A B C M : Grid K) (D dt e : K)
    (hA : A.HasShape ny nx) (hB : B.HasShape ny nx) (hC : C.HasShape ny nx)
    (hM : M.HasShape 3 3) :
    ∃ s t, openmp.compute_convolution A C M nx ny (3 : Nat) = some s ∧
      openmp.solve_diffusion_equation s.A B s.C nx ny (3 : Nat) D dt e = some t ∧
      t.A = A ∧ t.B.HasShape ny nx ∧ t.C.HasShape ny nx ∧
      (∀ j i : Int, 1 ≤ j → j < (ny : Int) - 1 → 1 ≤ i → i < (nx : Int) - 1 →
        t.B.val j i = A.val j i + dt * D * stencilSum M A 1 j i) ∧
      (∀ j i : Int, ¬ (1 ≤ j ∧ j < (ny : Int) - 1 ∧ 1 ≤ i ∧ i < (nx : Int) - 1) →
        t.B.val j i = B.val j i) := by
  obtain ⟨s, hs, ⟨hsA, _, hsC⟩, hint, _⟩ := compute_convolution_spec nx ny 3 1 rfl A C M hA hC hM
  obtain ⟨t, ht, ⟨htA, htC, htB⟩, htint, htfr, _⟩ :=
    solve_diffusion_equation_spec nx ny 3 1 rfl s.A B s.C D dt e (hsA ▸ hA) hB hsC
  refine ⟨s, t, hs, ht, htA.trans hsA, htB, htC ▸ hsC, ?_, ?_⟩
  · intro j i h1 h2 h3 h4
    have hb := htint j i (by simpa using h1) (by simpa using h2) (by simpa using h3)
      (by simpa using h4)
    have hc := hint j i (by simpa using h1) (by simpa using h2) (by simpa using h3)
      (by simpa using h4)
    have h2' : s.C.val j i = stencilSum M A 1 j i := by
      unfold Grid.val; rw [hc]; rfl
    unfold Grid.val at h2' ⊢
    rw [hb]
    simp only [Option.getD_some]
    unfold Grid.val
    rw [h2', hsA]
  · intro j i hne
    unfold Grid.val
    rw [htfr j i (by simpa using hne)]

/-- The interior sum after one diffusion step: the old interior sum plus `dt * D` times the
interior sum of the mask-weighted sums. -/
theorem diffusion_step_interiorSum (nx ny : Nat) (A B C M : Grid K) (D dt e : K)
    (hA : A.HasShape ny nx) (hB : B.HasShape ny nx) (hC : C.HasShape ny nx)
    (hM : M.HasShape 3 3) :
    ∃ s t, openmp.compute_convolution A C M nx ny (3 : Nat) = some s ∧
      openmp.solve_diffusion_equation s.A B s.C nx ny (3 : Nat) D dt e = some t ∧
      interiorSum t.B nx ny 1 = interiorSum A nx ny 1
        + dt * D * ∑ j ∈ Finset.Ico (1 : Int) ((ny : Int) - 1),
            ∑ i ∈ Finset.Ico (1 : Int) ((nx : Int) - 1), stencilSum M A 1 j i := by
  obtain ⟨s, t, hs, ht, _, _, _, hint, _⟩ := diffusion_step_spec nx ny A B C M D dt e hA hB hC hM
  refine ⟨s, t, hs, ht, ?_⟩
  unfold interiorSum
  rw [Finset.mul_sum, ← Finset.sum_add_distrib]
  refine Finset.sum_congr rfl (fun j hj => ?_)
  rw [Finset.mul_sum, ← Finset.sum_add_distrib]
  refine Finset.sum_congr rfl (fun i hi => ?_)
  rw [Finset.mem_Ico] at hj hi
  exact hint j i hj.1 hj.2 hi.1 hi.2

/-- For a field antisymmetric about the vertical mid-line and a 3-by-3 mask that is
left-right symmetric with entries summing to 0, the mask-weighted sums at a cell and at
its mirror image cancel. -/
theorem stencilSum_mirror (nx ny : Nat) (A M : Grid K) (c : K) (hmir : A.MirrorSum ny nx c)
    (hsym0 : M.val 0 0 = M.val 0 2) (hsym1 : M.val 1 0 = M.val 1 2)
    (hsym2 : M.val 2 0 = M.val 2 2)
    (hsum : M.val 0 0 + M.val 0 1 + M.val 0 2 + M.val 1 0 + M.val 1 1 + M.val 1 2
      + M.val 2 0 + M.val 2 1 + M.val 2 2 = 0)
    (j i : Int) (h1 : 1 ≤ j) (h2 : j < (ny : Int) - 1) (h3 : 1 ≤ i) (h4 : i < (nx : Int) - 1) :
    stencilSum M A 1 j i + stencilSum M A 1 j ((nx : Int) - 1 - i) = 0 := by
  have m1 : ∀ j' : Int, 0 ≤ j' → j' < ny →
      A.val j' ((nx : Int) - 1 - i - 1) = c - A.val j' (i + 1) := by
    intro j' ha hb
    have := hmir j' (i + 1) ha hb (by omega) (by omega)
    rw [show (nx : Int) - 1 - (i + 1) = (nx : Int) - 1 - i - 1 by ring] at this
    rw [← this]; ring
  have m2 : ∀ j' : Int, 0 ≤ j' → j' < ny →
      A.val j' ((nx : Int) - 1 - i) = c - A.val j' i := by
    intro j' ha hb
    have := hmir j' i ha hb (by omega) (by omega)
    rw [← this]; ring
  have m3 : ∀ j' : Int, 0 ≤ j' → j' < ny →
      A.val j' ((nx : Int) - 1 - i + 1) = c - A.val j' (i - 1) := by
    intro j' ha hb
    have := hmir j' (i - 1) ha hb (by omega) (by omega)
    rw [show (nx : Int) - 1 - (i - 1) = (nx : Int) - 1 - i + 1 by ring] at this
    rw [← this]; ring
  rw [stencilSum_one, stencilSum_one,
    m1 (j - 1) (by omega) (by omega), m2 (j - 1) (by omega) (by omega),
    m3 (j - 1) (by omega) (by omega), m1 j (by omega) (by omega), m2 j (by omega) (by omega),
    m3 j (by omega) (by omega), m1 (j + 1) (by omega) (by omega),
    m2 (j + 1) (by omega) (by omega), m3 (j + 1) (by omega) (by omega)]
  linear_combination c * hsum
    + (A.val (j - 1) (i - 1) - A.val (j - 1) (i + 1)) * hsym0
    + (A.val j (i - 1) - A.val j (i + 1)) * hsym1
    + (A.val (j + 1) (i - 1) - A.val (j + 1) (i + 1)) * hsym2

/-- A sum over the interior columns is unchanged by the reflection `i ↦ nx - 1 - i`. -/
theorem sum_Ico_mirror (nx : Nat) (f : Int → K) :
    ∑ i ∈ Finset.Ico (1 : Int) ((nx : Int) - 1), f ((nx : Int) - 1 - i)
      = ∑ i ∈ Finset.Ico (1 : Int) ((nx : Int) - 1), f i := by
  refine Finset.sum_nbij' (fun i => (nx : Int) - 1 - i) (fun i => (nx : Int) - 1 - i)
    ?_ ?_ ?_ ?_ ?_
  · intro a ha; simp only [Finset.mem_Ico] at ha ⊢; omega
  · intro a ha; simp only [Finset.mem_Ico] at ha ⊢; omega
  · intro a _; simp only []; ring
  · intro a _; simp only []; ring
  · intro a _; rfl

/-- One diffusion step on fields antisymmetric about the vertical mid-line: the new field
is antisymmetric again and has the same interior sum. -/
theorem mirror_step (nx ny : Nat) (A B C M : Grid K) (D dt e c : K) (h2 : (2 : K) ≠ 0)
    (hA : A.HasShape ny nx) (hB : B.HasShape ny nx) (hC : C.HasShape ny nx)
    (hM : M.HasShape 3 3) (hmA : A.MirrorSum ny nx c) (hmB : B.MirrorSum ny nx c)
    (hsym0 : M.val 0 0 = M.val 0 2) (hsym1 : M.val 1 0 = M.val 1 2)
    (hsym2 : M.val 2 0 = M.val 2 2)
    (hsum : M.val 0 0 + M.val 0 1 + M.val 0 2 + M.val 1 0 + M.val 1 1 + M.val 1 2
      + M.val 2 0 + M.val 2 1 + M.val 2 2 = 0) :
    ∃ s t, openmp.compute_convolution A C M nx ny (3 : Nat) = some s ∧
      openmp.solve_diffusion_equation s.A B s.C nx ny (3 : Nat) D dt e = some t ∧
      t.A = A ∧ t.B.HasShape ny nx ∧ t.C.HasShape ny nx ∧ t.B.MirrorSum ny nx c ∧
      interiorSum t.B nx ny 1 = interiorSum A nx ny 1 := by
  obtain ⟨s, t, hs, ht, htA, htB, htC, hint, hfr⟩ :=
    diffusion_step_spec nx ny A B C M D dt e hA hB hC hM
  refine ⟨s, t, hs, ht, htA, htB, htC, ?_, ?_⟩
  · intro j i hj hj' hi hi'
    by_cases hin : 1 ≤ j ∧ j < (ny : Int) - 1 ∧ 1 ≤ i ∧ i < (nx : Int) - 1
    · obtain ⟨a1, a2, a3, a4⟩ := hin
      rw [hint j i a1 a2 a3 a4, hint j ((nx : Int) - 1 - i) a1 a2 (by omega) (by omega)]
      have hm := hmA j i hj hj' hi hi'
      have hl := stencilSum_mirror nx ny A M c hmA hsym0 hsym1 hsym2 hsum j i a1 a2 a3 a4
      linear_combination hm + dt * D * hl
    · rw [hfr j i hin, hfr j ((nx : Int) - 1 - i) (by omega)]
      exact hmB j i hj hj' hi hi'
  · unfold interiorSum
    refine Finset.sum_congr rfl (fun j hj => ?_)
    rw [Finset.mem_Ico] at hj
    have hrow : ∑ i ∈ Finset.Ico (1 : Int) ((nx : Int) - 1), stencilSum M A 1 j i = 0 := by
      have hpair : ∑ i ∈ Finset.Ico (1 : Int) ((nx : Int) - 1),
          (stencilSum M A 1 j i + stencilSum M A 1 j ((nx : Int) - 1 - i)) = 0 := by
        refine Finset.sum_eq_zero (fun i hi => ?_)
        rw [Finset.mem_Ico] at hi
        exact stencilSum_mirror nx ny A M c hmA hsym0 hsym1 hsym2 hsum j i hj.1 hj.2 hi.1 hi.2
      rw [Finset.sum_add_distrib, sum_Ico_mirror nx (fun i => stencilSum M A 1 j i)] at hpair
      have h2s : (2 : K) * ∑ i ∈ Finset.Ico (1 : Int) ((nx : Int) - 1), stencilSum M A 1 j i
          = 0 := by
        rw [two_mul]; exact hpair
      rcases mul_eq_zero.1 h2s with h | h
      · exact absurd h h2
      · exact h
    have hstep : ∑ i ∈ Finset.Ico (1 : Int) ((nx : Int) - 1), t.B.val j i
        = ∑ i ∈ Finset.Ico (1 : Int) ((nx : Int) - 1),
            (A.val j i + dt * D * stencilSum M A 1 j i) := by
      refine Finset.sum_congr rfl (fun i hi => ?_)
      rw [Finset.mem_Ico] at hi
      exact hint j i hj.1 hj.2 hi.1 hi.2
    rw [hstep, Finset.sum_add_distrib, ← Finset.mul_sum, hrow]
    ring

/-- Any number of diffusion steps on buffers antisymmetric about the vertical mid-line
return a field with the interior sum of the initial field. -/
theorem mirror_steps (nx ny : Nat) (M : Grid K) (D dt c : K) (h2 : (2 : K) ≠ 0)
    (hM : M.HasShape 3 3)
    (hsym0 : M.val 0 0 = M.val 0 2) (hsym1 : M.val 1 0 = M.val 1 2)
    (hsym2 : M.val 2 0 = M.val 2 2)
    (hsum : M.val 0 0 + M.val 0 1 + M.val 0 2 + M.val 1 0 + M.val 1 1 + M.val 1 2
      + M.val 2 0 + M.val 2 1 + M.val 2 2 = 0) :
    ∀ (k : Nat) (A B C : Grid K) (e : K), A.HasShape ny nx → B.HasShape ny nx →
      C.HasShape ny nx → A.MirrorSum ny nx c → B.MirrorSum ny nx c →
      ∃ A', diffusion_steps M nx ny (3 : Nat) D dt k A B C e = some A' ∧
        interiorSum A' nx ny 1 = interiorSum A nx ny 1 := by
  intro k
  induction k with
  | zero => intro A B C e _ _ _ _ _; exact ⟨A, rfl, rfl⟩
  | succ k ih =>
    intro A B C e hA hB hC hmA hmB
    obtain ⟨s, t, hs, ht, htA, htB, htC, htm, hsumeq⟩ :=
      mirror_step nx ny A B C M D dt e c h2 hA hB hC hM hmA hmB hsym0 hsym1 hsym2 hsum
    obtain ⟨A', hA', hsum'⟩ := ih t.B t.A t.C t.elapsed htB (htA ▸ hA) htC htm (htA ▸ hmA)
    refine ⟨A', ?_, hsum'.trans hsumeq⟩
    simp only [diffusion_steps, hs, ht, bind, Option.bind]
    exact hA'

/-- The entries of the step-function field. -/
theorem stepField_val (c : Nat) (j i : Int) (hj : 0 ≤ j) (hj' : j < 12) (hi : 0 ≤ i)
    (hi' : i < 12) : (stepField c).val j i = if i.toNat < c then 1 else 0 := by
  have h1 : j.toNat < 12 := by omega
  have h2 : i.toNat < 12 := by omega
  have hrow : (stepField c)[j.toNat]?
      = some ((List.range 12).map (fun i => if i < c then (1 : ℚ) else 0)) := by
    unfold stepField
    rw [List.getElem?_eq_getElem (by simpa using h1), List.getElem_replicate]
  have hcell : ((List.range 12).map (fun i => if i < c then (1 : ℚ) else 0))[i.toNat]?
      = some (if i.toNat < c then 1 else 0) := by
    rw [List.getElem?_eq_getElem (by simpa using h2), List.getElem_map, List.getElem_range]
  unfold Grid.val Grid.rd
  rw [if_pos ⟨hj, hi⟩, hrow]
  simp only [hcell, Option.getD_some]

theorem stepField_hasShape (c : Nat) : (stepField c).HasShape 12 12 := by
  refine ⟨by simp [stepField], ?_⟩
  intro row hrow
  rw [stepField, List.mem_replicate] at hrow
  rw [hrow.2]; simp

/-- The step on the vertical mid-line is antisymmetric about it: `F[j][i] + F[j][11-i] = 1`. -/
theorem stepField_mirror : (stepField 6).MirrorSum 12 12 1 := by
  intro j i hj hj' hi hi'
  rw [stepField_val 6 j i hj (by exact_mod_cast hj') hi (by exact_mod_cast hi'),
    stepField_val 6 j _ hj (by exact_mod_cast hj') (by push_cast; omega) (by push_cast; omega)]
  by_cases h : i.toNat < 6
  · have h' : ¬ (((12 : Nat) : Int) - 1 - i).toNat < 6 := by push_cast; omega
    rw [if_pos h, if_neg h']; norm_num
  · have h' : (((12 : Nat) : Int) - 1 - i).toNat < 6 := by push_cast; omega
    rw [if_neg h, if_pos h']; norm_num

/-- The nine entries of the 5-point mask for `dx = dy = 1`. -/
theorem unit_mask_vals :
    Grid.val ([[0, 1, 0], [1, -4, 1], [0, 1, 0]] : Grid K) 0 0 = 0 ∧
    Grid.val ([[0, 1, 0], [1, -4, 1], [0, 1, 0]] : Grid K) 0 1 = 1 ∧
    Grid.val ([[0, 1, 0], [1, -4, 1], [0, 1, 0]] : Grid K) 0 2 = 0 ∧
    Grid.val ([[0, 1, 0], [1, -4, 1], [0, 1, 0]] : Grid K) 1 0 = 1 ∧
    Grid.val ([[0, 1, 0], [1, -4, 1], [0, 1, 0]] : Grid K) 1 1 = -4 ∧
    Grid.val ([[0, 1, 0], [1, -4, 1], [0, 1, 0]] : Grid K) 1 2 = 1 ∧
    Grid.val ([[0, 1, 0], [1, -4, 1], [0, 1, 0]] : Grid K) 2 0 = 0 ∧
    Grid.val ([[0, 1, 0], [1, -4, 1], [0, 1, 0]] : Grid K) 2 1 = 1 ∧
    Grid.val ([[0, 1, 0], [1, -4, 1], [0, 1, 0]] : Grid K) 2 2 = 0 := by
  simp [Grid.val, Grid.rd]

theorem unit_mask_hasShape : Grid.HasShape ([[0, 1, 0], [1, -4, 1], [0, 1, 0]] : Grid K) 3 3 :=
  ⟨rfl, by simp⟩


/-- One diffusion step with the unit 5-point mask and `0 ≤ dt * D ≤ 1/4`, on non-negative
fields whose ghost cell `[1][0]` is held at 1: the new field is non-negative again and its
interior cell `[1][1]` is at least `dt * D`. -/
theorem inflow_step (nx ny : Nat) (hx : 3 ≤ nx) (hy : 3 ≤ ny) (A B C : Grid ℚ) (D dt e : ℚ)
    (hl0 : 0 ≤ dt * D) (hl1 : 4 * (dt * D) ≤ 1)
    (hA : A.HasShape ny nx) (hB : B.HasShape ny nx) (hC : C.HasShape ny nx)
    (hA0 : ∀ j i : Int, 0 ≤ j → j < ny → 0 ≤ i → i < nx → 0 ≤ A.val j i)
    (hB0 : ∀ j i : Int, 0 ≤ j → j < ny → 0 ≤ i → i < nx → 0 ≤ B.val j i)
    (hA1 : A.val 1 0 = 1) (hB1 : B.val 1 0 = 1) :
    ∃ s t, openmp.compute_convolution A C ([[0, 1, 0], [1, -4, 1], [0, 1, 0]] : Grid ℚ)
        nx ny (3 : Nat) = some s ∧
      openmp.solve_diffusion_equation s.A B s.C nx ny (3 : Nat) D dt e = some t ∧
      t.A = A ∧ t.B.HasShape ny nx ∧ t.C.HasShape ny nx ∧
      (∀ j i : Int, 0 ≤ j → j < ny → 0 ≤ i → i < nx → 0 ≤ t.B.val j i) ∧
      t.B.val 1 0 = 1 ∧ dt * D ≤ t.B.val 1 1 := by
  obtain ⟨s, t, hs, ht, htA, htB, htC, hint, hfr⟩ :=
    diffusion_step_spec nx ny A B C _ D dt e hA hB hC unit_mask_hasShape
  obtain ⟨v00, v01, v02, v10, v11, v12, v20, v21, v22⟩ := @unit_mask_vals ℚ _
  have hcell : ∀ j i : Int, 1 ≤ j → j < (ny : Int) - 1 → 1 ≤ i → i < (nx : Int) - 1 →
      t.B.val j i = A.val j i + dt * D * (A.val (j - 1) i + A.val j (i - 1) - 4 * A.val j i
        + A.val j (i + 1) + A.val (j + 1) i) := by
    intro j i h1 h2 h3 h4
    rw [hint j i h1 h2 h3 h4, stencilSum_one, v00, v01, v02, v10, v11, v12, v20, v21, v22]
    ring
  refine ⟨s, t, hs, ht, htA, htB, htC, ?_, ?_, ?_⟩
  · intro j i hj hj' hi hi'
    by_cases hin : 1 ≤ j ∧ j < (ny : Int) - 1 ∧ 1 ≤ i ∧ i < (nx : Int) - 1
    · obtain ⟨a1, a2, a3, a4⟩ := hin
      rw [hcell j i a1 a2 a3 a4]
      have n0 := hA0 j i hj hj' hi hi'
      have n1 := hA0 (j - 1) i (by omega) (by omega) hi hi'
      have n2 := hA0 j (i - 1) hj hj' (by omega) (by omega)
      have n3 := hA0 j (i + 1) hj hj' (by omega) (by omega)
      have n4 := hA0 (j + 1) i (by omega) (by omega) hi hi'
      nlinarith [mul_nonneg hl0 n1, mul_nonneg hl0 n2, mul_nonneg hl0 n3, mul_nonneg hl0 n4,
        mul_nonneg (sub_nonneg.2 hl1) n0]
    · rw [hfr j i hin]
      exact hB0 j i hj hj' hi hi'
  · rw [hfr 1 0 (by omega)]
    exact hB1
  · rw [hcell 1 1 (by omega) (by omega) (by omega) (by omega)]
    have n0 := hA0 1 1 (by omega) (by omega) (by omega) (by omega)
    have n1 := hA0 (1 - 1) 1 (by omega) (by omega) (by omega) (by omega)
    have n3 := hA0 1 (1 + 1) (by omega) (by omega) (by omega) (by omega)
    have n4 := hA0 (1 + 1) 1 (by omega) (by omega) (by omega) (by omega)
    have e10 : A.val 1 (1 - 1) = 1 := by simpa using hA1
    rw [e10]
    nlinarith [mul_nonneg hl0 n1, mul_nonneg hl0 n3, mul_nonneg hl0 n4,
      mul_nonneg (sub_nonneg.2 hl1) n0]

/-- After one or more such steps the interior sum is at least `dt * D`. -/
theorem inflow_steps (nx ny : Nat) (hx : 3 ≤ nx) (hy : 3 ≤ ny) (D dt : ℚ)
    (hl0 : 0 ≤ dt * D) (hl1 : 4 * (dt * D) ≤ 1) :
    ∀ (k : Nat) (A B C : Grid ℚ) (e : ℚ),
      A.HasShape ny nx → B.HasShape ny nx → C.HasShape ny nx →
      (∀ j i : Int, 0 ≤ j → j < ny → 0 ≤ i → i < nx → 0 ≤ A.val j i) →
      (∀ j i : Int, 0 ≤ j → j < ny → 0 ≤ i → i < nx → 0 ≤ B.val j i) →
      A.val 1 0 = 1 → B.val 1 0 = 1 →
      ∃ A', diffusion_steps ([[0, 1, 0], [1, -4, 1], [0, 1, 0]] : Grid ℚ) nx ny (3 : Nat) D dt
          (k + 1) A B C e = some A' ∧
        (∀ j i : Int, 0 ≤ j → j < ny → 0 ≤ i → i < nx → 0 ≤ A'.val j i) ∧
        dt * D ≤ A'.val 1 1 := by
  intro k
  induction k with
  | zero =>
    intro A B C e hA hB hC hA0 hB0 hA1 hB1
    obtain ⟨s, t, hs, ht, _, _, _, h0, _, h11⟩ :=
      inflow_step nx ny hx hy A B C D dt e hl0 hl1 hA hB hC hA0 hB0 hA1 hB1
    refine ⟨t.B, ?_, h0, h11⟩
    simp only [diffusion_steps, hs, ht, bind, Option.bind]
  | succ k ih =>
    intro A B C e hA hB hC hA0 hB0 hA1 hB1
    obtain ⟨s, t, hs, ht, htA, htB, htC, h0, h10, _⟩ :=
      inflow_step nx ny hx hy A B C D dt e hl0 hl1 hA hB hC hA0 hB0 hA1 hB1
    obtain ⟨A', hA', hA'0, hA'1⟩ := ih t.B t.A t.C t.elapsed htB (htA ▸ hA) htC h0
      (htA ▸ hA0) h10 (htA ▸ hA1)
    refine ⟨A', ?_, hA'0, hA'1⟩
    rw [diffusion_steps]
    simp only [hs, ht, bind, Option.bind]
    exact hA'

/-- The interior sum of a non-negative field is at least its cell `[1][1]`. -/
theorem interiorSum_ge_cell (nx ny : Nat) (hx : 3 ≤ nx) (hy : 3 ≤ ny) (F : Grid ℚ)
    (h0 : ∀ j i : Int, 0 ≤ j → j < ny → 0 ≤ i → i < nx → 0 ≤ F.val j i) :
    F.val 1 1 ≤ interiorSum F nx ny 1 := by
  unfold interiorSum
  have hrow : F.val 1 1 ≤ ∑ i ∈ Finset.Ico (1 : Int) ((nx : Int) - 1), F.val 1 i :=
    Finset.single_le_sum (f := fun i => F.val 1 i)
      (fun i hi => by
        rw [Finset.mem_Ico] at hi
        exact h0 1 i (by omega) (by omega) (by omega) (by omega))
      (by rw [Finset.mem_Ico]; omega)
  refine le_trans hrow ?_
  exact Finset.single_le_sum
    (f := fun j => ∑ i ∈ Finset.Ico (1 : Int) ((nx : Int) - 1), F.val j i)
    (fun j hj => Finset.sum_nonneg (fun i hi => by
      rw [Finset.mem_Ico] at hi hj
      exact h0 j i (by omega) (by omega) (by omega) (by omega)))
    (by rw [Finset.mem_Ico]; omega)

/-- In the scenario with the step at the left wall (ghost column at 1, interior at 0) the
interior sum is 0 at the start and at least `1/10` after 10 steps. -/
theorem inflow_scenario :
    ∃ A', diffusion_steps ([[0, 1, 0], [1, -4, 1], [0, 1, 0]] : Grid ℚ) 12 12 3 1 (1 / 10) 10
        (stepField 1) (stepField 1) (Grid.const 12 12 0) 0 = some A' ∧
      interiorSum (stepField 1) 12 12 1 = 0 ∧ 1 / 10 ≤ interiorSum A' 12 12 1 := by
  have hnn : ∀ j i : Int, 0 ≤ j → j < ((12 : Nat) : Int) → 0 ≤ i → i < ((12 : Nat) : Int) →
      0 ≤ (stepField 1).val j i := by
    intro j i hj hj' hi hi'
    rw [stepField_val 1 j i hj (by exact_mod_cast hj') hi (by exact_mod_cast hi')]
    split_ifs <;> norm_num
  have h10 : (stepField 1).val 1 0 = 1 := by
    rw [stepField_val 1 1 0 (by norm_num) (by norm_num) (by norm_num) (by norm_num)]
    simp
  obtain ⟨A', hA', hA'0, hA'1⟩ := inflow_steps 12 12 (by norm_num) (by norm_num) 1 (1 / 10)
    (by norm_num) (by norm_num) 9 (stepField 1) (stepField 1) (Grid.const 12 12 0) 0
    (stepField_hasShape 1) (stepField_hasShape 1) (Grid.const_hasShape 12 12 0) hnn hnn h10 h10
  refine ⟨A', hA', by decide!, ?_⟩
  have := interiorSum_ge_cell 12 12 (by norm_num) (by norm_num) A' hA'0
  have h' : (1 : ℚ) / 10 ≤ A'.val 1 1 := by simpa using hA'1
  exact le_trans h' this
/-- C16, counterexample: on the 3-by-3 field that is 1 at its interior cell and 0 on the
ghost cells, one diffusion step with the 5-point mask (`dx = dy = 1`, `D = 1`,
`dt = 1/10`) takes the interior sum from 1 to 3/5; and in the 10-by-10 scenario with the
step at the left wall (ghost column at 1, every other cell at 0) the interior sum is 0 at
the start and at least 1/10 after 10 steps. -/
theorem interior_sum_not_conserved :
    openmp.set_mask (1 : ℚ) 1 3 (Grid.const 3 3 0) = some [[0, 1, 0], [1, -4, 1], [0, 1, 0]] ∧
    interiorSum ([[0, 0, 0], [0, 1, 0], [0, 0, 0]] : Grid ℚ) 3 3 1 = 1 ∧
    (diffusion_steps ([[0, 1, 0], [1, -4, 1], [0, 1, 0]] : Grid ℚ) 3 3 3 1 (1 / 10) 1
        [[0, 0, 0], [0, 1, 0], [0, 0, 0]] [[0, 0, 0], [0, 1, 0], [0, 0, 0]]
        (Grid.const 3 3 0) 0).map (fun A => interiorSum A 3 3 1) = some (3 / 5) ∧
    ∃ A', diffusion_steps ([[0, 1, 0], [1, -4, 1], [0, 1, 0]] : Grid ℚ) 12 12 3 1 (1 / 10) 10
        (stepField 1) (stepField 1) (Grid.const 12 12 0) 0 = some A' ∧
      interiorSum (stepField 1) 12 12 1 = 0 ∧ 1 / 10 ≤ interiorSum A' 12 12 1 := by
  refine ⟨?_, ?_, ?_, inflow_scenario⟩
  · decide!
  · decide!
  · decide!

/-- C16, amended: for every well-shaped `ny`-by-`nx` field and 3-by-3 mask (`nm = 3`), one
diffusion step (`compute_convolution` followed by `solve_diffusion_equation`) changes the
sum of the field over the interior region by exactly `dt * D` times the interior sum of
the convolution; the sum is kept, over any number of steps, when the field and the ghost
cells are antisymmetric about the vertical mid-line of the grid and the mask is the
5-point mask; in particular in the scenario (10-by-10 interior, `dx = dy = 1`, `D = 1`,
`dt = 1/10`, ghost cells held at their initial values) with the step on the mid-line (1 in
the columns `i < 6`, 0 in the others) the interior sum after 10 steps equals the initial
interior sum, 50. -/
theorem interior_sum_step (nx ny : Nat) (A B C M : Grid K) (D dt e : K)
    (hA : A.HasShape ny nx) (hB : B.HasShape ny nx) (hC : C.HasShape ny nx)
    (hM : M.HasShape 3 3) :
    (∃ s t, openmp.compute_convolution A C M nx ny (3 : Nat) = some s ∧
      openmp.solve_diffusion_equation s.A B s.C nx ny (3 : Nat) D dt e = some t ∧
      interiorSum t.B nx ny 1 = interiorSum A nx ny 1
        + dt * D * ∑ j ∈ Finset.Ico (1 : Int) ((ny : Int) - 1),
            ∑ i ∈ Finset.Ico (1 : Int) ((nx : Int) - 1), stencilSum M A 1 j i) ∧
    (∀ (c : K) (k : Nat), (2 : K) ≠ 0 → A.MirrorSum ny nx c → B.MirrorSum ny nx c →
      ∃ A', diffusion_steps ([[0, 1, 0], [1, -4, 1], [0, 1, 0]] : Grid K) nx ny (3 : Nat) D dt
          k A B C e = some A' ∧
        interiorSum A' nx ny 1 = interiorSum A nx ny 1) ∧
    openmp.set_mask (1 : ℚ) 1 3 (Grid.const 3 3 0) = some [[0, 1, 0], [1, -4, 1], [0, 1, 0]] ∧
    interiorSum (stepField 6) 12 12 1 = 50 ∧
    (diffusion_steps ([[0, 1, 0], [1, -4, 1], [0, 1, 0]] : Grid ℚ) 12 12 3 1 (1 / 10) 10
        (stepField 6) (stepField 6) (Grid.const 12 12 0) 0).map
        (fun A => interiorSum A 12 12 1) = some 50 := by
  have hvals := fun (K' : Type) (inst : Field K') => @unit_mask_vals K' inst
  have h50 : interiorSum (stepField 6) 12 12 1 = 50 := by decide!
  refine ⟨diffusion_step_interiorSum nx ny A B C M D dt e hA hB hC hM, ?_, ?_, h50, ?_⟩
  · intro c k h2 hmA hmB
    obtain ⟨v00, v01, v02, v10, v11, v12, v20, v21, v22⟩ := hvals K inferInstance
    exact mirror_steps nx ny _ D dt c h2 unit_mask_hasShape (by rw [v00, v02])
      (by rw [v10, v12]) (by rw [v20, v22])
      (by rw [v00, v01, v02, v10, v11, v12, v20, v21, v22]; ring) k A B C e hA hB hC hmA hmB
  · decide!
  · obtain ⟨v00, v01, v02, v10, v11, v12, v20, v21, v22⟩ := hvals ℚ inferInstance
    obtain ⟨A', hA', hsum⟩ := mirror_steps 12 12 ([[0, 1, 0], [1, -4, 1], [0, 1, 0]] : Grid ℚ)
      1 (1 / 10) 1 (by norm_num) unit_mask_hasShape (by rw [v00, v02])
      (by rw [v10, v12]) (by rw [v20, v22])
      (by rw [v00, v01, v02, v10, v11, v12, v20, v21, v22]; ring) 10
      (stepField 6) (stepField 6) (Grid.const 12 12 0) 0 (stepField_hasShape 6)
      (stepField_hasShape 6) (Grid.const_hasShape 12 12 0) stepField_mirror stepField_mirror
    have hA'' : diffusion_steps ([[0, 1, 0], [1, -4, 1], [0, 1, 0]] : Grid ℚ) 12 12 3 1
        (1 / 10) 10 (stepField 6) (stepField 6) (Grid.const 12 12 0) 0 = some A' := hA'
    rw [hA'', Option.map_some']
    exact congrArg some (hsum.trans h50)

/-- Witness for the amended C16: the 3-by-3 field with a single 1 at its interior cell. -/
theorem interior_sum_step_witness :
    ∃ s t, openmp.compute_convolution ([[0, 0, 0], [0, 1, 0], [0, 0, 0]] : Grid ℚ)
        (Grid.const 3 3 0) [[0, 1, 0], [1, -4, 1], [0, 1, 0]] (3 : Nat) (3 : Nat) (3 : Nat)
        = some s ∧
      openmp.solve_diffusion_equation s.A (Grid.const 3 3 0) s.C (3 : Nat) (3 : Nat) (3 : Nat)
        1 (1 / 10) 0 = some t ∧
      interiorSum t.B (3 : Nat) (3 : Nat) 1
        = interiorSum ([[0, 0, 0], [0, 1, 0], [0, 0, 0]] : Grid ℚ) (3 : Nat) (3 : Nat) 1
          + 1 / 10 * 1 * ∑ j ∈ Finset.Ico (1 : Int) (((3 : Nat) : Int) - 1),
            ∑ i ∈ Finset.Ico (1 : Int) (((3 : Nat) : Int) - 1),
              stencilSum ([[0, 1, 0], [1, -4, 1], [0, 1, 0]] : Grid ℚ)
                [[0, 0, 0], [0, 1, 0], [0, 0, 0]] 1 j i :=
  (interior_sum_step 3 3 ([[0, 0, 0], [0, 1, 0], [0, 0, 0]] : Grid ℚ) (Grid.const 3 3 0)
    (Grid.const 3 3 0) [[0, 1, 0], [1, -4, 1], [0, 1, 0]] 1 (1 / 10) 0 (by decide) (by decide)
    (by decide) (by decide)).1

end HiPerC
